import Mathlib

/-!
# Seam carving (`src/main.c`): a shallow embedding and its verified properties

The C program narrows an image by repeatedly deleting a minimal-energy vertical seam.
The grids of the program (`Img`, `Mat`) are records of a height, a logical width, a stride
and a pointer to the cells; here the pointer is the function from cell offsets to cell
values.  C `int`s are unbounded integers (no value in the program comes near `INT_MAX`
for an image that fits in memory), `float`s are elements of a linearly ordered field and
`sqrtf` is a parameter of the embedding, instantiated with `Real.sqrt` in the theorems.
Comparisons, copies and moves of `float`s are exact in the program; its additions round to
binary32.  The addition of `build_dp` is therefore an operation `add` of `build_dp_with`,
and the optimality of the cost map and of the seam is proved for every `add` that is
monotone, as the rounding addition is; `build_dp` is the instance with the exact addition.
The sums of `sobel_filter_at` are exact sums, and the properties proved from them are
those that rounding keeps: zero sums, sums of small integers, and the sign of a sum of
terms of one sign.  A failed `NOB_ASSERT` and a `while` loop that has not left after the
given number of tests of its condition are the result `none`.
-/

namespace SeamCarving

/-! ## Data model -/

/-- The `Pixel` bit-field record: four channels of 8 bits each. -/
structure Pixel where
  red : Fin 256
  green : Fin 256
  blue : Fin 256
  alpha : Fin 256
deriving DecidableEq, Repr

/-- The records `Img` and `Mat` of the source have the same four fields and differ in the
cell type only; `items` is the memory the pointer of the source addresses. -/
structure Mat (β : Type) where
  height : Int
  width : Int
  stride : Int
  items : Int → β

/-- The source's `Img`: a grid of pixels. -/
abbrev Img := Mat Pixel

/-- The source's `for (int i = lo; i < hi; i++) body`, on a loop state of type `σ`. -/
def for_loop {σ : Type} (lo hi : Int) (body : Int → σ → σ) (s : σ) : σ :=
  (List.range (hi - lo).toNat).foldl (fun s (k : Nat) => body (lo + (k : Int)) s) s

section Grid

variable {β : Type}

/-- The macro `MAT_AT(m, y, x)` read as an rvalue. -/
def MAT_AT (m : Mat β) (y x : Int) : β :=
  m.items (x + y * m.stride)

/-- The macro `MAT_AT(m, y, x) = v` used as an lvalue. -/
def MAT_SET (m : Mat β) (y x : Int) (v : β) : Mat β :=
  { m with items := Function.update m.items (x + y * m.stride) v }

/-- The macro `MAT_WITHIN(m, y, x)`. -/
def MAT_WITHIN (m : Mat β) (y x : Int) : Bool :=
  decide (0 ≤ y) && decide (0 ≤ x) && decide (y < m.height) && decide (x < m.width)

/-- The macro `MAT_SAME_DIM(m1, m2)`. -/
def MAT_SAME_DIM {γ : Type} (m1 : Mat β) (m2 : Mat γ) : Bool :=
  decide (m1.width = m2.width) && decide (m1.height = m2.height)

/-- The macro `mat_alloc`: the assertion on the dimensions, then a grid whose stride is its
width.  The cells are uninitialised in the source; `fill` stands for their content. -/
def mat_alloc (fill : β) (m_height m_width : Int) : Option (Mat β) :=
  if m_width > 0 ∧ m_height > 0 then
    some { height := m_height, width := m_width, stride := m_width, items := fun _ => fill }
  else none

/-- The library function `memmove(dst, src, n)` on cells: the `n` cells from `src` on are
copied to `dst` on, as if through a temporary buffer.  (A negative count, which the source
would turn into a huge `size_t`, copies nothing here.) -/
def memmove (items : Int → β) (dst src n : Int) : Int → β :=
  fun i => if dst ≤ i ∧ i < dst + n then items (src + (i - dst)) else items i

end Grid

section Engine

variable {α : Type} [LinearOrderedField α]

/-- The constant `FLT_MAX` of `<float.h>` (IEEE 754 binary32): `(2 - 2^(-23)) * 2^127`. -/
def FLT_MAX : α := 340282346638528859811704183484516925440

/-! ## Luminance -/

/-- The source's `pixel_to_lum`, in exact arithmetic. -/
def pixel_to_lum (pixel : Pixel) : α :=
  ((299 : α) / 1000 * ((pixel.red : Nat) : α) + (587 : α) / 1000 * ((pixel.green : Nat) : α)
    + (114 : α) / 1000 * ((pixel.blue : Nat) : α)) / 255

/-- The source's `rgb_to_lum`. -/
def rgb_to_lum (img : Img) (lum : Mat α) : Option (Mat α) :=
  if MAT_SAME_DIM img lum then
    some (for_loop 0 img.height (fun y lum =>
      for_loop 0 img.width (fun x lum => MAT_SET lum y x (pixel_to_lum (MAT_AT img y x))) lum) lum)
  else none

/-! ## Energy -/

/-- The table `fltr_conv_krnl` of `sobel_filter_at`. -/
def fltr_conv_krnl : List (List Int) := [[1, 0, -1], [2, 0, -2], [1, 0, -1]]

/-- The entry `fltr_conv_krnl[i][j]`. -/
def krnl (i j : Int) : Int :=
  (fltr_conv_krnl.getD i.toNat []).getD j.toNat 0

/-- The two accumulators `(vx, vy)` of `sobel_filter_at` after its double loop, summed with
the exact operations of the field.  The program adds in binary32, so its accumulators are
these sums wherever no addition rounds (a luminance map of zeros, or of small integers),
and they have the sign of these sums wherever the terms that are not 0 have one sign. -/
def sobel_sums (lum : Mat α) (row col : Int) : α × α :=
  for_loop (-1) 2 (fun ci v =>
    for_loop (-1) 2 (fun cj v =>
      if MAT_WITHIN lum (row + ci) (col + cj) then
        (v.1 + (krnl (ci + 1) (cj + 1) : α) * MAT_AT lum (row + ci) (col + cj),
         v.2 + (krnl (cj + 1) (ci + 1) : α) * MAT_AT lum (row + ci) (col + cj))
      else v) v) (0, 0)

/-- The source's `sobel_filter_at`. -/
def sobel_filter_at (sqrtf : α → α) (lum : Mat α) (row col : Int) : α :=
  let v := sobel_sums lum row col
  sqrtf (v.1 * v.1 + v.2 * v.2)

/-- The source's `sobel_filter`. -/
def sobel_filter (sqrtf : α → α) (lum grad : Mat α) : Option (Mat α) :=
  if MAT_SAME_DIM lum grad then
    some (for_loop 0 lum.height (fun y grad =>
      for_loop 0 lum.width (fun x grad =>
        MAT_SET grad y x (sobel_filter_at sqrtf lum y x)) grad) grad)
  else none

/-! ## Cost map -/

/-- The value of `min_prev` in `build_dp` after the loop over `i = -1, 0, 1`. -/
def min_prev (width : Int) (dp : Mat α) (y x : Int) : α :=
  for_loop (-1) 2 (fun i m =>
    if x + i ≥ 0 ∧ x + i < width ∧ m > MAT_AT dp (y - 1) (x + i) then
      MAT_AT dp (y - 1) (x + i)
    else m) FLT_MAX

/-- The source's `build_dp`, with the addition of its assignment
`MAT_AT(dp, y, x) = MAT_AT(mat, y, x) + min_prev` as the operation `add`: in the program
this is the addition of two `float`s, which rounds its result to a binary32 value. -/
def build_dp_with (add : α → α → α) (mat dp : Mat α) : Option (Mat α) :=
  if MAT_SAME_DIM mat dp then
    let dp := for_loop 0 mat.width (fun x dp => MAT_SET dp 0 x (MAT_AT mat 0 x)) dp
    some (for_loop 1 mat.height (fun y dp =>
      for_loop 0 mat.width (fun x dp =>
        MAT_SET dp y x (add (MAT_AT mat y x) (min_prev mat.width dp y x))) dp) dp)
  else none

/-- The source's `build_dp` with the exact addition of the field: what the program computes
wherever none of its additions rounds. -/
def build_dp (mat dp : Mat α) : Option (Mat α) :=
  build_dp_with (fun a b => a + b) mat dp

/-! ## Seam removal -/

/-- The source's `mat_rm_col_at_row`. -/
def mat_rm_col_at_row (mat : Mat α) (row col : Int) : Mat α :=
  let mat_row := 0 + row * mat.stride
  { mat with items := memmove mat.items (mat_row + col) (mat_row + col + 1) (mat.width - col - 1) }

/-- The source's `img_rm_col_at_row`. -/
def img_rm_col_at_row (img : Img) (row col : Int) : Img :=
  let pixel_row := 0 + row * img.stride
  { img with items := memmove img.items (pixel_row + col) (pixel_row + col + 1) (img.width - col - 1) }

/-- The state of `remove_seam`: the three grids it mutates, its local `seam`, and (not in
the source) the log of the cells it has deleted, as pairs (row, column), latest first. -/
structure Seamed (α : Type) where
  img : Img
  lum : Mat α
  edges : Mat α
  seam : Int
  removed : List (Int × Int)

/-- The first loop of `remove_seam`: the value of `seam` after the scan of row `y` of `dp`. -/
def seam_scan (dp : Mat α) (y : Int) : Int :=
  for_loop 0 dp.width (fun i seam => if MAT_AT dp y seam > MAT_AT dp y i then i else seam) 0

/-- The loop over `dx = -1, 0, 1` in the body of the `while` of `remove_seam`: the value of
`seam_rm` for row `y`, from the column `seam` of the row below. -/
def seam_step (dp : Mat α) (y seam : Int) : Int :=
  for_loop (-1) 2 (fun dx seam_rm =>
    if seam + dx ≥ 0 ∧ seam + dx < dp.width ∧ MAT_AT dp y seam_rm > MAT_AT dp y (seam + dx) then
      seam + dx
    else seam_rm) seam

/-- The loop over `dx = -2, ..., 1` of `remove_seam` that recomputes the energy of row `row`
around the column `seam`. -/
def patch_row (sqrtf : α → α) (lum edges : Mat α) (row seam : Int) : Mat α :=
  for_loop (-2) 2 (fun dx edges =>
    if seam + dx ≥ 0 ∧ seam + dx < lum.width - 1 then
      MAT_SET edges row (seam + dx) (sobel_filter_at sqrtf lum row (seam + dx))
    else edges) edges

/-- The three deletions `img_rm_col_at_row`, `mat_rm_col_at_row` (twice) at one cell. -/
def rm_cell (s : Seamed α) (y col : Int) : Seamed α :=
  { s with
    img := img_rm_col_at_row s.img y col
    lum := mat_rm_col_at_row s.lum y col
    edges := mat_rm_col_at_row s.edges y col
    removed := (y, col) :: s.removed }

/-- The body of the loop `while (--y) { ... }` of `remove_seam`, at the row `y`. -/
def seam_body (sqrtf : α → α) (dp : Mat α) (y : Int) (s : Seamed α) : Seamed α :=
  let seam_rm := seam_step dp y s.seam
  let s1 := rm_cell s y seam_rm
  { s1 with
    edges := patch_row sqrtf s1.lum s1.edges (y + 1) s1.seam
    seam := seam_rm }

/-- The loop `while (--y) { ... }` of `remove_seam`; `fuel` bounds the number of times its
condition is tested, and `none` is a loop that has not left by then. -/
def seam_walk (sqrtf : α → α) (dp : Mat α) : Nat → Int → Seamed α → Option (Seamed α)
  | 0, _, _ => none
  | fuel + 1, y, s =>
    let y := y - 1
    if y = 0 then some s else seam_walk sqrtf dp fuel y (seam_body sqrtf dp y s)

/-- The source's `remove_seam`. -/
def remove_seam (sqrtf : α → α) (fuel : Nat) (dp : Mat α) (img : Img) (lum edges : Mat α) :
    Option (Seamed α) :=
  let y := dp.height - 1
  let seam := seam_scan dp y
  let s := rm_cell { img := img, lum := lum, edges := edges, seam := seam, removed := [] } y seam
  match seam_walk sqrtf dp fuel y s with
  | none => none
  | some s => some { s with edges := patch_row sqrtf s.lum s.edges 0 s.seam }

/-! ## Orchestrator -/

/-- The four grids of `main`. -/
structure Grids (α : Type) where
  img : Img
  lum : Mat α
  edges : Mat α
  dp : Mat α

/-- The clamp of `main` on the number of seams: `if (rm_seams * 3 > 2 * width)
rm_seams = (width * 2) / 3`, with the truncating division of C. -/
def clamp_seams (rm_seams width : Int) : Int :=
  if rm_seams * 3 > 2 * width then (width * 2).tdiv 3 else rm_seams

/-- The body of the loop `while (rm_seams--)` of `main`. -/
def carve_step (sqrtf : α → α) (fuel : Nat) (g : Grids α) : Option (Grids α) :=
  match build_dp g.edges g.dp with
  | none => none
  | some dp =>
    match remove_seam sqrtf fuel dp g.img g.lum g.edges with
    | none => none
    | some s =>
      some { img := { s.img with width := s.img.width - 1 }
             lum := { s.lum with width := s.lum.width - 1 }
             edges := { s.edges with width := s.edges.width - 1 }
             dp := { dp with width := dp.width - 1 } }

/-- The loop `while (rm_seams--)` of `main`, for a count `rm_seams` that is not negative. -/
def carve (sqrtf : α → α) (fuel : Nat) : Nat → Grids α → Option (Grids α)
  | 0, g => some g
  | k + 1, g =>
    match carve_step sqrtf fuel g with
    | none => none
    | some g1 => carve sqrtf fuel k g1

/-- The start of `main`, up to the call of `sobel_filter`: the grids of a decoded image. -/
def load (sqrtf : α → α) (img : Img) : Option (Grids α) :=
  let img : Img := { img with stride := img.width }
  match mat_alloc (0 : α) img.height img.width, mat_alloc (0 : α) img.height img.width,
      mat_alloc (0 : α) img.height img.width with
  | some lum, some edges, some dp =>
    match rgb_to_lum img lum with
    | none => none
    | some lum =>
      match sobel_filter sqrtf lum edges with
      | none => none
      | some edges => some { img := img, lum := lum, edges := edges, dp := dp }
  | _, _, _ => none

/-- The source's `main` from the decoded image to the image handed to the encoder, with its
built-in request of 500 seams. -/
def main (sqrtf : α → α) (fuel : Nat) (img : Img) : Option Img :=
  match load sqrtf img with
  | none => none
  | some g =>
    match carve sqrtf fuel (clamp_seams 500 g.img.width).toNat g with
    | none => none
    | some g => some g.img

end Engine

section Definitions

variable {α : Type} [LinearOrderedField α]

/-! ## Notions of the specification -/

/-- The costs of the parents of the cell `(y, x)`: the values of the cost map in row `y - 1`
at the columns `x - 1`, `x`, `x + 1` that lie in `[0, W)`. -/
def parent_costs (W : Int) (cost : Mat α) (y x : Int) : Set α :=
  {v | ∃ i : Int, -1 ≤ i ∧ i ≤ 1 ∧ 0 ≤ x + i ∧ x + i < W ∧ v = MAT_AT cost (y - 1) (x + i)}

/-- A connected path through the rows `0 .. n` of a grid of width `W`: one column `c i` in
`[0, W)` per row, the columns of consecutive rows at most 1 apart. -/
def IsSeamPath (W : Int) (n : Nat) (c : Nat → Int) : Prop :=
  (∀ i, i ≤ n → 0 ≤ c i ∧ c i < W) ∧ (∀ i, i < n → |c (i + 1) - c i| ≤ 1)

/-- The sum of the energies along a path through the rows `0 .. n`. -/
def path_energy (E : Mat α) (n : Nat) (c : Nat → Int) : α :=
  ∑ i in Finset.range (n + 1), MAT_AT E (i : Int) (c i)

/-- The sums of the energies of the connected paths from row 0 to the cell `(n, x)`. -/
def path_energies (W : Int) (E : Mat α) (n : Nat) (x : Int) : Set α :=
  {v | ∃ c, IsSeamPath W n c ∧ c n = x ∧ v = path_energy E n c}

/-- The energy of a path accumulated from row 0 down to row `n` with the operation `add`, in
the order in which `build_dp` accumulates it: the energy of the cell of row 0, then for
every further row the energy of its cell added to what was accumulated above. -/
def path_cost (add : α → α → α) (E : Mat α) (c : Nat → Int) : Nat → α
  | 0 => MAT_AT E 0 (c 0)
  | n + 1 => add (MAT_AT E ((n : Int) + 1) (c (n + 1))) (path_cost add E c n)

/-- The accumulated energies of the connected paths from row 0 to the cell `(n, x)`. -/
def path_costs (add : α → α → α) (W : Int) (E : Mat α) (n : Nat) (x : Int) : Set α :=
  {v | ∃ c, IsSeamPath W n c ∧ c n = x ∧ v = path_cost add E c n}

/-- The accumulated energies of the connected paths from row 0 to row `n`. -/
def seam_costs (add : α → α → α) (W : Int) (E : Mat α) (n : Nat) : Set α :=
  {v | ∃ c, IsSeamPath W n c ∧ v = path_cost add E c n}

/-- The energy accumulated with the operation `add` along a list of cells, topmost first,
from the value `m0` accumulated above its first cell. -/
def log_cost (add : α → α → α) (E : Mat α) (m0 : α) (log : List (Int × Int)) : α :=
  log.foldl (fun acc p => add (MAT_AT E p.1 p.2) acc) m0

/-- The candidates of the upward walk in a row: the columns of the window at most 1 away from
the column `prev` chosen in the row below. -/
def is_candidate (W prev j : Int) : Prop :=
  0 ≤ j ∧ j < W ∧ |j - prev| ≤ 1

/-- The choice `r` of the upward walk in row `y` from the column `prev` of the row below: a
candidate of least cost, which is `prev` itself whenever `prev` has the least cost, and
otherwise is strictly cheaper than every candidate to its left. -/
def walk_choice (dp : Mat α) (y prev r : Int) : Prop :=
  is_candidate dp.width prev r
    ∧ (∀ j, is_candidate dp.width prev j → MAT_AT dp y r ≤ MAT_AT dp y j)
    ∧ ((∀ j, is_candidate dp.width prev j → MAT_AT dp y prev ≤ MAT_AT dp y j) → r = prev)
    ∧ (r ≠ prev → ∀ j, is_candidate dp.width prev j → j < r → MAT_AT dp y r < MAT_AT dp y j)

/-- The columns of the bottom row that hold its least cost. -/
def bottom_minima (dp : Mat α) : Set Int :=
  {i | 0 ≤ i ∧ i < dp.width
    ∧ ∀ j, 0 ≤ j → j < dp.width → MAT_AT dp (dp.height - 1) i ≤ MAT_AT dp (dp.height - 1) j}

/-- The luminance map holds the luminance of the pixel at every cell of the window
`H x W`. -/
def lum_matches (img : Img) (lum : Mat α) (H W : Int) : Prop :=
  ∀ y x, 0 ≤ y → y < H → 0 ≤ x → x < W → MAT_AT lum y x = pixel_to_lum (MAT_AT img y x)

/-- The luminance of a cell, 0 for a cell outside the window: the term a neighbour adds to
the sums of `sobel_filter_at`. -/
def lum_or_zero (lum : Mat α) (y x : Int) : α :=
  if MAT_WITHIN lum y x then MAT_AT lum y x else 0

/-- The indicator of the interval `[0, n)`: 1 for an index inside, 0 outside. -/
def inside (n i : Int) : α :=
  if 0 ≤ i ∧ i < n then 1 else 0

/-! ## Zero padding -/

/-- The two sums of the Sobel kernels at a cell of the grid extended by zeros outside its
bounds: every one of the 9 neighbours counts, those outside the window with luminance 0. -/
def sobel_padded_sums (lum : Mat α) (row col : Int) : α × α :=
  ((([-1, 0, 1] : List Int).map fun ci =>
      (([-1, 0, 1] : List Int).map fun cj =>
        (krnl (ci + 1) (cj + 1) : α) * lum_or_zero lum (row + ci) (col + cj)).sum).sum,
   (([-1, 0, 1] : List Int).map fun ci =>
      (([-1, 0, 1] : List Int).map fun cj =>
        (krnl (cj + 1) (ci + 1) : α) * lum_or_zero lum (row + ci) (col + cj)).sum).sum)

/-- The Sobel magnitude `sqrt(gx^2 + gy^2)` on the grid extended by zeros outside its bounds
(zero padding). -/
def sobel_zero_padded (sqrtf : α → α) (lum : Mat α) (row col : Int) : α :=
  let v := sobel_padded_sums lum row col
  sqrtf (v.1 * v.1 + v.2 * v.2)

/-! ## The seam as a function of the cost map -/

/-- The column the seam takes `k` rows above the bottom row: the scan of the bottom row,
then one step of the upward walk per row. -/
def seam_col (dp : Mat α) : Nat → Int
  | 0 => seam_scan dp (dp.height - 1)
  | k + 1 => seam_step dp (dp.height - 1 - ((k : Int) + 1)) (seam_col dp k)

/-- The cells of the seam from the bottom row up to `k` rows above it, topmost first. -/
def seam_log (dp : Mat α) : Nat → List (Int × Int)
  | 0 => [(dp.height - 1, seam_col dp 0)]
  | k + 1 => (dp.height - 1 - ((k : Int) + 1), seam_col dp (k + 1)) :: seam_log dp k

/-- The state in which `remove_seam` enters its loop `while (--y)`: the bottom row scanned
and its seam cell deleted. -/
def seam_start (dp : Mat α) (img : Img) (lum edges : Mat α) : Seamed α :=
  rm_cell { img := img, lum := lum, edges := edges, seam := seam_scan dp (dp.height - 1),
            removed := [] } (dp.height - 1) (seam_scan dp (dp.height - 1))

/-! ## Shapes and invariants -/

/-- Two grids of the same height, logical width and stride. -/
def same_shape {γ : Type} (a b : Mat γ) : Prop :=
  a.height = b.height ∧ a.width = b.width ∧ a.stride = b.stride

/-- The shape of the four grids of `main`: a common height and logical width, and one stride
for all of them. -/
def Grids.shaped (g : Grids α) (H W S : Int) : Prop :=
  (g.img.height = H ∧ g.img.width = W ∧ g.img.stride = S)
    ∧ (g.lum.height = H ∧ g.lum.width = W ∧ g.lum.stride = S)
    ∧ (g.edges.height = H ∧ g.edges.width = W ∧ g.edges.stride = S)
    ∧ (g.dp.height = H ∧ g.dp.width = W ∧ g.dp.stride = S)

/-- The grids after one iteration of the loop of `main`, from the result of `remove_seam`
and the cost map: each one column narrower. -/
def narrowed (s : Seamed α) (dp : Mat α) : Grids α :=
  { img := { s.img with width := s.img.width - 1 }
    lum := { s.lum with width := s.lum.width - 1 }
    edges := { s.edges with width := s.edges.width - 1 }
    dp := { dp with width := dp.width - 1 } }

/-- The invariant of `remove_seam` on three grids of one shape `H x W`, stride `S`: the
shapes stay, the local `seam` is a column of the window, a property that holds for all
cells of a grid before the call still holds, and the offsets before row 1 of the pixels and
of the luminance are untouched. -/
def seam_inv (Pi : Pixel → Prop) (Pl Pe : α → Prop) (img : Img) (lum : Mat α)
    (H W S : Int) (s : Seamed α) : Prop :=
  (s.img.height = H ∧ s.img.width = W ∧ s.img.stride = S)
    ∧ (s.lum.height = H ∧ s.lum.width = W ∧ s.lum.stride = S)
    ∧ (s.edges.height = H ∧ s.edges.width = W ∧ s.edges.stride = S)
    ∧ (0 ≤ s.seam ∧ s.seam < W)
    ∧ ((∀ i, 0 ≤ i → i < H * S → Pi (img.items i)) → ∀ i, 0 ≤ i → i < H * S → Pi (s.img.items i))
    ∧ ((∀ i, 0 ≤ i → i < H * S → Pl (lum.items i)) → ∀ i, 0 ≤ i → i < H * S → Pl (s.lum.items i))
    ∧ (∀ i, 0 ≤ i → i < H * S → Pe (s.edges.items i))
    ∧ (∀ i, i < S → s.img.items i = img.items i)
    ∧ (∀ i, i < S → s.lum.items i = lum.items i)

/-- The cells of the columns `0 .. W - 1` of the row `y` of a grid, from left to right. -/
def row_cells {γ : Type} (m : Mat γ) (y W : Int) : List γ :=
  (List.range W.toNat).map (fun (x : Nat) => MAT_AT m y (x : Int))

/-! ## The accesses of `remove_seam` -/

/-- An access of `remove_seam` to one of its grids. -/
inductive Access where
  /-- A read `MAT_AT(dp, row, ..)` of cells of the cost map in a row. -/
  | cost_read (row : Int)
  /-- A call of `img_rm_col_at_row` or `mat_rm_col_at_row` for a row and a column, with the
  count `width - col - 1` of cells it hands to `memmove`. -/
  | shift (row col len : Int)
  /-- The write `MAT_AT(edges, row, col) = ...` of a patch. -/
  | patch_write (row col : Int)
  /-- A read `MAT_AT(lum, row, col)` by `sobel_filter_at`. -/
  | lum_read (row col : Int)
  deriving DecidableEq, Repr

/-- The row of an access. -/
def Access.row : Access → Int
  | Access.cost_read r => r
  | Access.shift r _ _ => r
  | Access.patch_write r _ => r
  | Access.lum_read r _ => r

/-- An access that stays inside a window of `H` rows and `W` columns: its row is in
`[0, H)`; a compaction deletes a column in `[0, W)` and moves `W - col - 1` cells, a count
that is not negative; a patch writes a column in `[0, W - 1)`; a luminance read is in a
column in `[0, W)`. -/
def Access.in_range (H W : Int) : Access → Prop
  | Access.cost_read r => 0 ≤ r ∧ r < H
  | Access.shift r c len => 0 ≤ r ∧ r < H ∧ 0 ≤ c ∧ c < W ∧ len = W - c - 1 ∧ 0 ≤ len
  | Access.patch_write r c => 0 ≤ r ∧ r < H ∧ 0 ≤ c ∧ c < W - 1
  | Access.lum_read r c => 0 ≤ r ∧ r < H ∧ 0 ≤ c ∧ c < W

/-- The luminance reads of `sobel_filter_at` at a cell, in the order of its double loop:
the neighbours that pass `MAT_WITHIN`. -/
def sobel_reads (lum : Mat α) (row col : Int) : List Access :=
  for_loop (-1) 2 (fun ci log =>
    for_loop (-1) 2 (fun cj log =>
      if MAT_WITHIN lum (row + ci) (col + cj) then
        log ++ [Access.lum_read (row + ci) (col + cj)]
      else log) log) []

/-- The accesses of the patch loop `for (dx = -2; dx < 2; dx++)` of `remove_seam` for a
row: for every column that passes the guard, the reads of `sobel_filter_at` and the write
of the energy cell. -/
def patch_accesses (lum : Mat α) (row seam : Int) : List Access :=
  for_loop (-2) 2 (fun dx log =>
    if seam + dx ≥ 0 ∧ seam + dx < lum.width - 1 then
      log ++ sobel_reads lum row (seam + dx) ++ [Access.patch_write row (seam + dx)]
    else log) []

/-- The three compactions of `remove_seam` at one cell: of the pixels, of the luminance
and of the energies. -/
def rm_accesses (s : Seamed α) (y col : Int) : List Access :=
  [Access.shift y col (s.img.width - col - 1), Access.shift y col (s.lum.width - col - 1),
    Access.shift y col (s.edges.width - col - 1)]

/-- The accesses of the body of the loop `while (--y) { ... }` of `remove_seam` at the row
`y`: the reads of the cost map in row `y`, the three compactions of row `y`, the patch of
row `y + 1`. -/
def body_accesses (dp : Mat α) (y : Int) (s : Seamed α) : List Access :=
  let seam_rm := seam_step dp y s.seam
  let s1 := rm_cell s y seam_rm
  Access.cost_read y :: rm_accesses s y seam_rm ++ patch_accesses s1.lum (y + 1) s1.seam

/-- The accesses of the loop `while (--y)` of `remove_seam`, along the run of `seam_walk`
with the same fuel. -/
def walk_accesses (sqrtf : α → α) (dp : Mat α) : Nat → Int → Seamed α → List Access
  | 0, _, _ => []
  | fuel + 1, y, s =>
    let y := y - 1
    if y = 0 then []
    else body_accesses dp y s ++ walk_accesses sqrtf dp fuel y (seam_body sqrtf dp y s)

/-- The accesses of `remove_seam`, in program order, along its run with the same fuel: the
scan of the bottom row of the cost map, the three compactions of the bottom row, the loop
`while (--y)`, and the patch of row 0 once the loop has left. -/
def remove_seam_accesses (sqrtf : α → α) (fuel : Nat) (dp : Mat α) (img : Img)
    (lum edges : Mat α) : List Access :=
  let y := dp.height - 1
  let seam := seam_scan dp y
  let s0 : Seamed α := { img := img, lum := lum, edges := edges, seam := seam, removed := [] }
  let s := rm_cell s0 y seam
  Access.cost_read y :: rm_accesses s0 y seam ++ walk_accesses sqrtf dp fuel y s
    ++ (match seam_walk sqrtf dp fuel y s with
        | none => []
        | some s => patch_accesses s.lum 0 s.seam)

/-! ## Concrete grids -/

/-- The grid of `H` rows and `W` columns (stride `W`) with the given cells in row-major
order, `d` elsewhere. -/
def grid_of {β : Type} (H W : Int) (cells : List β) (d : β) : Mat β :=
  { height := H, width := W, stride := W, items := fun i => cells.getD i.toNat d }

/-- The 3 x 3 energy field of the specification's scenario. -/
def demo_energy : Mat ℚ := grid_of 3 3 [1, 5, 9, 2, 1, 8, 9, 3, 1] 0

/-- The cost map the specification gives for `demo_energy`. -/
def demo_cost : Mat ℚ := grid_of 3 3 [1, 5, 9, 3, 2, 9, 11, 5, 3] 0

/-- The cost map of `demo_energy`: the table of the specification with 13 at the cell
`(1, 2)`. -/
def demo_cost_true : Mat ℚ := grid_of 3 3 [1, 5, 9, 3, 2, 13, 11, 5, 3] 0

/-- A 3 x 3 grid of zeros. -/
def demo_zero : Mat ℚ := grid_of 3 3 [] 0

/-- A 3 x 3 image of opaque black pixels. -/
def demo_img : Img := grid_of 3 3 [] ⟨0, 0, 0, 255⟩

/-- An energy grid of 3 rows and 1 column with the values `2^127`, `2^127`, `0` from top to
bottom, each below `FLT_MAX`. -/
def steep_energy : Mat ℚ :=
  { height := 3, width := 1, stride := 1,
    items := fun i => if i = 0 ∨ i = 1 then 170141183460469231731687303715884105728 else 0 }

/-- A grid of 3 rows and 1 column for the cost map of `steep_energy`. -/
def steep_dp : Mat ℚ :=
  { height := 3, width := 1, stride := 1, items := fun _ => 0 }

/-- A 3 x 1 image of opaque black pixels. -/
def steep_img : Img := grid_of 3 1 [] ⟨0, 0, 0, 255⟩

/-- A cost map of 3 rows and 2 columns, the cost map of the energies `0 0 / 1 1 / 5 2`, whose
row 1 holds two equal costs. -/
def tie_cost : Mat ℚ := grid_of 3 2 [0, 0, 1, 1, 6, 3] 0

/-- The energy field of `tie_cost`. -/
def tie_energy : Mat ℚ := grid_of 3 2 [0, 0, 1, 1, 5, 2] 0

/-- A 3 x 2 grid of zeros. -/
def tie_zero : Mat ℚ := grid_of 3 2 [] 0

/-- A 3 x 2 image of opaque black pixels. -/
def tie_img : Img := grid_of 3 2 [] ⟨0, 0, 0, 255⟩

/-- A decoded image of 1 row and 2 columns of opaque white pixels. -/
def row_img : Img := grid_of 1 2 [] ⟨255, 255, 255, 255⟩

/-- A decoded image of 2 rows and 2 columns of opaque white pixels. -/
def white_img : Img := grid_of 2 2 [] ⟨255, 255, 255, 255⟩

/-- The grids of one iteration on the 2 x 2 white image: the image, its luminance (1 at
every cell), and zeros for the energy and cost maps. -/
def white_grids : Grids ℝ :=
  { img := white_img, lum := grid_of 2 2 [] 1, edges := grid_of 2 2 [] 0,
    dp := grid_of 2 2 [] 0 }

/-- A decoded image of 2 rows and 3 columns of black pixels whose alpha channels are
`0, 1, 2` in row 0 and `3, 4, 5` in row 1. -/
def alpha_img : Img :=
  grid_of 2 3 [⟨0, 0, 0, 0⟩, ⟨0, 0, 0, 1⟩, ⟨0, 0, 0, 2⟩, ⟨0, 0, 0, 3⟩, ⟨0, 0, 0, 4⟩, ⟨0, 0, 0, 5⟩]
    ⟨0, 0, 0, 0⟩

/-- An image of 3 rows and 3 columns, black except for the white pixel of the bottom right
corner. -/
def corner_img : Img :=
  grid_of 3 3 [⟨0, 0, 0, 255⟩, ⟨0, 0, 0, 255⟩, ⟨0, 0, 0, 255⟩,
               ⟨0, 0, 0, 255⟩, ⟨0, 0, 0, 255⟩, ⟨0, 0, 0, 255⟩,
               ⟨0, 0, 0, 255⟩, ⟨0, 0, 0, 255⟩, ⟨255, 255, 255, 255⟩] ⟨0, 0, 0, 255⟩

end Definitions

/-! # Properties -/

section Properties

set_option linter.unusedSectionVars false

variable {α : Type} [LinearOrderedField α] {β : Type}

/-! ## Loops -/

/-- A loop whose upper bound is not above its lower bound does nothing. -/
theorem for_loop_nil {σ : Type} (lo hi : Int) (body : Int → σ → σ) (s : σ) (h : hi ≤ lo) :
    for_loop lo hi body s = s := by
  unfold for_loop
  have : (hi - lo).toNat = 0 := by omega
  rw [this]; rfl

/-- The last iteration of a loop. -/
theorem for_loop_succ {σ : Type} (lo hi : Int) (body : Int → σ → σ) (s : σ) (h : lo ≤ hi) :
    for_loop lo (hi + 1) body s = body hi (for_loop lo hi body s) := by
  unfold for_loop
  have : (hi + 1 - lo).toNat = (hi - lo).toNat + 1 := by omega
  rw [this, List.range_succ, List.foldl_append]
  simp only [List.foldl_cons, List.foldl_nil]
  congr 1
  omega

/-- A loop of three iterations, unrolled. -/
theorem for_loop_three {σ : Type} (lo hi : Int) (body : Int → σ → σ) (s : σ) (h : hi = lo + 3) :
    for_loop lo hi body s = body (lo + 2) (body (lo + 1) (body lo s)) := by
  have h1 : hi = lo + 2 + 1 := by omega
  have h2 : lo + 2 = lo + 1 + 1 := by ring
  rw [h1, for_loop_succ _ _ _ _ (by omega)]
  rw [h2, for_loop_succ _ _ _ _ (by omega),
    for_loop_succ _ _ _ _ (by omega), for_loop_nil _ _ _ _ (le_refl _)]

/-- The invariant rule for a loop. -/
theorem for_loop_induction {σ : Type} (P : Int → σ → Prop) (lo hi : Int) (body : Int → σ → σ)
    (s : σ) (hle : lo ≤ hi) (h0 : P lo s)
    (hstep : ∀ i s, lo ≤ i → i < hi → P i s → P (i + 1) (body i s)) :
    P hi (for_loop lo hi body s) := by
  obtain ⟨n, rfl⟩ : ∃ n : Nat, hi = lo + n := ⟨(hi - lo).toNat, by omega⟩
  induction n with
  | zero => simpa [for_loop_nil] using h0
  | succ n ih =>
    have e : lo + ((n + 1 : Nat) : Int) = lo + (n : Int) + 1 := by push_cast; ring
    rw [e, for_loop_succ _ _ _ _ (by omega)]
    apply hstep _ _ (by omega) (by omega)
    exact ih (by omega) (fun i s h1 h2 => hstep i s h1 (by omega))

/-! ## The clamp on the seam count -/

/-- The clamped count is not negative and at most two thirds of the width. -/
theorem clamp_seams_le (W k : Int) (hW : 1 ≤ W) (hk : 0 ≤ k) :
    0 ≤ clamp_seams k W ∧ 3 * clamp_seams k W ≤ 2 * W := by
  unfold clamp_seams
  split
  · rw [Int.tdiv_eq_ediv (by omega) (by norm_num)]
    omega
  · omega

/-- C7: for a width `W >= 1` and a requested count `k >= 0`, the clamped count is
`floor(2W/3)` when `3k > 2W` and `k` otherwise, and the width left after removing that many
seams is at least `ceil(W/3)`, which is at least 1. -/
theorem clamp_seams_keeps_third (W k : Int) (hW : 1 ≤ W) (hk : 0 ≤ k) :
    clamp_seams k W = (if 3 * k > 2 * W then ⌊(2 * W : ℚ) / 3⌋ else k)
      ∧ ⌈(W : ℚ) / 3⌉ ≤ W - clamp_seams k W ∧ 1 ≤ ⌈(W : ℚ) / 3⌉ := by
  refine ⟨?_, ?_, ?_⟩
  · unfold clamp_seams
    by_cases h : 3 * k > 2 * W
    · have h' : k * 3 > 2 * W := by omega
      rw [if_pos h, if_pos h', Int.tdiv_eq_ediv (by omega) (by norm_num)]
      symm
      rw [Int.floor_eq_iff]
      have h1 : (W * 2 / 3) * 3 ≤ W * 2 := Int.ediv_mul_le _ (by norm_num)
      have h2 : W * 2 < (W * 2 / 3 + 1) * 3 := by omega
      have h1q : (((W * 2 / 3) * 3 : Int) : ℚ) ≤ ((W * 2 : Int) : ℚ) := by exact_mod_cast h1
      have h2q : ((W * 2 : Int) : ℚ) < (((W * 2 / 3 + 1) * 3 : Int) : ℚ) := by exact_mod_cast h2
      push_cast at h1q h2q
      constructor
      · rw [le_div_iff₀ (by norm_num)]; linarith
      · rw [div_lt_iff₀ (by norm_num)]; linarith
    · have h' : ¬ k * 3 > 2 * W := by omega
      rw [if_neg h, if_neg h']
  · have h := (clamp_seams_le W k hW hk).2
    rw [Int.ceil_le]
    have hq : ((3 * clamp_seams k W : Int) : ℚ) ≤ ((2 * W : Int) : ℚ) := by exact_mod_cast h
    push_cast at hq ⊢
    rw [div_le_iff₀ (by norm_num)]
    linarith
  · rw [Int.one_le_ceil_iff]
    have : (0 : ℚ) < W := by exact_mod_cast hW
    positivity

/-- C7 at the width 10 and the request `k = W - 1 = 9`. -/
theorem clamp_seams_keeps_third_witness :
    clamp_seams 9 10 = (if 3 * (9 : Int) > 2 * 10 then ⌊(2 * ((10 : Int) : ℚ)) / 3⌋ else 9)
      ∧ ⌈((10 : Int) : ℚ) / 3⌉ ≤ 10 - clamp_seams 9 10 ∧ 1 ≤ ⌈((10 : Int) : ℚ) / 3⌉ :=
  clamp_seams_keeps_third 10 9 (by decide) (by decide)

/-! ## Luminance -/

/-- C8: the luminance of a pixel with 8-bit channels lies in `[0, 1]`; it is 0 exactly
when red, green and blue are 0 (black) and 1 exactly when they are 255 (white), whatever
the alpha channel. -/
theorem pixel_to_lum_range (p : Pixel) :
    0 ≤ (pixel_to_lum p : α) ∧ (pixel_to_lum p : α) ≤ 1
      ∧ ((pixel_to_lum p : α) = 0 ↔ p.red = 0 ∧ p.green = 0 ∧ p.blue = 0)
      ∧ ((pixel_to_lum p : α) = 1 ↔ p.red = 255 ∧ p.green = 255 ∧ p.blue = 255) := by
  obtain ⟨r, g, b, a⟩ := p
  have hr : ((r : Nat) : α) ≤ 255 := by exact_mod_cast Nat.le_of_lt_succ r.isLt
  have hg : ((g : Nat) : α) ≤ 255 := by exact_mod_cast Nat.le_of_lt_succ g.isLt
  have hb : ((b : Nat) : α) ≤ 255 := by exact_mod_cast Nat.le_of_lt_succ b.isLt
  have hr0 : (0 : α) ≤ ((r : Nat) : α) := Nat.cast_nonneg _
  have hg0 : (0 : α) ≤ ((g : Nat) : α) := Nat.cast_nonneg _
  have hb0 : (0 : α) ≤ ((b : Nat) : α) := Nat.cast_nonneg _
  have e : (pixel_to_lum ⟨r, g, b, a⟩ : α)
      = (299 * ((r : Nat) : α) + 587 * ((g : Nat) : α) + 114 * ((b : Nat) : α)) / 255000 := by
    simp only [pixel_to_lum]; ring
  rw [e]
  refine ⟨by positivity, ?_, ?_, ?_⟩
  · rw [div_le_one (by norm_num)]; linarith
  · rw [div_eq_zero_iff]
    constructor
    · intro h
      rcases h with h | h
      · have h1 : ((r : Nat) : α) = 0 := by linarith
        have h2 : ((g : Nat) : α) = 0 := by linarith
        have h3 : ((b : Nat) : α) = 0 := by linarith
        simp only [Pixel.mk.injEq, Nat.cast_eq_zero] at h1 h2 h3 ⊢
        exact ⟨Fin.ext h1, Fin.ext h2, Fin.ext h3⟩
      · norm_num at h
    · rintro ⟨rfl, rfl, rfl⟩
      left; simp
  · rw [div_eq_one_iff_eq (by norm_num)]
    constructor
    · intro h
      have h1 : ((r : Nat) : α) = 255 := by linarith
      have h2 : ((g : Nat) : α) = 255 := by linarith
      have h3 : ((b : Nat) : α) = 255 := by linarith
      have h1n : (r : Nat) = 255 := by exact_mod_cast h1
      have h2n : (g : Nat) = 255 := by exact_mod_cast h2
      have h3n : (b : Nat) = 255 := by exact_mod_cast h3
      exact ⟨Fin.ext h1n, Fin.ext h2n, Fin.ext h3n⟩
    · rintro ⟨rfl, rfl, rfl⟩
      have h : ((255 : Fin 256) : Nat) = 255 := rfl
      rw [h]; norm_num

/-! ## Grids and the loops that fill a row -/

/-- Two loops with the same effect at every index have the same result. -/
theorem for_loop_congr {σ : Type} (lo hi : Int) (body body1 : Int → σ → σ) (s : σ)
    (h : ∀ i s, lo ≤ i → i < hi → body i s = body1 i s) :
    for_loop lo hi body s = for_loop lo hi body1 s := by
  by_cases hle : lo ≤ hi
  · have key := for_loop_induction (fun n r => n ≤ hi → r = for_loop lo n body1 s) lo hi body s hle
      (fun _ => (for_loop_nil _ _ _ _ (le_refl _)).symm)
      (by
        intro i r h1 h2 ih _
        rw [for_loop_succ _ _ _ _ h1, ← ih (by omega)]
        exact h i r h1 h2)
    exact key (le_refl _)
  · rw [for_loop_nil _ _ _ _ (by omega), for_loop_nil _ _ _ _ (by omega)]

/-- Two cells of a grid with columns inside the stride share their offset only when they
are the same cell. -/
theorem cell_inj (S x y x1 y1 : Int) (hx : 0 ≤ x) (hxS : x < S) (hx1 : 0 ≤ x1) (hx1S : x1 < S)
    (h : x + y * S = x1 + y1 * S) : x = x1 ∧ y = y1 := by
  have e1 : (x + y * S) % S = x := by
    rw [Int.add_mul_emod_self, Int.emod_eq_of_lt hx hxS]
  have e2 : (x1 + y1 * S) % S = x1 := by
    rw [Int.add_mul_emod_self, Int.emod_eq_of_lt hx1 hx1S]
  have hxx : x = x1 := by rw [← e1, ← e2, h]
  refine ⟨hxx, ?_⟩
  subst hxx
  have h2 : y * S = y1 * S := by linarith
  exact Int.eq_of_mul_eq_mul_right (by omega) h2

/-- A write keeps the height. -/
@[simp]
theorem MAT_SET_height (m : Mat β) (y x : Int) (v : β) :
    (MAT_SET m y x v).height = m.height := rfl

/-- A write keeps the logical width. -/
@[simp]
theorem MAT_SET_width (m : Mat β) (y x : Int) (v : β) :
    (MAT_SET m y x v).width = m.width := rfl

/-- A write keeps the stride. -/
@[simp]
theorem MAT_SET_stride (m : Mat β) (y x : Int) (v : β) :
    (MAT_SET m y x v).stride = m.stride := rfl

/-- The effect of a loop over the columns `0 .. W-1` of row `y` that writes each cell: the
shape stays, the other offsets keep their content, and a written cell holds the value
computed for it when that value does not depend on the cells of the row being written. -/
theorem fill_row (m : Mat β) (y W : Int) (f : Int → Mat β → β) :
    let r := for_loop 0 W (fun x m => MAT_SET m y x (f x m)) m
    r.height = m.height ∧ r.width = m.width ∧ r.stride = m.stride
      ∧ (∀ i, (∀ x, 0 ≤ x → x < W → i ≠ x + y * m.stride) → r.items i = m.items i)
      ∧ ((∀ x (m1 : Mat β), m1.height = m.height → m1.width = m.width → m1.stride = m.stride →
            (∀ i, (∀ x, 0 ≤ x → x < W → i ≠ x + y * m.stride) → m1.items i = m.items i) →
            f x m1 = f x m) →
          ∀ x, 0 ≤ x → x < W → r.items (x + y * m.stride) = f x m) := by
  intro r
  by_cases hW : 0 ≤ W
  · have key := for_loop_induction
      (fun (n : Int) (r : Mat β) => r.height = m.height ∧ r.width = m.width ∧ r.stride = m.stride
        ∧ (∀ i, (∀ x, 0 ≤ x → x < n → i ≠ x + y * m.stride) → r.items i = m.items i)
        ∧ ((∀ x (m1 : Mat β), m1.height = m.height → m1.width = m.width → m1.stride = m.stride →
            (∀ i, (∀ x, 0 ≤ x → x < W → i ≠ x + y * m.stride) → m1.items i = m.items i) →
            f x m1 = f x m) →
          ∀ x, 0 ≤ x → x < n → r.items (x + y * m.stride) = f x m))
      0 W (fun x m => MAT_SET m y x (f x m)) m hW
      ⟨rfl, rfl, rfl, fun _ _ => rfl, fun _ x h1 h2 => by omega⟩
      (by
        intro n s hn0 hnW ⟨h1, h2, h3, h4, h5⟩
        refine ⟨h1, h2, h3, ?_, ?_⟩
        · intro i hi
          simp only [MAT_SET, h3]
          rw [Function.update_noteq (hi n hn0 (by omega))]
          exact h4 i (fun x hx0 hx => hi x hx0 (by omega))
        · intro hf x hx0 hx
          simp only [MAT_SET, h3]
          by_cases hxn : x = n
          · subst hxn
            rw [Function.update_same]
            exact hf x s h1 h2 h3 (fun i hi => h4 i (fun x1 a b => hi x1 a (by omega)))
          · rw [Function.update_noteq (by omega)]
            exact h5 hf x hx0 (by omega))
    exact key
  · have e : r = m := for_loop_nil _ _ _ _ (by omega)
    rw [e]
    exact ⟨rfl, rfl, rfl, fun _ _ => rfl, fun _ x h1 h2 => by omega⟩

/-- A cell of another row keeps its value through a loop over the columns of row `y`. -/
theorem fill_row_other (m : Mat β) (y W : Int) (f : Int → Mat β → β) (hW : W ≤ m.stride)
    (y1 x1 : Int) (hy : y1 ≠ y) (hx0 : 0 ≤ x1) (hx : x1 < m.stride) :
    MAT_AT (for_loop 0 W (fun x m => MAT_SET m y x (f x m)) m) y1 x1 = MAT_AT m y1 x1 := by
  obtain ⟨_, _, h3, h4, _⟩ := fill_row m y W f
  unfold MAT_AT
  rw [h3]
  apply h4
  intro x a b e
  exact hy (cell_inj m.stride x1 y1 x y hx0 hx a (by omega) e).2

/-- The macro `MAT_SAME_DIM` as a proposition. -/
theorem MAT_SAME_DIM_iff {γ : Type} (m1 : Mat β) (m2 : Mat γ) :
    MAT_SAME_DIM m1 m2 = true ↔ m1.width = m2.width ∧ m1.height = m2.height := by
  simp [MAT_SAME_DIM]

/-! ## The cost map -/

/-- The value of `min_prev` depends on the in-range cells of the row above only. -/
theorem min_prev_congr (W : Int) (m m1 : Mat α) (y x : Int)
    (h : ∀ i, -1 ≤ i → i ≤ 1 → 0 ≤ x + i → x + i < W →
      MAT_AT m1 (y - 1) (x + i) = MAT_AT m (y - 1) (x + i)) :
    min_prev W m1 y x = min_prev W m y x := by
  unfold min_prev
  apply for_loop_congr
  intro i acc h1 h2
  by_cases c : x + i ≥ 0 ∧ x + i < W
  · rw [h i h1 (by omega) c.1 c.2]
  · have n1 : ¬ (x + i ≥ 0 ∧ x + i < W ∧ acc > MAT_AT m1 (y - 1) (x + i)) := fun hc => c ⟨hc.1, hc.2.1⟩
    have n2 : ¬ (x + i ≥ 0 ∧ x + i < W ∧ acc > MAT_AT m (y - 1) (x + i)) := fun hc => c ⟨hc.1, hc.2.1⟩
    rw [if_neg n1, if_neg n2]

/-- The value of `min_prev`: at most `FLT_MAX`, at most every in-range neighbour of the row
above, and equal to `FLT_MAX` or to one of these neighbours. -/
theorem min_prev_spec (W : Int) (m : Mat α) (y x : Int) :
    min_prev W m y x ≤ FLT_MAX
      ∧ (∀ i, -1 ≤ i → i ≤ 1 → 0 ≤ x + i → x + i < W → min_prev W m y x ≤ MAT_AT m (y - 1) (x + i))
      ∧ (min_prev W m y x = FLT_MAX
          ∨ ∃ i, -1 ≤ i ∧ i ≤ 1 ∧ 0 ≤ x + i ∧ x + i < W ∧ min_prev W m y x = MAT_AT m (y - 1) (x + i)) := by
  unfold min_prev
  have key := for_loop_induction
    (fun (n : Int) (acc : α) => acc ≤ FLT_MAX
      ∧ (∀ i, -1 ≤ i → i < n → 0 ≤ x + i → x + i < W → acc ≤ MAT_AT m (y - 1) (x + i))
      ∧ (acc = FLT_MAX ∨ ∃ i, -1 ≤ i ∧ i < n ∧ 0 ≤ x + i ∧ x + i < W ∧ acc = MAT_AT m (y - 1) (x + i)))
    (-1) 2 (fun i acc =>
      if x + i ≥ 0 ∧ x + i < W ∧ acc > MAT_AT m (y - 1) (x + i) then MAT_AT m (y - 1) (x + i) else acc)
    FLT_MAX (by norm_num)
    ⟨le_refl _, fun i h1 h2 => by omega, Or.inl rfl⟩
    (by
      intro i acc h1 h2 ⟨a1, a2, a3⟩
      by_cases c : x + i ≥ 0 ∧ x + i < W ∧ acc > MAT_AT m (y - 1) (x + i)
      · simp only [if_pos c]
        refine ⟨le_trans (le_of_lt c.2.2) a1, ?_, Or.inr ⟨i, h1, by omega, c.1, c.2.1, rfl⟩⟩
        intro j j1 j2 j3 j4
        by_cases e : j = i
        · rw [e]
        · exact le_trans (le_of_lt c.2.2) (a2 j j1 (by omega) j3 j4)
      · simp only [if_neg c]
        refine ⟨a1, ?_, ?_⟩
        · intro j j1 j2 j3 j4
          by_cases e : j = i
          · subst e
            exact not_lt.mp (fun hlt => c ⟨j3, j4, hlt⟩)
          · exact a2 j j1 (by omega) j3 j4
        · rcases a3 with a3 | ⟨j, j1, j2, j3, j4, j5⟩
          · exact Or.inl a3
          · exact Or.inr ⟨j, j1, by omega, j3, j4, j5⟩)
  obtain ⟨k1, k2, k3⟩ := key
  refine ⟨k1, fun i h1 h2 => k2 i h1 (by omega), ?_⟩
  rcases k3 with k3 | ⟨j, j1, j2, j3, j4, j5⟩
  · exact Or.inl k3
  · exact Or.inr ⟨j, j1, by omega, j3, j4, j5⟩

/-- What `build_dp` computes, for any addition: on grids of the same dimensions whose width
fits the stride it returns a cost map of the same shape with row 0 copied from the energy
and every later cell the energy added to the `min_prev` of its column in the finished
map. -/
theorem build_dp_with_spec (add : α → α → α) (E dp : Mat α) (hd : MAT_SAME_DIM E dp = true)
    (hW : dp.width ≤ dp.stride) :
    ∃ cost, build_dp_with add E dp = some cost ∧ cost.height = dp.height
      ∧ cost.width = dp.width ∧ cost.stride = dp.stride
      ∧ (∀ x, 0 ≤ x → x < dp.width → MAT_AT cost 0 x = MAT_AT E 0 x)
      ∧ (∀ y x, 1 ≤ y → y < dp.height → 0 ≤ x → x < dp.width →
          MAT_AT cost y x = add (MAT_AT E y x) (min_prev dp.width cost y x)) := by
  obtain ⟨hw, hh⟩ := (MAT_SAME_DIM_iff E dp).mp hd
  have e : build_dp_with add E dp = some (for_loop 1 dp.height (fun y d =>
      for_loop 0 dp.width (fun x d =>
        MAT_SET d y x (add (MAT_AT E y x) (min_prev dp.width d y x))) d)
      (for_loop 0 dp.width (fun x dp => MAT_SET dp 0 x (MAT_AT E 0 x)) dp)) := by
    simp only [build_dp_with, hd, if_true, hw, hh]
  refine ⟨_, e, ?_⟩
  -- row 0
  obtain ⟨a1, a2, a3, a4, a5⟩ := fill_row dp 0 dp.width (fun x _ => MAT_AT E 0 x)
  have a5 := a5 (fun _ _ _ _ _ _ => rfl)
  set dp0 := for_loop 0 dp.width (fun x dp => MAT_SET dp 0 x (MAT_AT E 0 x)) dp with hdp0
  by_cases hH : 1 ≤ dp.height
  · have key := for_loop_induction
      (fun (n : Int) (m : Mat α) => m.height = dp.height ∧ m.width = dp.width ∧ m.stride = dp.stride
        ∧ (∀ x, 0 ≤ x → x < dp.width → MAT_AT m 0 x = MAT_AT E 0 x)
        ∧ (∀ y x, 1 ≤ y → y < n → 0 ≤ x → x < dp.width →
            MAT_AT m y x = add (MAT_AT E y x) (min_prev dp.width m y x)))
      1 dp.height (fun y d => for_loop 0 dp.width (fun x d =>
        MAT_SET d y x (add (MAT_AT E y x) (min_prev dp.width d y x))) d) dp0 hH
      ⟨a1, a2, a3, fun x h1 h2 => by unfold MAT_AT; rw [a3]; exact a5 x h1 h2,
        fun y x h1 h2 => by omega⟩
      (by
        intro n m hn1 hnH ⟨b1, b2, b3, b4, b5⟩
        beta_reduce
        obtain ⟨c1, c2, c3, c4, c5⟩ := fill_row m n dp.width
          (fun x m => add (MAT_AT E n x) (min_prev dp.width m n x))
        have hWm : dp.width ≤ m.stride := by omega
        have other := fill_row_other m n dp.width
          (fun x m => add (MAT_AT E n x) (min_prev dp.width m n x)) hWm
        set m1 := for_loop 0 dp.width (fun x m =>
          MAT_SET m n x (add (MAT_AT E n x) (min_prev dp.width m n x))) m with hm1
        have stable : ∀ x (m2 : Mat α), m2.height = m.height → m2.width = m.width →
            m2.stride = m.stride →
            (∀ i, (∀ x, 0 ≤ x → x < dp.width → i ≠ x + n * m.stride) → m2.items i = m.items i) →
            add (MAT_AT E n x) (min_prev dp.width m2 n x)
              = add (MAT_AT E n x) (min_prev dp.width m n x) := by
          intro x m2 _ _ e3 e4
          congr 1
          apply min_prev_congr
          intro i i1 i2 i3 i4
          unfold MAT_AT
          rw [e3]
          apply e4
          intro x1 x2 x3 e
          have := (cell_inj m.stride (x + i) (n - 1) x1 n i3 (by omega) x2 (by omega) e).2
          omega
        have c5 := c5 stable
        refine ⟨c1.trans b1, ?_, c3.trans b3, ?_, ?_⟩
        · first | exact c2 | exact c2.trans b2
        · intro x x0 xW
          rw [other 0 x (by omega) x0 (by omega)]
          exact b4 x x0 xW
        · intro y x y1 yn x0 xW
          have e1 : min_prev dp.width m1 y x = min_prev dp.width m y x := by
            apply min_prev_congr
            intro i i1 i2 i3 i4
            exact other (y - 1) (x + i) (by omega) i3 (by omega)
          rw [e1]
          by_cases hy : y = n
          · subst hy
            have := c5 x x0 xW
            unfold MAT_AT
            rw [c3]
            exact this
          · rw [other y x hy x0 (by omega)]
            exact b5 y x y1 (by omega) x0 xW)
    exact key
  · rw [for_loop_nil _ _ _ _ (by omega)]
    exact ⟨a1, a2, a3, fun x h1 h2 => by unfold MAT_AT; rw [a3]; exact a5 x h1 h2,
      fun y x h1 h2 => by omega⟩


/-- What `build_dp` computes with the exact addition: on grids of the same dimensions whose
width fits the stride it returns a cost map of the same shape with row 0 copied from the
energy and every later cell the energy plus the `min_prev` of its column in the finished
map. -/
theorem build_dp_spec (E dp : Mat α) (hd : MAT_SAME_DIM E dp = true) (hW : dp.width ≤ dp.stride) :
    ∃ cost, build_dp E dp = some cost ∧ cost.height = dp.height ∧ cost.width = dp.width
      ∧ cost.stride = dp.stride
      ∧ (∀ x, 0 ≤ x → x < dp.width → MAT_AT cost 0 x = MAT_AT E 0 x)
      ∧ (∀ y x, 1 ≤ y → y < dp.height → 0 ≤ x → x < dp.width →
          MAT_AT cost y x = MAT_AT E y x + min_prev dp.width cost y x) :=
  build_dp_with_spec (fun a b => a + b) E dp hd hW

/-- When a parent of the cell costs at most `FLT_MAX`, `min_prev` is the least parent cost. -/
theorem min_prev_isLeast (W : Int) (m : Mat α) (y x : Int)
    (h : ∃ v ∈ parent_costs W m y x, v ≤ FLT_MAX) :
    IsLeast (parent_costs W m y x) (min_prev W m y x) := by
  obtain ⟨a1, a2, a3⟩ := min_prev_spec W m y x
  constructor
  · rcases a3 with a3 | ⟨i, i1, i2, i3, i4, i5⟩
    · obtain ⟨v, ⟨i, i1, i2, i3, i4, i5⟩, hv⟩ := h
      refine ⟨i, i1, i2, i3, i4, ?_⟩
      have := a2 i i1 i2 i3 i4
      rw [← i5] at this
      rw [a3] at this ⊢
      rw [← i5]
      exact le_antisymm this hv
    · exact ⟨i, i1, i2, i3, i4, i5⟩
  · rintro v ⟨i, i1, i2, i3, i4, i5⟩
    rw [i5]
    exact a2 i i1 i2 i3 i4

/-- The cost map of `steep_energy`: the cost of row 1 is `2^128`, above `FLT_MAX`, so that
the sentinel itself becomes the `min_prev` of row 2. -/
theorem steep_cost :
    ∃ cost, build_dp steep_energy steep_dp = some cost
      ∧ cost.height = 3 ∧ cost.width = 1
      ∧ MAT_AT cost 0 0 = 170141183460469231731687303715884105728
      ∧ MAT_AT cost 1 0 = 340282366920938463463374607431768211456
      ∧ MAT_AT cost 2 0 = FLT_MAX := by
  obtain ⟨cost, h1, d1, d2, _, h5, h6⟩ := build_dp_spec steep_energy steep_dp rfl (by decide)
  have e0 : MAT_AT cost 0 0 = 170141183460469231731687303715884105728 := by
    rw [h5 0 (by decide) (by decide)]
    simp [MAT_AT, steep_energy]
  have hw : steep_dp.width = 1 := rfl
  have hh : steep_dp.height = 3 := rfl
  rw [hw, hh] at h6
  have e1 : MAT_AT cost 1 0 = 340282366920938463463374607431768211456 := by
    rw [h6 1 0 (by decide) (by decide) (by decide) (by decide)]
    obtain ⟨a1, a2, a3⟩ := min_prev_spec 1 cost 1 0
    have b := a2 0 (by decide) (by decide) (by decide) (by decide)
    have e : min_prev 1 cost 1 0 = MAT_AT cost 0 0 := by
      rcases a3 with a3 | ⟨i, i1, i2, i3, i4, i5⟩
      · exfalso
        rw [a3] at b
        norm_num [e0, FLT_MAX] at b
      · have : i = 0 := by omega
        subst this
        simpa using i5
    rw [e, e0]
    norm_num [MAT_AT, steep_energy]
  have e2 : MAT_AT cost 2 0 = FLT_MAX := by
    rw [h6 2 0 (by decide) (by decide) (by decide) (by decide)]
    obtain ⟨a1, a2, a3⟩ := min_prev_spec 1 cost 2 0
    have e : min_prev 1 cost 2 0 = FLT_MAX := by
      rcases a3 with a3 | ⟨i, i1, i2, i3, i4, i5⟩
      · exact a3
      · exfalso
        have : i = 0 := by omega
        subst this
        norm_num [e1] at i5
        rw [i5] at a1
        norm_num [FLT_MAX] at a1
    rw [e]
    norm_num [MAT_AT, steep_energy]
  exact ⟨cost, h1, d1, d2, e0, e1, e2⟩

/-- The energy of a path through one more row. -/
theorem path_energy_succ (E : Mat α) (n : Nat) (c : Nat → Int) :
    path_energy E (n + 1) c = path_energy E n c + MAT_AT E ((n : Int) + 1) (c (n + 1)) := by
  unfold path_energy
  rw [Finset.sum_range_succ]
  push_cast
  rfl

/-- A connected path without its last row is a connected path. -/
theorem IsSeamPath.init {W : Int} {n : Nat} {c : Nat → Int} (h : IsSeamPath W (n + 1) c) :
    IsSeamPath W n c :=
  ⟨fun i hi => h.1 i (by omega), fun i hi => h.2 i (by omega)⟩

/-- Accumulated with the exact addition, the energy of a path is the sum of the energies of
its cells. -/
theorem path_cost_exact (E : Mat α) (c : Nat → Int) (n : Nat) :
    path_cost (fun a b => a + b) E c n = path_energy E n c := by
  induction n with
  | zero => simp [path_cost, path_energy]
  | succ n ih =>
    rw [path_energy_succ, ← ih]
    simp only [path_cost]
    ring

/-- The accumulated energy of a path depends on its columns in the rows `0 .. n` only. -/
theorem path_cost_congr (add : α → α → α) (E : Mat α) (c c1 : Nat → Int) (n : Nat)
    (h : ∀ i, i ≤ n → c i = c1 i) : path_cost add E c n = path_cost add E c1 n := by
  induction n with
  | zero => simp only [path_cost]; rw [h 0 (le_refl _)]
  | succ n ih =>
    simp only [path_cost]
    rw [h (n + 1) (le_refl _), ih (fun i hi => h i (by omega))]

/-- A table that satisfies the recurrence of `build_dp` for an addition that is monotone in
its second argument holds, at every cell above which no cost exceeds `FLT_MAX`, the least
accumulated energy of the connected paths from row 0 to the cell. -/
theorem cost_isLeast (add : α → α → α) (hadd : ∀ e a b, a ≤ b → add e a ≤ add e b)
    (E cost : Mat α) (W H : Int)
    (h0 : ∀ x, 0 ≤ x → x < W → MAT_AT cost 0 x = MAT_AT E 0 x)
    (hr : ∀ y x, 1 ≤ y → y < H → 0 ≤ x → x < W →
      MAT_AT cost y x = add (MAT_AT E y x) (min_prev W cost y x))
    (n : Nat) :
    ∀ x, (n : Int) < H → 0 ≤ x → x < W →
      (∀ y1 x1 : Int, 0 ≤ y1 → y1 < n → 0 ≤ x1 → x1 < W → MAT_AT cost y1 x1 ≤ FLT_MAX) →
      IsLeast (path_costs add W E n x) (MAT_AT cost (n : Int) x) := by
  induction n with
  | zero =>
    intro x _ x0 xW _
    constructor
    · refine ⟨fun _ => x, ⟨fun i _ => ⟨x0, xW⟩, fun i hi => by omega⟩, rfl, ?_⟩
      simp [path_cost, h0 x x0 xW]
    · rintro v ⟨c, hc, hcx, rfl⟩
      simp [path_cost, hcx, h0 x x0 xW]
  | succ n ih =>
    intro x hH x0 xW hmax
    have hH1 : ((n : Int) + 1) < H := by push_cast at hH; exact hH
    have hrec := hr ((n : Int) + 1) x (by omega) hH1 x0 xW
    have hsub : ((n : Int) + 1 - 1) = n := by ring
    obtain ⟨a1, a2, a3⟩ := min_prev_spec W cost ((n : Int) + 1) x
    rw [hsub] at a2 a3
    have hmax1 : ∀ y1 x1 : Int, 0 ≤ y1 → y1 < n → 0 ≤ x1 → x1 < W →
        MAT_AT cost y1 x1 ≤ FLT_MAX :=
      fun y1 x1 b1 b2 b3 b4 => hmax y1 x1 b1 (by push_cast; omega) b3 b4
    push_cast
    rw [hrec]
    constructor
    · -- a path that attains the cost
      have hpar : ∃ i : Int, -1 ≤ i ∧ i ≤ 1 ∧ 0 ≤ x + i ∧ x + i < W
          ∧ min_prev W cost ((n : Int) + 1) x = MAT_AT cost n (x + i) := by
        rcases a3 with a3 | a3
        · refine ⟨0, by norm_num, by norm_num, by omega, by omega, ?_⟩
          have b1 := a2 0 (by norm_num) (by norm_num) (by omega) (by omega)
          have b2 := hmax n x (by omega) (by push_cast; omega) x0 xW
          rw [add_zero] at b1 ⊢
          rw [a3] at b1 ⊢
          exact le_antisymm b1 b2
        · exact a3
      obtain ⟨i, i1, i2, i3, i4, i5⟩ := hpar
      obtain ⟨⟨c, hc, hcx, hce⟩, _⟩ := ih (x + i) (by omega) i3 i4 hmax1
      refine ⟨fun k => if k = n + 1 then x else c k, ⟨?_, ?_⟩, by simp, ?_⟩
      · intro k hk
        by_cases e : k = n + 1
        · simp only [e, if_true]; exact ⟨x0, xW⟩
        · simp only [e, if_false]; exact hc.1 k (by omega)
      · intro k hk
        by_cases e : k = n
        · subst e
          simp only [if_true, Nat.succ_ne_self, Nat.lt_irrefl, if_false]
          have : (if k = k + 1 then x else c k) = c k := if_neg (by omega)
          rw [this, hcx, abs_le]
          constructor <;> omega
        · have e1 : ¬ (k + 1 = n + 1) := by omega
          have e2 : ¬ (k = n + 1) := by omega
          simp only [e1, e2, if_false]
          exact hc.2 k (by omega)
      · simp only [path_cost, if_true]
        rw [path_cost_congr add E _ c n (fun k hk => if_neg (by omega)), ← hce, i5]
    · -- no path is cheaper
      rintro v ⟨c, hc, hcx, rfl⟩
      simp only [path_cost]
      rw [hcx]
      have hcn := hc.1 n (by omega)
      have hadj := hc.2 n (by omega)
      rw [hcx, abs_le] at hadj
      have b1 := a2 (c n - x) (by omega) (by omega) (by omega) (by omega)
      have e : x + (c n - x) = c n := by ring
      rw [e] at b1
      have b2 := (ih (c n) (by omega) hcn.1 hcn.2 hmax1).2 ⟨c, hc.init, rfl, rfl⟩
      exact hadd _ _ _ (le_trans b1 b2)

/-- C2, as amended: for grids of the same dimensions whose width fits the stride and for
every addition that is monotone in its second argument, as the rounding addition of
binary32 values is, `build_dp` returns a cost map, and at every cell `(n, x)` of the logical
window such that no cost in the rows above `n` exceeds `FLT_MAX`, `cost[n][x]` is the
minimum, over the column sequences `c_0 .. c_n` with `c_n = x`, `0 <= c_i < W` and
`|c_i - c_(i-1)| <= 1`, of the energies `energy[i][c_i]` accumulated with that addition from
row 0 down to row `n`. -/
theorem build_dp_optimal (add : α → α → α) (hadd : ∀ e a b, a ≤ b → add e a ≤ add e b)
    (E dp : Mat α) (hd : MAT_SAME_DIM E dp = true) (hW : dp.width ≤ dp.stride) :
    ∃ cost, build_dp_with add E dp = some cost
      ∧ ∀ (n : Nat) (x : Int), (n : Int) < dp.height → 0 ≤ x → x < dp.width →
          (∀ y1 x1 : Int, 0 ≤ y1 → y1 < n → 0 ≤ x1 → x1 < dp.width →
            MAT_AT cost y1 x1 ≤ FLT_MAX) →
          IsLeast (path_costs add dp.width E n x) (MAT_AT cost (n : Int) x) := by
  obtain ⟨cost, h1, _, _, _, h5, h6⟩ := build_dp_with_spec add E dp hd hW
  exact ⟨cost, h1, fun n x => cost_isLeast add hadd E cost dp.width dp.height h5 h6 n x⟩

/-- C2 (amended) on the energy field of the specification's scenario, with the exact
addition. -/
theorem build_dp_optimal_witness :
    ∃ cost, build_dp_with (fun a b : ℚ => a + b) demo_energy demo_zero = some cost
      ∧ ∀ (n : Nat) (x : Int), (n : Int) < demo_zero.height → 0 ≤ x → x < demo_zero.width →
          (∀ y1 x1 : Int, 0 ≤ y1 → y1 < n → 0 ≤ x1 → x1 < demo_zero.width →
            MAT_AT cost y1 x1 ≤ FLT_MAX) →
          IsLeast (path_costs (fun a b : ℚ => a + b) demo_zero.width demo_energy n x)
            (MAT_AT cost (n : Int) x) :=
  build_dp_optimal (fun a b : ℚ => a + b) (fun e _ _ h => add_le_add_left h e) demo_energy
    demo_zero rfl (by decide)

/-- C2 fails as stated: every energy of `steep_energy` is below `FLT_MAX`, yet the cost of
the cell `(2, 0)` is not the least energy of the paths that end there. -/
theorem build_dp_optimal_fails :
    (∀ y x : Int, 0 ≤ y → y < 3 → 0 ≤ x → x < 1 → MAT_AT steep_energy y x < FLT_MAX)
      ∧ ∃ cost, build_dp steep_energy steep_dp = some cost
        ∧ ¬ IsLeast (path_energies 1 steep_energy 2 0) (MAT_AT cost 2 0) := by
  constructor
  · intro y x y0 y3 x0 x1
    have hx : x = 0 := by omega
    subst hx
    have hy : y = 0 ∨ y = 1 ∨ y = 2 := by omega
    rcases hy with rfl | rfl | rfl <;> norm_num [MAT_AT, steep_energy, FLT_MAX]
  · obtain ⟨cost, h1, _, _, e0, e1, e2⟩ := steep_cost
    refine ⟨cost, h1, ?_⟩
    rintro ⟨⟨c, hc, _, hv⟩, _⟩
    have c0 : c 0 = 0 := by have := hc.1 0 (by omega); omega
    have c1 : c 1 = 0 := by have := hc.1 1 (by omega); omega
    have c2 : c 2 = 0 := by have := hc.1 2 (by omega); omega
    rw [e2] at hv
    simp only [path_energy, Finset.sum_range_succ, Finset.sum_range_zero, c0, c1, c2] at hv
    norm_num [MAT_AT, steep_energy, FLT_MAX] at hv

/-! ## The seam -/

/-- The scan of a row of the cost map ends on a column of the window that holds the least
cost of the row, and on the leftmost such column. -/
theorem seam_scan_spec (dp : Mat α) (y : Int) (hW : 1 ≤ dp.width) :
    0 ≤ seam_scan dp y ∧ seam_scan dp y < dp.width
      ∧ (∀ i, 0 ≤ i → i < dp.width → MAT_AT dp y (seam_scan dp y) ≤ MAT_AT dp y i)
      ∧ (∀ i, 0 ≤ i → i < seam_scan dp y → MAT_AT dp y (seam_scan dp y) < MAT_AT dp y i) := by
  unfold seam_scan
  have key := for_loop_induction
    (fun (n : Int) (s : Int) => 0 ≤ s ∧ (s < n ∨ s = 0)
      ∧ (∀ i, 0 ≤ i → i < n → MAT_AT dp y s ≤ MAT_AT dp y i)
      ∧ (∀ i, 0 ≤ i → i < s → MAT_AT dp y s < MAT_AT dp y i))
    0 dp.width (fun i seam => if MAT_AT dp y seam > MAT_AT dp y i then i else seam) 0
    (by omega)
    ⟨le_refl _, Or.inr rfl, fun i h1 h2 => by omega, fun i h1 h2 => by omega⟩
    (by
      intro n s n0 nW ⟨a1, a2, a3, a4⟩
      by_cases c : MAT_AT dp y s > MAT_AT dp y n
      · simp only [if_pos c]
        refine ⟨n0, Or.inl (by omega), ?_, ?_⟩
        · intro i i0 i1
          by_cases e : i = n
          · rw [e]
          · exact le_trans (le_of_lt c) (a3 i i0 (by omega))
        · intro i i0 i1
          exact lt_of_lt_of_le c (a3 i i0 i1)
      · simp only [if_neg c]
        refine ⟨a1, ?_, ?_, a4⟩
        · rcases a2 with a2 | a2
          · exact Or.inl (by omega)
          · exact Or.inr a2
        · intro i i0 i1
          by_cases e : i = n
          · rw [e]; exact not_lt.mp c
          · exact a3 i i0 (by omega))
  obtain ⟨k1, k2, k3, k4⟩ := key
  exact ⟨k1, by omega, k3, k4⟩

/-- One step of the upward walk moves the seam by at most one column, keeps it inside the
window, and ends on a cheapest in-range neighbour of the column below. -/
theorem seam_step_spec (dp : Mat α) (y seam : Int) :
    |seam_step dp y seam - seam| ≤ 1
      ∧ (0 ≤ seam → seam < dp.width → 0 ≤ seam_step dp y seam ∧ seam_step dp y seam < dp.width)
      ∧ (∀ dx, -1 ≤ dx → dx ≤ 1 → 0 ≤ seam + dx → seam + dx < dp.width →
          MAT_AT dp y (seam_step dp y seam) ≤ MAT_AT dp y (seam + dx)) := by
  unfold seam_step
  have key := for_loop_induction
    (fun (n : Int) (r : Int) =>
      (r = seam ∨ ∃ dx, -1 ≤ dx ∧ dx < n ∧ 0 ≤ seam + dx ∧ seam + dx < dp.width ∧ r = seam + dx)
      ∧ (∀ dx, -1 ≤ dx → dx < n → 0 ≤ seam + dx → seam + dx < dp.width →
          MAT_AT dp y r ≤ MAT_AT dp y (seam + dx)))
    (-1) 2 (fun dx seam_rm =>
      if seam + dx ≥ 0 ∧ seam + dx < dp.width ∧ MAT_AT dp y seam_rm > MAT_AT dp y (seam + dx) then
        seam + dx
      else seam_rm) seam (by norm_num)
    ⟨Or.inl rfl, fun dx h1 h2 => by omega⟩
    (by
      intro n r n0 n2 ⟨a1, a2⟩
      by_cases c : seam + n ≥ 0 ∧ seam + n < dp.width ∧ MAT_AT dp y r > MAT_AT dp y (seam + n)
      · simp only [if_pos c]
        refine ⟨Or.inr ⟨n, n0, by omega, c.1, c.2.1, rfl⟩, ?_⟩
        intro dx d1 d2 d3 d4
        by_cases e : dx = n
        · rw [e]
        · exact le_trans (le_of_lt c.2.2) (a2 dx d1 (by omega) d3 d4)
      · simp only [if_neg c]
        refine ⟨?_, ?_⟩
        · rcases a1 with a1 | ⟨dx, d1, d2, d3, d4, d5⟩
          · exact Or.inl a1
          · exact Or.inr ⟨dx, d1, by omega, d3, d4, d5⟩
        · intro dx d1 d2 d3 d4
          by_cases e : dx = n
          · subst e
            exact not_lt.mp (fun hlt => c ⟨d3, d4, hlt⟩)
          · exact a2 dx d1 (by omega) d3 d4)
  obtain ⟨k1, k2⟩ := key
  refine ⟨?_, ?_, fun dx d1 d2 => k2 dx d1 (by omega)⟩
  · rcases k1 with k1 | ⟨dx, d1, d2, d3, d4, d5⟩
    · rw [k1]; simp
    · rw [d5, abs_le]; constructor <;> omega
  · intro h0 hW
    rcases k1 with k1 | ⟨dx, d1, d2, d3, d4, d5⟩
    · rw [k1]; exact ⟨h0, hW⟩
    · rw [d5]; exact ⟨d3, d4⟩

/-- The invariant rule for the loop `while (--y)` entered with `y = m + 1 >= 1`: with `m + 1`
tests of the condition the loop leaves, after the body has run for the rows `m, ..., 1`. -/
theorem seam_walk_inv (sqrtf : α → α) (dp : Mat α) (I : Int → Seamed α → Prop) (m : Nat) :
    ∀ (fuel : Nat) (s : Seamed α), m + 1 ≤ fuel → I ((m : Int) + 1) s →
      (∀ y s, 1 ≤ y → y ≤ (m : Int) → I (y + 1) s → I y (seam_body sqrtf dp y s)) →
      ∃ s1, seam_walk sqrtf dp fuel ((m : Int) + 1) s = some s1 ∧ I 1 s1 := by
  induction m with
  | zero =>
    intro fuel s hf hI _
    obtain ⟨f, rfl⟩ : ∃ f, fuel = f + 1 := ⟨fuel - 1, by omega⟩
    refine ⟨s, ?_, by simpa using hI⟩
    simp [seam_walk]
  | succ m ih =>
    intro fuel s hf hI hstep
    obtain ⟨f, rfl⟩ : ∃ f, fuel = f + 1 := ⟨fuel - 1, by omega⟩
    have e : ((m + 1 : Nat) : Int) + 1 - 1 = (m : Int) + 1 := by push_cast; ring
    have ne : ¬ ((m : Int) + 1 = 0) := by omega
    simp only [seam_walk, e, ne, if_false]
    apply ih f _ (by omega)
    · have := hstep ((m : Int) + 1) s (by omega) (by push_cast; omega)
      apply this
      have e2 : ((m : Int) + 1 + 1) = ((m + 1 : Nat) : Int) + 1 := by push_cast; ring
      rw [e2]; exact hI
    · intro y s1 y1 y2 h
      exact hstep y s1 y1 (by push_cast; omega) h

/-- Entered with `y <= 0`, the loop `while (--y)` never leaves: `y` only moves away from 0. -/
theorem seam_walk_none (sqrtf : α → α) (dp : Mat α) (fuel : Nat) :
    ∀ (y : Int) (s : Seamed α), y ≤ 0 → seam_walk sqrtf dp fuel y s = none := by
  induction fuel with
  | zero => intro y s _; rfl
  | succ f ih =>
    intro y s hy
    have ne : ¬ (y - 1 = 0) := by omega
    simp only [seam_walk, ne, if_false]
    exact ih _ _ (by omega)

/-- The invariant rule for `remove_seam` on a cost map of at least 2 rows: with enough fuel
it returns, and its result is the state after the walk through the rows `H-2, ..., 1` with
row 0 patched. -/
theorem remove_seam_inv (sqrtf : α → α) (fuel : Nat) (dp : Mat α) (img : Img) (lum edges : Mat α)
    (I : Int → Seamed α → Prop) (hH : 2 ≤ dp.height) (hf : dp.height - 1 ≤ fuel)
    (h0 : I (dp.height - 1) (seam_start dp img lum edges))
    (hstep : ∀ y s, 1 ≤ y → y ≤ dp.height - 2 → I (y + 1) s → I y (seam_body sqrtf dp y s)) :
    ∃ s1, I 1 s1 ∧ remove_seam sqrtf fuel dp img lum edges
      = some { s1 with edges := patch_row sqrtf s1.lum s1.edges 0 s1.seam } := by
  obtain ⟨m, hm⟩ : ∃ m : Nat, dp.height - 1 = (m : Int) + 1 := ⟨(dp.height - 2).toNat, by omega⟩
  obtain ⟨s1, e1, e2⟩ := seam_walk_inv sqrtf dp I m fuel (seam_start dp img lum edges)
    (by omega) (by rw [← hm]; exact h0) (fun y s y1 y2 h => hstep y s y1 (by omega) h)
  refine ⟨s1, e2, ?_⟩
  rw [← hm] at e1
  simp only [remove_seam]
  unfold seam_start at e1
  rw [e1]

/-- Every column of the seam lies in the window. -/
theorem seam_col_range (dp : Mat α) (hW : 1 ≤ dp.width) (k : Nat) :
    0 ≤ seam_col dp k ∧ seam_col dp k < dp.width := by
  induction k with
  | zero =>
    obtain ⟨a, b, _, _⟩ := seam_scan_spec dp (dp.height - 1) hW
    exact ⟨a, b⟩
  | succ k ih =>
    exact (seam_step_spec dp _ _).2.1 ih.1 ih.2

/-- The first cell of the log. -/
theorem seam_log_head (dp : Mat α) (k : Nat) :
    (seam_log dp k).head? = some (dp.height - 1 - (k : Int), seam_col dp k) := by
  cases k with
  | zero => simp [seam_log]
  | succ k => simp [seam_log]

/-- The number of cells of the log. -/
theorem seam_log_length (dp : Mat α) (k : Nat) : (seam_log dp k).length = k + 1 := by
  induction k with
  | zero => rfl
  | succ k ih => simp [seam_log, ih]

/-- The rows of the cells of the log. -/
theorem seam_log_rows (dp : Mat α) (k : Nat) :
    ∀ p ∈ seam_log dp k, dp.height - 1 - (k : Int) ≤ p.1 ∧ p.1 < dp.height := by
  induction k with
  | zero =>
    intro p hp
    simp only [seam_log, List.mem_singleton] at hp
    subst hp
    simp
  | succ k ih =>
    intro p hp
    simp only [seam_log, List.mem_cons] at hp
    rcases hp with hp | hp
    · subst hp
      push_cast
      constructor <;> dsimp only <;> omega
    · have := ih p hp
      push_cast
      omega

/-- The columns of the cells of the log. -/
theorem seam_log_cols (dp : Mat α) (hW : 1 ≤ dp.width) (k : Nat) :
    ∀ p ∈ seam_log dp k, 0 ≤ p.2 ∧ p.2 < dp.width := by
  induction k with
  | zero =>
    intro p hp
    simp only [seam_log, List.mem_singleton] at hp
    subst hp
    exact seam_col_range dp hW 0
  | succ k ih =>
    intro p hp
    simp only [seam_log, List.mem_cons] at hp
    rcases hp with hp | hp
    · subst hp
      exact seam_col_range dp hW (k + 1)
    · exact ih p hp

/-- Consecutive cells of the log lie in consecutive rows, at most one column apart. -/
theorem seam_log_chain (dp : Mat α) (k : Nat) :
    List.Chain' (fun a b : Int × Int => b.1 = a.1 + 1 ∧ |b.2 - a.2| ≤ 1) (seam_log dp k) := by
  induction k with
  | zero => simp [seam_log]
  | succ k ih =>
    rw [seam_log, List.chain'_cons']
    refine ⟨?_, ih⟩
    intro b hb
    rw [seam_log_head] at hb
    simp only [Option.mem_def, Option.some.injEq] at hb
    subst hb
    refine ⟨by simp; ring, ?_⟩
    have := (seam_step_spec dp (dp.height - 1 - ((k : Int) + 1)) (seam_col dp k)).1
    rw [abs_sub_comm]
    exact this

/-- The log of `remove_seam` is the seam of the cost map from row 1 to the bottom row. -/
theorem remove_seam_log (sqrtf : α → α) (fuel : Nat) (dp : Mat α) (img : Img) (lum edges : Mat α)
    (hH : 2 ≤ dp.height) (hf : dp.height - 1 ≤ fuel) :
    ∃ s, remove_seam sqrtf fuel dp img lum edges = some s
      ∧ s.removed = seam_log dp (dp.height - 2).toNat
      ∧ s.seam = seam_col dp (dp.height - 2).toNat := by
  obtain ⟨s1, ⟨k, k1, k2, k3⟩, e⟩ := remove_seam_inv sqrtf fuel dp img lum edges
    (fun y s => ∃ k : Nat, (k : Int) = dp.height - 1 - y ∧ s.seam = seam_col dp k
      ∧ s.removed = seam_log dp k) hH hf
    ⟨0, by simp, rfl, rfl⟩
    (by
      rintro y s y1 y2 ⟨k, k1, k2, k3⟩
      refine ⟨k + 1, by push_cast; omega, ?_, ?_⟩
      · have e : y = dp.height - 1 - ((k : Int) + 1) := by omega
        simp only [seam_body, rm_cell, seam_col, k2, ← e]
      · have e : y = dp.height - 1 - ((k : Int) + 1) := by omega
        simp only [seam_body, rm_cell, seam_col, seam_log, k2, k3, ← e])
  have hk : k = (dp.height - 2).toNat := by omega
  subst hk
  exact ⟨_, e, k3, k2⟩

/-- C5: on a cost map with `H >= 2` and `W >= 1`, `remove_seam` returns after deleting
`H - 1` cells, one in each of the rows `1 .. H-1` it processes, all inside the window, and the
columns it chooses in two consecutive rows differ by at most 1. -/
theorem remove_seam_adjacent (sqrtf : α → α) (fuel : Nat) (dp : Mat α) (img : Img)
    (lum edges : Mat α) (hH : 2 ≤ dp.height) (hW : 1 ≤ dp.width) (hf : dp.height - 1 ≤ fuel) :
    ∃ s, remove_seam sqrtf fuel dp img lum edges = some s
      ∧ (s.removed.length : Int) = dp.height - 1
      ∧ (∀ p ∈ s.removed, 1 ≤ p.1 ∧ p.1 < dp.height ∧ 0 ≤ p.2 ∧ p.2 < dp.width)
      ∧ List.Chain' (fun a b : Int × Int => b.1 = a.1 + 1 ∧ |b.2 - a.2| ≤ 1) s.removed := by
  obtain ⟨s, e, hlog, _⟩ := remove_seam_log sqrtf fuel dp img lum edges hH hf
  refine ⟨s, e, ?_, ?_, ?_⟩
  · rw [hlog, seam_log_length]; push_cast; omega
  · intro p hp
    rw [hlog] at hp
    have h1 := seam_log_rows dp _ p hp
    have h2 := seam_log_cols dp hW _ p hp
    refine ⟨by omega, h1.2, h2.1, h2.2⟩
  · rw [hlog]; exact seam_log_chain dp _

/-- C5 on the cost map of the specification's scenario. -/
theorem remove_seam_adjacent_witness :
    ∃ s, remove_seam (fun v : ℚ => v) 2 demo_cost demo_img demo_zero demo_energy = some s
      ∧ (s.removed.length : Int) = demo_cost.height - 1
      ∧ (∀ p ∈ s.removed, 1 ≤ p.1 ∧ p.1 < demo_cost.height ∧ 0 ≤ p.2 ∧ p.2 < demo_cost.width)
      ∧ List.Chain' (fun a b : Int × Int => b.1 = a.1 + 1 ∧ |b.2 - a.2| ≤ 1) s.removed :=
  remove_seam_adjacent (fun v : ℚ => v) 2 demo_cost demo_img demo_zero demo_energy
    (by decide) (by decide) (by decide)

/-- The walk goes from a cell to a cheapest parent: the cost of the column it chooses in
row `y` is the `min_prev` of the cell it comes from in row `y + 1`. -/
theorem min_prev_seam_step (W : Int) (cost : Mat α) (hw : cost.width = W) (y x : Int)
    (hx0 : 0 ≤ x) (hxW : x < W) (hmax : MAT_AT cost y x ≤ FLT_MAX) :
    min_prev W cost (y + 1) x = MAT_AT cost y (seam_step cost y x) := by
  have hpar : ∃ v ∈ parent_costs W cost (y + 1) x, v ≤ FLT_MAX :=
    ⟨_, ⟨0, by norm_num, by norm_num, by omega, by omega, rfl⟩, by simpa using hmax⟩
  have h1 := min_prev_isLeast W cost (y + 1) x hpar
  obtain ⟨a1, a2, a3⟩ := seam_step_spec cost y x
  rw [hw] at a2 a3
  have h2 : IsLeast (parent_costs W cost (y + 1) x) (MAT_AT cost y (seam_step cost y x)) := by
    constructor
    · rw [abs_le] at a1
      refine ⟨seam_step cost y x - x, by omega, by omega, ?_, ?_, ?_⟩
      · have := (a2 hx0 hxW).1; omega
      · have := (a2 hx0 hxW).2; omega
      · congr 1 <;> ring
    · rintro v ⟨i, i1, i2, i3, i4, rfl⟩
      have := a3 i i1 i2 i3 i4
      have e : y + 1 - 1 = y := by ring
      rw [e]
      exact this
  exact h1.unique h2

/-- The last cell of the log is the seam cell of the bottom row. -/
theorem seam_log_getLast (dp : Mat α) (k : Nat) :
    (seam_log dp k).getLast? = some (dp.height - 1, seam_col dp 0) := by
  induction k with
  | zero => simp [seam_log]
  | succ k ih =>
    rw [seam_log]
    cases h : seam_log dp k with
    | nil =>
      have := seam_log_length dp k
      rw [h] at this
      simp at this
    | cons a l =>
      rw [List.getLast?_cons_cons, ← h, ih]

/-- Along the seam, the cost of a cell is its energy added to the cost of the seam cell
above. -/
theorem seam_log_costs (add : α → α → α) (E cost : Mat α)
    (hr : ∀ y x, 1 ≤ y → y < cost.height → 0 ≤ x → x < cost.width →
      MAT_AT cost y x = add (MAT_AT E y x) (min_prev cost.width cost y x))
    (hW : 1 ≤ cost.width)
    (hmax : ∀ y x, 0 ≤ y → y < cost.height - 1 → 0 ≤ x → x < cost.width →
      MAT_AT cost y x ≤ FLT_MAX)
    (k : Nat) (hk : (k : Int) + 2 ≤ cost.height) :
    List.Chain' (fun p q : Int × Int =>
      MAT_AT cost q.1 q.2 = add (MAT_AT E q.1 q.2) (MAT_AT cost p.1 p.2)) (seam_log cost k) := by
  induction k with
  | zero => simp [seam_log]
  | succ k ih =>
    rw [seam_log, List.chain'_cons']
    refine ⟨?_, ih (by push_cast at hk; omega)⟩
    intro b hb
    rw [seam_log_head] at hb
    simp only [Option.mem_def, Option.some.injEq] at hb
    subst hb
    push_cast at hk
    obtain ⟨c0, cW⟩ := seam_col_range cost hW k
    dsimp only
    rw [hr _ _ (by omega) (by omega) c0 cW]
    congr 1
    have e : cost.height - 1 - (k : Int) = cost.height - 1 - ((k : Int) + 1) + 1 := by ring
    rw [e, min_prev_seam_step cost.width cost rfl _ _ c0 cW
      (hmax _ _ (by omega) (by omega) c0 cW)]
    rfl

/-- The energies along the seam, accumulated from the `min_prev` of its topmost cell, give
the cost of its bottom cell. -/
theorem seam_log_cost (add : α → α → α) (E cost : Mat α)
    (hr : ∀ y x, 1 ≤ y → y < cost.height → 0 ≤ x → x < cost.width →
      MAT_AT cost y x = add (MAT_AT E y x) (min_prev cost.width cost y x))
    (hW : 1 ≤ cost.width)
    (hmax : ∀ y x, 0 ≤ y → y < cost.height - 1 → 0 ≤ x → x < cost.width →
      MAT_AT cost y x ≤ FLT_MAX)
    (k : Nat) (hk : (k : Int) + 2 ≤ cost.height) :
    log_cost add E (min_prev cost.width cost (cost.height - 1 - (k : Int)) (seam_col cost k))
        (seam_log cost k)
      = MAT_AT cost (cost.height - 1) (seam_col cost 0) := by
  induction k with
  | zero =>
    obtain ⟨c0, cW⟩ := seam_col_range cost hW 0
    simp only [seam_log, log_cost, List.foldl_cons, List.foldl_nil, Nat.cast_zero, sub_zero]
    rw [hr _ _ (by omega) (by omega) c0 cW]
  | succ k ih =>
    push_cast at hk
    have ih := ih (by omega)
    obtain ⟨c0, cW⟩ := seam_col_range cost hW k
    obtain ⟨d0, dW⟩ := seam_col_range cost hW (k + 1)
    have e : cost.height - 1 - (k : Int) = cost.height - 1 - ((k : Int) + 1) + 1 := by ring
    rw [e, min_prev_seam_step cost.width cost rfl _ _ c0 cW
      (hmax _ _ (by omega) (by omega) c0 cW)] at ih
    have hrec := hr (cost.height - 1 - ((k : Int) + 1)) (seam_col cost (k + 1)) (by omega)
      (by omega) d0 dW
    have e2 : seam_step cost (cost.height - 1 - ((k : Int) + 1)) (seam_col cost k)
        = seam_col cost (k + 1) := rfl
    rw [e2, hrec] at ih
    rw [← ih]
    simp only [seam_log, log_cost, List.foldl_cons]
    push_cast
    rfl

/-- C3, as amended: on a cost map `cost = build_dp(energy)` with `H >= 2` and `W >= 1`,
computed with an addition that is monotone in its second argument, in which no cost above
the bottom row exceeds `FLT_MAX`, the seam cells `remove_seam` deletes (rows `1 .. H-1`) end
on a least cost of the bottom row, each satisfies
`cost[y+1][s_(y+1)] = add(energy[y+1][s_(y+1)], cost[y][s_y])` with the cell above it, and
the energies along the seam, accumulated with that addition from the cheapest in-range
parent of `s_1` in row 0 downward, give the minimum accumulated energy of the connected
top-to-bottom paths. -/
theorem remove_seam_minimal (add : α → α → α) (hadd : ∀ e a b, a ≤ b → add e a ≤ add e b)
    (sqrtf : α → α) (fuel : Nat) (E dp : Mat α) (img : Img)
    (lum edges : Mat α) (hd : MAT_SAME_DIM E dp = true) (hH : 2 ≤ dp.height)
    (hW : 1 ≤ dp.width) (hS : dp.width ≤ dp.stride) (hf : dp.height - 1 ≤ fuel) :
    ∃ cost s, build_dp_with add E dp = some cost
      ∧ remove_seam sqrtf fuel cost img lum edges = some s
      ∧ ((∀ y x, 0 ≤ y → y < dp.height - 1 → 0 ≤ x → x < dp.width →
            MAT_AT cost y x ≤ FLT_MAX) →
          ∃ top bot m0, s.removed.head? = some top ∧ s.removed.getLast? = some bot
            ∧ top.1 = 1 ∧ bot.1 = dp.height - 1
            ∧ (∀ x, 0 ≤ x → x < dp.width → MAT_AT cost bot.1 bot.2 ≤ MAT_AT cost bot.1 x)
            ∧ List.Chain' (fun p q : Int × Int =>
                MAT_AT cost q.1 q.2 = add (MAT_AT E q.1 q.2) (MAT_AT cost p.1 p.2)) s.removed
            ∧ IsLeast (parent_costs dp.width E 1 top.2) m0
            ∧ log_cost add E m0 s.removed = MAT_AT cost bot.1 bot.2
            ∧ IsLeast (seam_costs add dp.width E (dp.height - 1).toNat)
                (MAT_AT cost bot.1 bot.2)) := by
  obtain ⟨cost, h1, ch, cw, cs, h5, h6⟩ := build_dp_with_spec add E dp hd hS
  obtain ⟨s, e, hlog, _⟩ := remove_seam_log sqrtf fuel cost img lum edges (by omega) (by omega)
  refine ⟨cost, s, h1, e, ?_⟩
  intro hmax
  rw [← ch, ← cw] at hmax h6 ⊢
  rw [← cw] at h5
  have hH1 : 2 ≤ cost.height := by omega
  have hW1 : 1 ≤ cost.width := by omega
  obtain ⟨k, hk⟩ : ∃ k : Nat, (k : Int) = cost.height - 2 := ⟨(cost.height - 2).toNat, by omega⟩
  have hk2 : (cost.height - 2).toNat = k := by omega
  rw [hk2] at hlog
  obtain ⟨t0, tW⟩ := seam_col_range cost hW1 k
  obtain ⟨b0, bW⟩ := seam_col_range cost hW1 0
  have smin : ∀ x, 0 ≤ x → x < cost.width →
      MAT_AT cost (cost.height - 1) (seam_col cost 0) ≤ MAT_AT cost (cost.height - 1) x :=
    (seam_scan_spec cost (cost.height - 1) hW1).2.2.1
  have htop : cost.height - 1 - (k : Int) = 1 := by omega
  have hsum := seam_log_cost add E cost h6 hW1 hmax k (by omega)
  rw [htop] at hsum
  have hpar : ∃ v ∈ parent_costs cost.width cost 1 (seam_col cost k), v ≤ FLT_MAX :=
    ⟨_, ⟨0, by norm_num, by norm_num, by omega, by omega, rfl⟩,
      hmax _ _ (by norm_num) (by omega) (by omega) (by omega)⟩
  have hm0 := min_prev_isLeast cost.width cost 1 (seam_col cost k) hpar
  have hset : parent_costs cost.width cost 1 (seam_col cost k)
      = parent_costs cost.width E 1 (seam_col cost k) := by
    ext v
    constructor
    · rintro ⟨i, i1, i2, i3, i4, rfl⟩
      refine ⟨i, i1, i2, i3, i4, ?_⟩
      have : (1 : Int) - 1 = 0 := by norm_num
      rw [this]; exact h5 _ i3 i4
    · rintro ⟨i, i1, i2, i3, i4, rfl⟩
      refine ⟨i, i1, i2, i3, i4, ?_⟩
      have : (1 : Int) - 1 = 0 := by norm_num
      rw [this]; exact (h5 _ i3 i4).symm
  rw [hset] at hm0
  refine ⟨(1, seam_col cost k), (cost.height - 1, seam_col cost 0),
    min_prev cost.width cost 1 (seam_col cost k), ?_, ?_, rfl, rfl, ?_, ?_, hm0, ?_, ?_⟩
  · rw [hlog, seam_log_head, htop]
  · rw [hlog, seam_log_getLast]
  · exact smin
  · rw [hlog]; exact seam_log_costs add E cost h6 hW1 hmax k (by omega)
  · rw [hlog]; exact hsum
  · obtain ⟨n, hn⟩ : ∃ n : Nat, (n : Int) = cost.height - 1 :=
      ⟨(cost.height - 1).toNat, by omega⟩
    have hn2 : (cost.height - 1).toNat = n := by omega
    rw [hn2]
    have hleast : ∀ x, 0 ≤ x → x < cost.width →
        IsLeast (path_costs add cost.width E n x) (MAT_AT cost (n : Int) x) :=
      fun x x0 xW => cost_isLeast add hadd E cost cost.width cost.height h5 h6 n x (by omega)
        x0 xW (fun y1 x1 a b c d => hmax y1 x1 a (by omega) c d)
    dsimp only
    rw [← hn]
    constructor
    · obtain ⟨⟨c, hc, _, hv⟩, _⟩ := hleast (seam_col cost 0) b0 bW
      exact ⟨c, hc, hv⟩
    · rintro v ⟨c, hc, rfl⟩
      obtain ⟨c0, cW⟩ := hc.1 n (le_refl _)
      have h2 := (hleast (c n) c0 cW).2 ⟨c, hc, rfl, rfl⟩
      have h3 := smin (c n) c0 cW
      rw [← hn] at h3
      exact le_trans h3 h2

/-- C3 (amended) on the energy field of the specification's scenario, with the exact
addition. -/
theorem remove_seam_minimal_witness :
    ∃ cost s, build_dp_with (fun a b : ℚ => a + b) demo_energy demo_zero = some cost
      ∧ remove_seam (fun v : ℚ => v) 2 cost demo_img demo_zero demo_energy = some s
      ∧ ((∀ y x, 0 ≤ y → y < demo_zero.height - 1 → 0 ≤ x → x < demo_zero.width →
            MAT_AT cost y x ≤ FLT_MAX) →
          ∃ top bot m0, s.removed.head? = some top ∧ s.removed.getLast? = some bot
            ∧ top.1 = 1 ∧ bot.1 = demo_zero.height - 1
            ∧ (∀ x, 0 ≤ x → x < demo_zero.width → MAT_AT cost bot.1 bot.2 ≤ MAT_AT cost bot.1 x)
            ∧ List.Chain' (fun p q : Int × Int =>
                MAT_AT cost q.1 q.2 = MAT_AT demo_energy q.1 q.2 + MAT_AT cost p.1 p.2) s.removed
            ∧ IsLeast (parent_costs demo_zero.width demo_energy 1 top.2) m0
            ∧ log_cost (fun a b : ℚ => a + b) demo_energy m0 s.removed = MAT_AT cost bot.1 bot.2
            ∧ IsLeast (seam_costs (fun a b : ℚ => a + b) demo_zero.width demo_energy
                (demo_zero.height - 1).toNat) (MAT_AT cost bot.1 bot.2)) :=
  remove_seam_minimal (fun a b : ℚ => a + b) (fun e _ _ h => add_le_add_left h e)
    (fun v : ℚ => v) 2 demo_energy demo_zero demo_img demo_zero demo_energy
    rfl (by decide) (by decide) (by decide) (by decide)

/-- C3 fails as stated: on the cost map of `steep_energy` the seam is column 0 in the rows
1 and 2, and `cost[2][0]` is not `energy[2][0] + cost[1][0]`. -/
theorem remove_seam_minimal_fails :
    ∃ cost s, build_dp steep_energy steep_dp = some cost
      ∧ remove_seam (fun v : ℚ => v) 2 cost steep_img steep_dp steep_energy = some s
      ∧ s.removed = [(1, 0), (2, 0)]
      ∧ MAT_AT cost 2 0 ≠ MAT_AT steep_energy 2 0 + MAT_AT cost 1 0 := by
  obtain ⟨cost, h1, ch, cw, e0, e1, e2⟩ := steep_cost
  obtain ⟨s, e, hlog, _⟩ := remove_seam_log (fun v : ℚ => v) 2 cost steep_img steep_dp
    steep_energy (by omega) (by rw [ch]; decide)
  refine ⟨cost, s, h1, e, ?_, ?_⟩
  · rw [hlog, ch]
    have c0 := seam_col_range cost (by omega) 0
    have c1 := seam_col_range cost (by omega) 1
    have a0 : seam_col cost 0 = 0 := by omega
    have a1 : seam_col cost 1 = 0 := by omega
    have : ((3 : Int) - 2).toNat = 1 := by decide
    rw [this]
    simp [seam_log, a0, a1, ch]
  · rw [e1, e2]
    norm_num [MAT_AT, steep_energy, FLT_MAX]

/-! ## The start of `main` -/

/-- The effect of a double loop that writes every cell of the window `H x W` with a value
that does not depend on the grid being written. -/
theorem fill_grid (m : Mat β) (H W : Int) (f : Int → Int → β) (hW : W ≤ m.stride) :
    let r := for_loop 0 H (fun y m => for_loop 0 W (fun x m => MAT_SET m y x (f y x)) m) m
    r.height = m.height ∧ r.width = m.width ∧ r.stride = m.stride
      ∧ (∀ y x, 0 ≤ y → y < H → 0 ≤ x → x < W → MAT_AT r y x = f y x) := by
  intro r
  by_cases hH : 0 ≤ H
  · have key := for_loop_induction
      (fun (n : Int) (r : Mat β) => r.height = m.height ∧ r.width = m.width
        ∧ r.stride = m.stride
        ∧ (∀ y x, 0 ≤ y → y < n → 0 ≤ x → x < W → MAT_AT r y x = f y x))
      0 H (fun y m => for_loop 0 W (fun x m => MAT_SET m y x (f y x)) m) m hH
      ⟨rfl, rfl, rfl, fun y x h1 h2 => by omega⟩
      (by
        intro n s n0 nH ⟨b1, b2, b3, b4⟩
        beta_reduce
        obtain ⟨c1, c2, c3, c4, c5⟩ := fill_row s n W (fun x _ => f n x)
        have c5 := c5 (fun _ _ _ _ _ _ => rfl)
        have other := fill_row_other s n W (fun x _ => f n x) (by omega)
        refine ⟨c1.trans b1, c2.trans b2, c3.trans b3, ?_⟩
        intro y x y0 y1 x0 x1
        by_cases e : y = n
        · subst e
          unfold MAT_AT
          rw [c3]
          exact c5 x x0 x1
        · rw [other y x e x0 (by omega)]
          exact b4 y x y0 (by omega) x0 x1)
    exact key
  · have e : r = m := for_loop_nil _ _ _ _ (by omega)
    rw [e]
    exact ⟨rfl, rfl, rfl, fun y x h1 h2 => by omega⟩

/-- What the start of `main` computes from a decoded image with positive dimensions: four
grids of the dimensions of the image, with stride its width, the luminance of every pixel
and the Sobel energy of every cell. -/
theorem load_spec (sqrtf : α → α) (img : Img) (hH : 1 ≤ img.height) (hW : 1 ≤ img.width) :
    ∃ g, load sqrtf img = some g ∧ g.shaped img.height img.width img.width
      ∧ g.img = { img with stride := img.width }
      ∧ (∀ y x, 0 ≤ y → y < img.height → 0 ≤ x → x < img.width →
          MAT_AT g.lum y x = pixel_to_lum (MAT_AT g.img y x))
      ∧ (∀ y x, 0 ≤ y → y < img.height → 0 ≤ x → x < img.width →
          MAT_AT g.edges y x = sobel_filter_at sqrtf g.lum y x) := by
  have hc : img.width > 0 ∧ img.height > 0 := ⟨by omega, by omega⟩
  set img1 : Img := { img with stride := img.width } with himg1
  set m0 : Mat α := ⟨img.height, img.width, img.width, fun _ => 0⟩ with hm0
  obtain ⟨a1, a2, a3, a4⟩ := fill_grid m0 img.height img.width
    (fun y x => (pixel_to_lum (MAT_AT img1 y x) : α)) (le_refl _)
  set lum := for_loop 0 img.height (fun y m => for_loop 0 img.width (fun x m =>
    MAT_SET m y x (pixel_to_lum (MAT_AT img1 y x) : α)) m) m0 with hlum
  obtain ⟨b1, b2, b3, b4⟩ := fill_grid m0 lum.height lum.width
    (fun y x => sobel_filter_at sqrtf lum y x) (le_of_eq a2)
  set edges := for_loop 0 lum.height (fun y m => for_loop 0 lum.width (fun x m =>
    MAT_SET m y x (sobel_filter_at sqrtf lum y x)) m) m0 with hedges
  have e : load sqrtf img = some { img := img1, lum := lum, edges := edges, dp := m0 } := by
    have s1 : MAT_SAME_DIM img1 m0 = true := by simp [MAT_SAME_DIM, himg1, hm0]
    have s2 : MAT_SAME_DIM lum m0 = true := by simp [MAT_SAME_DIM, a1, a2]
    simp only [load, mat_alloc, hc, and_self, if_true, rgb_to_lum, sobel_filter]
    simp only [← himg1, ← hm0, s1, if_true]
    simp only [← hlum, s2, if_true, ← hedges]
  refine ⟨_, e, ⟨⟨rfl, rfl, rfl⟩, ⟨a1, a2, a3⟩, ⟨b1, b2, b3⟩, ⟨rfl, rfl, rfl⟩⟩, rfl, a4, ?_⟩
  intro y x y0 y1 x0 x1
  exact b4 y x y0 (by rw [a1]; exact y1) x0 (by rw [a2]; exact x1)

/-! ## The effect of `remove_seam` on the grids -/

/-- The deletion of a cell in one of the first `H` rows maps the cells of these rows to
cells of these rows: each offset below `H * S` holds afterwards what an offset below `H * S`
held before. -/
theorem memmove_region (P : β → Prop) (items : Int → β) (H W S y col : Int)
    (hS : W ≤ S) (hS0 : 0 ≤ S) (hy : y + 1 ≤ H)
    (h : ∀ i, 0 ≤ i → i < H * S → P (items i)) :
    ∀ i, 0 ≤ i → i < H * S →
      P (memmove items (0 + y * S + col) (0 + y * S + col + 1) (W - col - 1) i) := by
  intro i i0 iH
  unfold memmove
  split
  · rename_i hc
    apply h
    · omega
    · have h1 : (y + 1) * S ≤ H * S := Int.mul_le_mul_of_nonneg_right hy hS0
      have h2 : (y + 1) * S = y * S + S := by ring
      omega
  · exact h i i0 iH

/-- The deletion of a cell at a column that is not negative, in a row below row 0, leaves the
offsets before row 1 alone. -/
theorem memmove_row0 (items : Int → β) (W S y col : Int) (hS0 : 0 ≤ S) (hy : 1 ≤ y)
    (hc : 0 ≤ col) (i : Int) (hi : i < S) :
    memmove items (0 + y * S + col) (0 + y * S + col + 1) (W - col - 1) i = items i := by
  unfold memmove
  have h1 : 1 * S ≤ y * S := Int.mul_le_mul_of_nonneg_right hy hS0
  rw [if_neg (by omega)]

/-- The effect of the patch of a row: the shape stays, every in-window column `seam + dx`
holds the Sobel energy of its cell, and the other offsets keep their content. -/
theorem patch_row_spec (sqrtf : α → α) (lum edges : Mat α) (row seam : Int) :
    (patch_row sqrtf lum edges row seam).height = edges.height
      ∧ (patch_row sqrtf lum edges row seam).width = edges.width
      ∧ (patch_row sqrtf lum edges row seam).stride = edges.stride
      ∧ (∀ dx, -2 ≤ dx → dx < 2 → 0 ≤ seam + dx → seam + dx < lum.width - 1 →
          MAT_AT (patch_row sqrtf lum edges row seam) row (seam + dx)
            = sobel_filter_at sqrtf lum row (seam + dx))
      ∧ (∀ i, (∀ dx, -2 ≤ dx → dx < 2 → 0 ≤ seam + dx → seam + dx < lum.width - 1 →
            i ≠ seam + dx + row * edges.stride) →
          (patch_row sqrtf lum edges row seam).items i = edges.items i) := by
  unfold patch_row
  have key := for_loop_induction
    (fun (n : Int) (r : Mat α) => r.height = edges.height ∧ r.width = edges.width
      ∧ r.stride = edges.stride
      ∧ (∀ dx, -2 ≤ dx → dx < n → 0 ≤ seam + dx → seam + dx < lum.width - 1 →
          r.items (seam + dx + row * edges.stride) = sobel_filter_at sqrtf lum row (seam + dx))
      ∧ (∀ i, (∀ dx, -2 ≤ dx → dx < n → 0 ≤ seam + dx → seam + dx < lum.width - 1 →
            i ≠ seam + dx + row * edges.stride) → r.items i = edges.items i))
    (-2) 2 (fun dx edges =>
      if seam + dx ≥ 0 ∧ seam + dx < lum.width - 1 then
        MAT_SET edges row (seam + dx) (sobel_filter_at sqrtf lum row (seam + dx))
      else edges) edges (by norm_num)
    ⟨rfl, rfl, rfl, fun dx h1 h2 => by omega, fun _ _ => rfl⟩
    (by
      intro n r n0 n2 ⟨a1, a2, a3, a4, a5⟩
      by_cases c : seam + n ≥ 0 ∧ seam + n < lum.width - 1
      · simp only [if_pos c]
        refine ⟨a1, a2, a3, ?_, ?_⟩
        · intro dx d1 d2 d3 d4
          simp only [MAT_SET, a3]
          by_cases e : dx = n
          · subst e
            rw [Function.update_same]
          · rw [Function.update_noteq (by omega)]
            exact a4 dx d1 (by omega) d3 d4
        · intro i hi
          simp only [MAT_SET, a3]
          rw [Function.update_noteq (hi n n0 (by omega) c.1 c.2)]
          exact a5 i (fun dx d1 d2 d3 d4 => hi dx d1 (by omega) d3 d4)
      · simp only [if_neg c]
        refine ⟨a1, a2, a3, ?_, ?_⟩
        · intro dx d1 d2 d3 d4
          by_cases e : dx = n
          · subst e
            exact absurd ⟨d3, d4⟩ c
          · exact a4 dx d1 (by omega) d3 d4
        · intro i hi
          apply a5 i
          intro dx d1 d2 d3 d4
          exact hi dx d1 (by omega) d3 d4)
  obtain ⟨k1, k2, k3, k4, k5⟩ := key
  refine ⟨k1, k2, k3, ?_, k5⟩
  intro dx d1 d2 d3 d4
  unfold MAT_AT
  rw [k3]
  exact k4 dx d1 d2 d3 d4

/-- Every cell of a patched row holds its former content or a Sobel energy. -/
theorem patch_row_pred (sqrtf : α → α) (P : α → Prop)
    (hP : ∀ lum row col, P (sobel_filter_at sqrtf lum row col))
    (lum edges : Mat α) (row seam : Int) (i : Int) (h : P (edges.items i)) :
    P ((patch_row sqrtf lum edges row seam).items i) := by
  obtain ⟨_, _, _, k4, k5⟩ := patch_row_spec sqrtf lum edges row seam
  by_cases c : ∃ dx, -2 ≤ dx ∧ dx < 2 ∧ 0 ≤ seam + dx ∧ seam + dx < lum.width - 1
      ∧ i = seam + dx + row * edges.stride
  · obtain ⟨dx, d1, d2, d3, d4, d5⟩ := c
    have := k4 dx d1 d2 d3 d4
    unfold MAT_AT at this
    rw [(patch_row_spec sqrtf lum edges row seam).2.2.1] at this
    rw [d5, this]
    exact hP _ _ _
  · rw [k5 i (fun dx d1 d2 d3 d4 e => c ⟨dx, d1, d2, d3, d4, e⟩)]
    exact h

/-- The deletion of a cell in a row `1 <= y < H` at a column that is not negative keeps the
invariant of `remove_seam`. -/
theorem rm_cell_inv (Pi : Pixel → Prop) (Pl Pe : α → Prop) (img : Img) (lum : Mat α)
    (H W S : Int) (s : Seamed α) (y col : Int) (hW : W ≤ S) (hS0 : 0 ≤ S)
    (hy1 : 1 ≤ y) (hyH : y + 1 ≤ H) (hc0 : 0 ≤ col)
    (h : seam_inv Pi Pl Pe img lum H W S s) :
    seam_inv Pi Pl Pe img lum H W S (rm_cell s y col) := by
  obtain ⟨⟨a1, a2, a3⟩, ⟨b1, b2, b3⟩, ⟨c1, c2, c3⟩, hs, hi, hl, he, fi, fl⟩ := h
  refine ⟨⟨a1, a2, a3⟩, ⟨b1, b2, b3⟩, ⟨c1, c2, c3⟩, hs, ?_, ?_, ?_, ?_, ?_⟩
  · intro h0
    have := memmove_region Pi s.img.items H W S y col hW hS0 hyH (hi h0)
    simpa only [rm_cell, img_rm_col_at_row, a2, a3] using this
  · intro h0
    have := memmove_region Pl s.lum.items H W S y col hW hS0 hyH (hl h0)
    simpa only [rm_cell, mat_rm_col_at_row, b2, b3] using this
  · have := memmove_region Pe s.edges.items H W S y col hW hS0 hyH he
    simpa only [rm_cell, mat_rm_col_at_row, c2, c3] using this
  · intro i hi
    have := memmove_row0 s.img.items W S y col hS0 hy1 hc0 i hi
    rw [← fi i hi, ← this]
    simp only [rm_cell, img_rm_col_at_row, a2, a3]
  · intro i hi
    have := memmove_row0 s.lum.items W S y col hS0 hy1 hc0 i hi
    rw [← fl i hi, ← this]
    simp only [rm_cell, mat_rm_col_at_row, b2, b3]

/-- The effect of `remove_seam` on three grids of the shape of the cost map, with `H >= 2`
and `1 <= W <= S`: it returns, the shapes stay, the seam ends inside the window, a property
of all cells of a grid is kept, row 0 of the pixels and of the luminance is untouched, and
the in-window columns of row 0 around the last seam column hold their Sobel energy. -/
theorem remove_seam_effect (sqrtf : α → α) (Pi : Pixel → Prop) (Pl Pe : α → Prop)
    (hPe : ∀ lum row col, Pe (sobel_filter_at sqrtf lum row col))
    (fuel : Nat) (dp : Mat α) (img : Img) (lum edges : Mat α) (H W S : Int)
    (hdp : dp.height = H ∧ dp.width = W)
    (himg : img.height = H ∧ img.width = W ∧ img.stride = S)
    (hlum : lum.height = H ∧ lum.width = W ∧ lum.stride = S)
    (hedges : edges.height = H ∧ edges.width = W ∧ edges.stride = S)
    (hH : 2 ≤ H) (hW : 1 ≤ W) (hS : W ≤ S) (hf : H - 1 ≤ fuel)
    (he : ∀ i, 0 ≤ i → i < H * S → Pe (edges.items i)) :
    ∃ s, remove_seam sqrtf fuel dp img lum edges = some s
      ∧ seam_inv Pi Pl Pe img lum H W S s
      ∧ (∀ dx, -2 ≤ dx → dx < 2 → 0 ≤ s.seam + dx → s.seam + dx < W - 1 →
          MAT_AT s.edges 0 (s.seam + dx) = sobel_filter_at sqrtf s.lum 0 (s.seam + dx)) := by
  obtain ⟨hd1, hd2⟩ := hdp
  have hscan := seam_scan_spec dp (dp.height - 1) (by omega)
  have h0 : seam_inv Pi Pl Pe img lum H W S (seam_start dp img lum edges) := by
    unfold seam_start
    apply rm_cell_inv Pi Pl Pe img lum H W S _ _ _ hS (by omega) (by omega) (by omega) hscan.1
    exact ⟨himg, hlum, hedges, ⟨hscan.1, by rw [← hd2]; exact hscan.2.1⟩,
      fun h => h, fun h => h, he, fun _ _ => rfl, fun _ _ => rfl⟩
  obtain ⟨s1, hI, e⟩ := remove_seam_inv sqrtf fuel dp img lum edges
    (fun _ s => seam_inv Pi Pl Pe img lum H W S s) (by omega) (by omega) h0
    (by
      intro y s y1 y2 hs
      have hstep := seam_step_spec dp y s.seam
      have hr := hstep.2.1 hs.2.2.2.1.1 (by rw [hd2]; exact hs.2.2.2.1.2)
      have h1 := rm_cell_inv Pi Pl Pe img lum H W S s y (seam_step dp y s.seam) hS (by omega)
        y1 (by omega) hr.1 hs
      obtain ⟨a, b, c, _, hi, hl, he1, fi, fl⟩ := h1
      obtain ⟨p1, p2, p3, _, _⟩ := patch_row_spec sqrtf (rm_cell s y (seam_step dp y s.seam)).lum
        (rm_cell s y (seam_step dp y s.seam)).edges (y + 1) s.seam
      refine ⟨a, b, ⟨p1.trans c.1, p2.trans c.2.1, p3.trans c.2.2⟩, ⟨hr.1, by rw [← hd2]; exact hr.2⟩,
        hi, hl, ?_, fi, fl⟩
      intro i i0 i1
      exact patch_row_pred sqrtf Pe hPe _ _ _ _ i (he1 i i0 i1))
  refine ⟨_, e, ?_, ?_⟩
  · obtain ⟨a, b, c, d, hi, hl, he1, fi, fl⟩ := hI
    obtain ⟨p1, p2, p3, _, _⟩ := patch_row_spec sqrtf s1.lum s1.edges 0 s1.seam
    refine ⟨a, b, ⟨p1.trans c.1, p2.trans c.2.1, p3.trans c.2.2⟩, d, hi, hl, ?_, fi, fl⟩
    intro i i0 i1
    exact patch_row_pred sqrtf Pe hPe _ _ _ _ i (he1 i i0 i1)
  · intro dx d1 d2 d3 d4
    have := (patch_row_spec sqrtf s1.lum s1.edges 0 s1.seam).2.2.2.1 dx d1 d2 d3
      (by rw [hI.2.1.2.1]; exact d4)
    exact this

/-- The sums of `sobel_filter_at`, unrolled: the two Sobel kernels applied to the luminance
with the cells outside the window left out. -/
theorem sobel_sums_eq (lum : Mat α) (r c : Int) :
    sobel_sums lum r c =
      (lum_or_zero lum (r - 1) (c - 1) - lum_or_zero lum (r - 1) (c + 1)
          + 2 * lum_or_zero lum r (c - 1) - 2 * lum_or_zero lum r (c + 1)
          + lum_or_zero lum (r + 1) (c - 1) - lum_or_zero lum (r + 1) (c + 1),
        lum_or_zero lum (r - 1) (c - 1) + 2 * lum_or_zero lum (r - 1) c
          + lum_or_zero lum (r - 1) (c + 1)
          - lum_or_zero lum (r + 1) (c - 1) - 2 * lum_or_zero lum (r + 1) c
          - lum_or_zero lum (r + 1) (c + 1)) := by
  have h : ∀ (b : Bool) (p : α × α) (k k1 v : α),
      (if b = true then (p.1 + k * v, p.2 + k1 * v) else p)
        = (p.1 + k * (if b = true then v else 0), p.2 + k1 * (if b = true then v else 0)) := by
    intro b p k k1 v
    cases b <;> simp
  unfold sobel_sums
  rw [for_loop_three _ _ _ _ (by norm_num)]
  simp only [for_loop_three (-1) 2 _ _ (by norm_num : (2 : Int) = -1 + 3), h]
  have k00 : krnl (-1 + 1) (-1 + 1) = 1 := rfl
  have k01 : krnl (-1 + 1) (-1 + 1 + 1) = 0 := rfl
  have k02 : krnl (-1 + 1) (-1 + 2 + 1) = -1 := rfl
  have k10 : krnl (-1 + 1 + 1) (-1 + 1) = 2 := rfl
  have k11 : krnl (-1 + 1 + 1) (-1 + 1 + 1) = 0 := rfl
  have k12 : krnl (-1 + 1 + 1) (-1 + 2 + 1) = -2 := rfl
  have k20 : krnl (-1 + 2 + 1) (-1 + 1) = 1 := rfl
  have k21 : krnl (-1 + 2 + 1) (-1 + 1 + 1) = 0 := rfl
  have k22 : krnl (-1 + 2 + 1) (-1 + 2 + 1) = -1 := rfl
  simp only [k00, k01, k02, k10, k11, k12, k20, k21, k22]
  have e1 : r + -1 = r - 1 := by ring
  have e2 : r + (-1 + 1) = r := by ring
  have e3 : r + (-1 + 2) = r + 1 := by ring
  have f1 : c + -1 = c - 1 := by ring
  have f2 : c + (-1 + 1) = c := by ring
  have f3 : c + (-1 + 2) = c + 1 := by ring
  simp only [e1, e2, e3, f1, f2, f3]
  unfold lum_or_zero
  ext
  · push_cast; ring
  · push_cast; ring

/-! ## The loop of `main` -/

/-- One iteration of the loop of `main` on grids of one shape with `H >= 2` and
`1 <= W <= S`: `build_dp` and `remove_seam` return, and the grids of the next iteration are
those `remove_seam` leaves, one column narrower. -/
theorem carve_step_spec (sqrtf : α → α) (Pi : Pixel → Prop) (Pl Pe : α → Prop)
    (hPe : ∀ lum row col, Pe (sobel_filter_at sqrtf lum row col))
    (fuel : Nat) (g : Grids α) (H W S : Int) (hg : g.shaped H W S)
    (hH : 2 ≤ H) (hW : 1 ≤ W) (hS : W ≤ S) (hf : H - 1 ≤ fuel)
    (he : ∀ i, 0 ≤ i → i < H * S → Pe (g.edges.items i)) :
    ∃ dp s, build_dp g.edges g.dp = some dp
      ∧ remove_seam sqrtf fuel dp g.img g.lum g.edges = some s
      ∧ carve_step sqrtf fuel g = some (narrowed s dp)
      ∧ (dp.height = H ∧ dp.width = W ∧ dp.stride = S)
      ∧ seam_inv Pi Pl Pe g.img g.lum H W S s
      ∧ (∀ dx, -2 ≤ dx → dx < 2 → 0 ≤ s.seam + dx → s.seam + dx < W - 1 →
          MAT_AT s.edges 0 (s.seam + dx) = sobel_filter_at sqrtf s.lum 0 (s.seam + dx)) := by
  obtain ⟨hi, hl, hed, hdp⟩ := hg
  have hd : MAT_SAME_DIM g.edges g.dp = true := by
    rw [MAT_SAME_DIM_iff]; exact ⟨by rw [hed.2.1, hdp.2.1], by rw [hed.1, hdp.1]⟩
  obtain ⟨dp, b1, b2, b3, b4, _, _⟩ := build_dp_spec g.edges g.dp hd (by rw [hdp.2.1, hdp.2.2]; exact hS)
  obtain ⟨s, r1, r2, r3⟩ := remove_seam_effect sqrtf Pi Pl Pe hPe fuel dp g.img g.lum g.edges
    H W S ⟨b2.trans hdp.1, b3.trans hdp.2.1⟩ hi hl hed hH hW hS hf he
  refine ⟨dp, s, b1, r1, ?_, ⟨b2.trans hdp.1, b3.trans hdp.2.1, b4.trans hdp.2.2⟩, r2, r3⟩
  simp only [carve_step, b1, r1, narrowed]

/-- The loop of `main` for `n` seams on grids of one shape with `H >= 2` (or `n = 0`) and
`n <= W <= S`: it returns grids of the same height and stride, `n` columns narrower, and a
property of all cells of a grid that Sobel energies have is kept. -/
theorem carve_spec (sqrtf : α → α) (Pi : Pixel → Prop) (Pl Pe : α → Prop)
    (hPe : ∀ lum row col, Pe (sobel_filter_at sqrtf lum row col)) (fuel : Nat) (n : Nat) :
    ∀ (g : Grids α) (H W S : Int), g.shaped H W S → (n = 0 ∨ 2 ≤ H) → (n : Int) ≤ W → W ≤ S →
      0 ≤ S → H - 1 ≤ fuel →
      (∀ i, 0 ≤ i → i < H * S → Pe (g.edges.items i)) →
      ∃ g1, carve sqrtf fuel n g = some g1 ∧ g1.shaped H (W - n) S
        ∧ (∀ i, 0 ≤ i → i < H * S → Pe (g1.edges.items i))
        ∧ ((∀ i, 0 ≤ i → i < H * S → Pl (g.lum.items i)) →
            ∀ i, 0 ≤ i → i < H * S → Pl (g1.lum.items i))
        ∧ ((∀ i, 0 ≤ i → i < H * S → Pi (g.img.items i)) →
            ∀ i, 0 ≤ i → i < H * S → Pi (g1.img.items i)) := by
  induction n with
  | zero =>
    intro g H W S hg _ _ _ _ _ he
    refine ⟨g, rfl, ?_, he, fun h => h, fun h => h⟩
    simpa using hg
  | succ n ih =>
    intro g H W S hg hH hn hS hS0 hf he
    push_cast at hn
    have hH2 : 2 ≤ H := by
      rcases hH with h | h
      · omega
      · exact h
    obtain ⟨dp, s, _, _, e, hdp, hinv, _⟩ := carve_step_spec sqrtf Pi Pl Pe hPe fuel g H W S hg
      hH2 (by omega) hS hf he
    obtain ⟨a, b, c, _, hi, hl, he1, _, _⟩ := hinv
    have hg1 : (narrowed s dp).shaped H (W - 1) S := by
      simp only [Grids.shaped, narrowed]
      exact ⟨⟨a.1, by rw [a.2.1], a.2.2⟩, ⟨b.1, by rw [b.2.1], b.2.2⟩,
        ⟨c.1, by rw [c.2.1], c.2.2⟩, ⟨hdp.1, by rw [hdp.2.1], hdp.2.2⟩⟩
    obtain ⟨g1, e1, s1, p1, p2, p3⟩ := ih (narrowed s dp) H (W - 1) S hg1 (Or.inr hH2) (by omega)
      (by omega) hS0 hf he1
    refine ⟨g1, ?_, ?_, p1, fun h => p2 (hl h), fun h => p3 (hi h)⟩
    · simp only [carve, e, e1]
    · have : W - ((n + 1 : Nat) : Int) = W - 1 - (n : Int) := by push_cast; ring
      rw [this]; exact s1

/-- Every offset in `[0, H * S)` is the offset of a cell of the first `H` rows of a grid of
stride `S >= 1`. -/
theorem offset_cell (H S i : Int) (hS : 1 ≤ S) (i0 : 0 ≤ i) (iH : i < H * S) :
    0 ≤ i / S ∧ i / S < H ∧ 0 ≤ i % S ∧ i % S < S ∧ i % S + i / S * S = i := by
  have h1 : 0 ≤ i / S := Int.ediv_nonneg i0 (by omega)
  have h2 : i % S + S * (i / S) = i := Int.emod_add_ediv i S
  have h3 : 0 ≤ i % S := Int.emod_nonneg i (by omega)
  have h4 : i % S < S := Int.emod_lt_of_pos i (by omega)
  refine ⟨h1, ?_, h3, h4, by rw [mul_comm]; exact h2⟩
  by_contra hc
  have h5 : H ≤ i / S := by omega
  have h6 : H * S ≤ i / S * S := Int.mul_le_mul_of_nonneg_right h5 (by omega)
  have h7 : S * (i / S) = i / S * S := mul_comm _ _
  omega

/-- Every cell of the first `H` rows of a grid of stride `S` lies at an offset in
`[0, H * S)`. -/
theorem cell_offset (H S y x : Int) (y0 : 0 ≤ y) (yH : y < H) (x0 : 0 ≤ x) (xS : x < S) :
    0 ≤ x + y * S ∧ x + y * S < H * S := by
  have h1 : 0 ≤ y * S := Int.mul_nonneg y0 (by omega)
  have h2 : (y + 1) * S ≤ H * S := Int.mul_le_mul_of_nonneg_right (by omega) (by omega)
  have h3 : (y + 1) * S = y * S + S := by ring
  constructor <;> omega

/-- A property of the cells of the first `H` rows of a grid holds at every offset in
`[0, H * S)`. -/
theorem region_of_cells (P : β → Prop) (m : Mat β) (H S : Int) (hm : m.stride = S) (hS : 1 ≤ S)
    (h : ∀ y x, 0 ≤ y → y < H → 0 ≤ x → x < S → P (MAT_AT m y x)) :
    ∀ i, 0 ≤ i → i < H * S → P (m.items i) := by
  intro i i0 i1
  obtain ⟨c1, c2, c3, c4, c5⟩ := offset_cell H S i hS i0 i1
  have := h (i / S) (i % S) c1 c2 c3 c4
  unfold MAT_AT at this
  rw [hm, c5] at this
  exact this

/-- A property of the offsets in `[0, H * S)` holds for the cells of the first `H` rows. -/
theorem cells_of_region (P : β → Prop) (m : Mat β) (H S : Int) (hm : m.stride = S)
    (h : ∀ i, 0 ≤ i → i < H * S → P (m.items i)) :
    ∀ y x, 0 ≤ y → y < H → 0 ≤ x → x < S → P (MAT_AT m y x) := by
  intro y x y0 y1 x0 x1
  obtain ⟨o1, o2⟩ := cell_offset H S y x y0 y1 x0 x1
  unfold MAT_AT
  rw [hm]
  exact h _ o1 o2

/-- The macro `MAT_WITHIN` as a proposition. -/
theorem MAT_WITHIN_iff (m : Mat β) (y x : Int) :
    MAT_WITHIN m y x = true ↔ 0 ≤ y ∧ 0 ≤ x ∧ y < m.height ∧ x < m.width := by
  simp [MAT_WITHIN, and_assoc]

/-- What `sobel_filter` computes: on grids of the same dimensions it writes the Sobel energy
of every cell of the window. -/
theorem sobel_filter_spec (sqrtf : α → α) (lum grad : Mat α) (hd : MAT_SAME_DIM lum grad = true)
    (hW : lum.width ≤ grad.stride) :
    ∃ r, sobel_filter sqrtf lum grad = some r ∧ r.height = grad.height ∧ r.width = grad.width
      ∧ r.stride = grad.stride
      ∧ ∀ y x, 0 ≤ y → y < lum.height → 0 ≤ x → x < lum.width →
          MAT_AT r y x = sobel_filter_at sqrtf lum y x := by
  obtain ⟨a1, a2, a3, a4⟩ := fill_grid grad lum.height lum.width
    (fun y x => sobel_filter_at sqrtf lum y x) hW
  refine ⟨_, ?_, a1, a2, a3, a4⟩
  simp only [sobel_filter, hd, if_true]

/-- On a cost map of 2 rows, `remove_seam` deletes the seam cell of row 1 and patches row 0:
its loop `while (--y)` does not run. -/
theorem remove_seam_two_rows (sqrtf : α → α) (fuel : Nat) (dp : Mat α) (img : Img)
    (lum edges : Mat α) (hH : dp.height = 2) (hf : 1 ≤ fuel) :
    remove_seam sqrtf fuel dp img lum edges
      = some { seam_start dp img lum edges with
          edges := patch_row sqrtf (seam_start dp img lum edges).lum
            (seam_start dp img lum edges).edges 0 (seam_start dp img lum edges).seam } := by
  obtain ⟨f, rfl⟩ : ∃ f, fuel = f + 1 := ⟨fuel - 1, by omega⟩
  simp only [remove_seam, seam_walk, hH]
  norm_num [seam_start, hH]

/-- On a cost map of at most 1 row `remove_seam` does not return: `--y` is negative at the
first test of the loop and only decreases. -/
theorem remove_seam_none (sqrtf : α → α) (fuel : Nat) (dp : Mat α) (img : Img)
    (lum edges : Mat α) (hH : dp.height ≤ 1) :
    remove_seam sqrtf fuel dp img lum edges = none := by
  simp only [remove_seam]
  rw [seam_walk_none sqrtf dp fuel _ _ (by omega)]

/-- The Sobel energy of the top left cell of a grid of 2 rows and 2 columns of ones. -/
theorem sobel_ones_wide (lum : Mat ℝ) (hh : lum.height = 2) (hw : lum.width = 2)
    (h : ∀ y x, 0 ≤ y → y < 2 → 0 ≤ x → x < 2 → MAT_AT lum y x = 1) :
    sobel_filter_at Real.sqrt lum 0 0 = Real.sqrt 18 := by
  have w : ∀ y x, lum_or_zero lum y x = if 0 ≤ y ∧ 0 ≤ x ∧ y < 2 ∧ x < 2 then 1 else 0 := by
    intro y x
    unfold lum_or_zero
    by_cases c : 0 ≤ y ∧ 0 ≤ x ∧ y < 2 ∧ x < 2
    · rw [if_pos c, if_pos ((MAT_WITHIN_iff lum y x).mpr (by rw [hh, hw]; exact c))]
      exact h y x c.1 c.2.2.1 c.2.1 c.2.2.2
    · rw [if_neg c, if_neg (fun hc => c (by rw [MAT_WITHIN_iff, hh, hw] at hc; exact hc))]
  simp only [sobel_filter_at, sobel_sums_eq, w]
  norm_num

/-- The Sobel energy of the top cell of a grid of 2 rows and 1 column of ones. -/
theorem sobel_ones_narrow (lum : Mat ℝ) (hh : lum.height = 2) (hw : lum.width = 1)
    (h : ∀ y x, 0 ≤ y → y < 2 → 0 ≤ x → x < 1 → MAT_AT lum y x = 1) :
    sobel_filter_at Real.sqrt lum 0 0 = 2 := by
  have w : ∀ y x, lum_or_zero lum y x = if 0 ≤ y ∧ 0 ≤ x ∧ y < 2 ∧ x < 1 then 1 else 0 := by
    intro y x
    unfold lum_or_zero
    by_cases c : 0 ≤ y ∧ 0 ≤ x ∧ y < 2 ∧ x < 1
    · rw [if_pos c, if_pos ((MAT_WITHIN_iff lum y x).mpr (by rw [hh, hw]; exact c))]
      exact h y x c.1 c.2.2.1 c.2.1 c.2.2.2
    · rw [if_neg c, if_neg (fun hc => c (by rw [MAT_WITHIN_iff, hh, hw] at hc; exact hc))]
  simp only [sobel_filter_at, sobel_sums_eq, w]
  norm_num
  have : (4 : ℝ) = 2 ^ 2 := by norm_num
  rw [this, Real.sqrt_sq (by norm_num)]

/-! ## The claims on the energy map and on the orchestrator -/

/-- The luminance of a white pixel is 1. -/
theorem white_lum (a : Fin 256) : (pixel_to_lum ⟨255, 255, 255, a⟩ : ℝ) = 1 := by
  have h : ((255 : Fin 256) : Nat) = 255 := rfl
  simp only [pixel_to_lum, h]
  norm_num

/-- C1 fails on the code: for the 2 x 2 white image, after the one iteration `main` runs
(the clamp gives 1 seam), the patched energy of the cell `(0, 0)` is `sqrt 18` while
`sobel_filter` recomputed over the current luminance map gives 2. -/
theorem patched_energy_differs :
    ∃ g0 g rebuilt, load Real.sqrt white_img = some g0
      ∧ carve Real.sqrt 1 (clamp_seams 500 white_img.width).toNat g0 = some g
      ∧ sobel_filter Real.sqrt g.lum g.edges = some rebuilt
      ∧ g.edges.height = 2 ∧ g.edges.width = 1 ∧ g.lum.height = 2 ∧ g.lum.width = 1
      ∧ MAT_AT g.edges 0 0 = Real.sqrt 18
      ∧ MAT_AT rebuilt 0 0 = 2
      ∧ MAT_AT g.edges 0 0 ≠ MAT_AT rebuilt 0 0 := by
  obtain ⟨g0, e0, hg, hi, hlum, _⟩ := load_spec Real.sqrt white_img (by decide) (by decide)
  have hh : white_img.height = 2 := rfl
  have hw : white_img.width = 2 := rfl
  rw [hh, hw] at hlum hg
  -- the luminance is 1 everywhere
  have hcells : ∀ y x, 0 ≤ y → y < 2 → 0 ≤ x → x < 2 → MAT_AT g0.lum y x = 1 := by
    intro y x y0 y1 x0 x1
    rw [hlum y x y0 y1 x0 x1, hi]
    simp only [MAT_AT, white_img, grid_of, List.getD_nil]
    exact white_lum _
  have hreg := region_of_cells (fun v : ℝ => v = 1) g0.lum 2 2 hg.2.1.2.2 (by norm_num) hcells
  obtain ⟨dp, s, _, _, e1, hdp, hinv, hpatch⟩ := carve_step_spec Real.sqrt (fun _ => True)
    (fun v : ℝ => v = 1) (fun _ => True) (fun _ _ _ => trivial) 1 g0 2 2 2 hg (by norm_num)
    (by norm_num) (by norm_num) (by norm_num) (fun _ _ _ => trivial)
  obtain ⟨_, b, c, hs, _, hl, _, _, _⟩ := hinv
  have hk : (clamp_seams 500 white_img.width).toNat = 1 := by decide
  have hones := cells_of_region (fun v : ℝ => v = 1) s.lum 2 2 b.2.2 (hl hreg)
  -- the patched cell
  have hp : MAT_AT s.edges 0 0 = Real.sqrt 18 := by
    have := hpatch (-s.seam) (by omega) (by omega) (by omega) (by omega)
    rw [add_neg_cancel] at this
    rw [this]
    exact sobel_ones_wide s.lum b.1 b.2.1 hones
  -- the grids after the iteration
  have hd : MAT_SAME_DIM (narrowed s dp).lum (narrowed s dp).edges = true := by
    rw [MAT_SAME_DIM_iff]
    simp only [narrowed]
    exact ⟨by rw [b.2.1, c.2.1], by rw [b.1, c.1]⟩
  obtain ⟨rebuilt, r1, _, _, _, r2⟩ := sobel_filter_spec Real.sqrt (narrowed s dp).lum
    (narrowed s dp).edges hd (by simp only [narrowed]; rw [b.2.1, c.2.2]; norm_num)
  have hnl : (narrowed s dp).lum.height = 2 ∧ (narrowed s dp).lum.width = 1 := by
    simp only [narrowed]
    exact ⟨b.1, by rw [b.2.1]; norm_num⟩
  have hne : (narrowed s dp).edges.height = 2 ∧ (narrowed s dp).edges.width = 1 := by
    simp only [narrowed]
    exact ⟨c.1, by rw [c.2.1]; norm_num⟩
  have hr : MAT_AT rebuilt 0 0 = 2 := by
    rw [r2 0 0 (by norm_num) (by rw [hnl.1]; norm_num) (by norm_num) (by rw [hnl.2]; norm_num)]
    apply sobel_ones_narrow _ hnl.1 hnl.2
    intro y x y0 y1 x0 x1
    exact hones y x y0 y1 x0 (by omega)
  have hpe : MAT_AT (narrowed s dp).edges 0 0 = Real.sqrt 18 := hp
  refine ⟨g0, narrowed s dp, rebuilt, e0, ?_, r1, hne.1, hne.2, hnl.1, hnl.2, hpe, hr, ?_⟩
  · rw [hk]
    simp only [carve, e1]
  · rw [hpe, hr]
    intro h
    have h18 : Real.sqrt 18 ^ 2 = 18 := Real.sq_sqrt (by norm_num)
    rw [h] at h18
    norm_num at h18

/-- C9: `sobel_filter_at` returns a value that is not negative for every luminance grid and
cell, and after any number `n <= W` of iterations of the loop of `main` on a decoded image
(of at least 2 rows, or `n = 0`) every cell of the energy map is still not negative. -/
theorem energy_nonneg :
    (∀ (lum : Mat ℝ) (row col : Int), 0 ≤ sobel_filter_at Real.sqrt lum row col)
      ∧ ∀ (img : Img) (n fuel : Nat), 1 ≤ img.height → 1 ≤ img.width → (n = 0 ∨ 2 ≤ img.height) →
          (n : Int) ≤ img.width → img.height - 1 ≤ fuel →
          ∃ g0 g, load Real.sqrt img = some g0 ∧ carve Real.sqrt fuel n g0 = some g
            ∧ g.edges.height = img.height ∧ g.edges.width = img.width - n
            ∧ g.edges.stride = img.width
            ∧ ∀ y x, 0 ≤ y → y < g.edges.height → 0 ≤ x → x < g.edges.stride →
                0 ≤ MAT_AT g.edges y x := by
  have hP : ∀ (lum : Mat ℝ) (row col : Int), 0 ≤ sobel_filter_at Real.sqrt lum row col :=
    fun lum row col => Real.sqrt_nonneg _
  refine ⟨hP, ?_⟩
  intro img n fuel hH hW hn hnW hf
  obtain ⟨g0, e0, hg, _, _, hedges⟩ := load_spec Real.sqrt img hH hW
  have hreg := region_of_cells (fun v : ℝ => 0 ≤ v) g0.edges img.height img.width
    hg.2.2.1.2.2 hW (fun y x y0 y1 x0 x1 => by rw [hedges y x y0 y1 x0 x1]; exact hP _ _ _)
  obtain ⟨g, e1, hs, hp, _, _⟩ := carve_spec Real.sqrt (fun _ => True) (fun _ => True)
    (fun v => 0 ≤ v) hP fuel n g0 img.height img.width img.width hg hn hnW (le_refl _)
    (by omega) hf hreg
  refine ⟨g0, g, e0, e1, hs.2.2.1.1, hs.2.2.1.2.1, hs.2.2.1.2.2, ?_⟩
  intro y x y0 y1 x0 x1
  rw [hs.2.2.1.1] at y1
  rw [hs.2.2.1.2.2] at x1
  obtain ⟨o1, o2⟩ := cell_offset img.height img.width y x y0 y1 x0 x1
  unfold MAT_AT
  rw [hs.2.2.1.2.2]
  exact hp _ o1 o2

/-- C9 on the 2 x 2 white image and one seam. -/
theorem energy_nonneg_witness :
    ∃ g0 g, load Real.sqrt white_img = some g0 ∧ carve Real.sqrt 1 1 g0 = some g
      ∧ g.edges.height = white_img.height ∧ g.edges.width = white_img.width - (1 : Nat)
      ∧ g.edges.stride = white_img.width
      ∧ ∀ y x, 0 ≤ y → y < g.edges.height → 0 ≤ x → x < g.edges.stride →
          0 ≤ MAT_AT g.edges y x :=
  energy_nonneg.2 white_img 1 1 (by decide) (by decide) (Or.inr (by decide)) (by decide)
    (by decide)

/-- The image `main` hands to the encoder, for a decoded image of at least 2 rows: the
height of the input and its width less the clamped seam count. -/
theorem main_dims (sqrtf : α → α) (fuel : Nat) (img : Img) (hH : 2 ≤ img.height)
    (hW : 1 ≤ img.width) (hf : img.height - 1 ≤ fuel) :
    ∃ out, main sqrtf fuel img = some out ∧ out.height = img.height
      ∧ out.width = img.width - clamp_seams 500 img.width ∧ out.stride = img.width := by
  obtain ⟨g0, e0, hg, hi, _, _⟩ := load_spec sqrtf img (by omega) hW
  obtain ⟨c0, c1⟩ := clamp_seams_le img.width 500 hW (by norm_num)
  obtain ⟨k, hk⟩ : ∃ k : Nat, (k : Int) = clamp_seams 500 img.width :=
    ⟨(clamp_seams 500 img.width).toNat, by omega⟩
  obtain ⟨g, e1, hs, _, _, _⟩ := carve_spec sqrtf (fun _ => True) (fun _ => True)
    (fun _ => True) (fun _ _ _ => trivial) fuel k g0 img.height img.width img.width hg
    (Or.inr hH) (by omega) (le_refl _) (by omega) hf (fun _ _ _ => trivial)
  refine ⟨g.img, ?_, hs.1.1, by rw [hs.1.2.1, hk], hs.1.2.2⟩
  have hw : g0.img.width = img.width := hg.1.2.1
  have hk2 : (clamp_seams 500 img.width).toNat = k := by omega
  simp only [main, e0, hw, hk2, e1]

/-- C6 fails on the code: for the image of 1 row and 2 columns (clamped seam count 1),
`main` never reaches the encoder, whatever the fuel: `remove_seam` enters its loop with
`--y = -1`. -/
theorem main_one_row_no_result (fuel : Nat) : main Real.sqrt fuel row_img = none := by
  obtain ⟨g0, e0, hg, _, _, _⟩ := load_spec Real.sqrt row_img (by decide) (by decide)
  have hh : row_img.height = 1 := rfl
  have hw : row_img.width = 2 := rfl
  rw [hh, hw] at hg
  have hd : MAT_SAME_DIM g0.edges g0.dp = true := by
    rw [MAT_SAME_DIM_iff]
    exact ⟨by rw [hg.2.2.1.2.1, hg.2.2.2.2.1], by rw [hg.2.2.1.1, hg.2.2.2.1]⟩
  obtain ⟨dp, b1, b2, _⟩ := build_dp_spec g0.edges g0.dp hd
    (by rw [hg.2.2.2.2.1, hg.2.2.2.2.2])
  have hk : (clamp_seams 500 g0.img.width).toNat = 1 := by
    rw [hg.1.2.1]; decide
  simp only [main, e0, hk, carve, carve_step, b1]
  rw [remove_seam_none Real.sqrt fuel dp _ _ _ (by rw [b2, hg.2.2.2.1])]

/-! ## Images without contrast -/

/-- The Sobel energy of a cell of a grid whose window holds zeros only. -/
theorem sobel_zero (lum : Mat ℝ)
    (h : ∀ y x, 0 ≤ y → y < lum.height → 0 ≤ x → x < lum.width → MAT_AT lum y x = 0)
    (row col : Int) : sobel_filter_at Real.sqrt lum row col = 0 := by
  have w : ∀ y x, lum_or_zero lum y x = 0 := by
    intro y x
    unfold lum_or_zero
    split
    · rename_i hc
      rw [MAT_WITHIN_iff] at hc
      exact h y x hc.1 hc.2.2.1 hc.2.1 hc.2.2.2
    · rfl
  simp only [sobel_filter_at, sobel_sums_eq, w]
  norm_num

/-- A table that satisfies the recurrence of `build_dp` for an energy map whose window
holds zeros only holds zeros only. -/
theorem cost_zero (E cost : Mat α) (W H : Int)
    (hE : ∀ y x, 0 ≤ y → y < H → 0 ≤ x → x < W → MAT_AT E y x = 0)
    (h0 : ∀ x, 0 ≤ x → x < W → MAT_AT cost 0 x = MAT_AT E 0 x)
    (hr : ∀ y x, 1 ≤ y → y < H → 0 ≤ x → x < W →
      MAT_AT cost y x = MAT_AT E y x + min_prev W cost y x)
    (n : Nat) : ∀ x, (n : Int) < H → 0 ≤ x → x < W → MAT_AT cost (n : Int) x = 0 := by
  induction n with
  | zero =>
    intro x hH x0 xW
    rw [Nat.cast_zero, h0 x x0 xW]
    exact hE 0 x (le_refl _) (by simpa using hH) x0 xW
  | succ n ih =>
    intro x hH x0 xW
    push_cast at hH ⊢
    rw [hr _ x (by omega) hH x0 xW, hE _ x (by omega) hH x0 xW, zero_add]
    obtain ⟨a1, a2, a3⟩ := min_prev_spec W cost ((n : Int) + 1) x
    have e : (n : Int) + 1 - 1 = n := by ring
    rw [e] at a2 a3
    have b := a2 0 (by norm_num) (by norm_num) (by omega) (by omega)
    rw [add_zero, ih x (by omega) x0 xW] at b
    rcases a3 with a3 | ⟨i, _, _, i3, i4, i5⟩
    · exfalso
      rw [a3] at b
      have : (0 : α) < FLT_MAX := by unfold FLT_MAX; norm_num
      exact absurd b (not_le.mpr this)
    · rw [i5, ih (x + i) (by omega) i3 i4]

/-- The scan of a row whose window holds one value ends on column 0. -/
theorem seam_scan_flat (dp : Mat α) (y : Int) (hW : 1 ≤ dp.width)
    (h : ∀ x, 0 ≤ x → x < dp.width → MAT_AT dp y x = MAT_AT dp y 0) : seam_scan dp y = 0 := by
  obtain ⟨a1, a2, _, a4⟩ := seam_scan_spec dp y hW
  by_contra hne
  have := a4 0 (le_refl _) (by omega)
  rw [h _ a1 a2] at this
  exact lt_irrefl _ this

/-- The luminance of a black pixel is 0. -/
theorem black_lum (a : Fin 256) : (pixel_to_lum ⟨0, 0, 0, a⟩ : ℝ) = 0 := by
  simp [pixel_to_lum]

/-- Every pixel of `alpha_img` is black. -/
theorem alpha_img_black (i : Int) : ∃ a, alpha_img.items i = ⟨0, 0, 0, a⟩ := by
  have h : ∀ n : Nat, ∃ a, alpha_img.items n = ⟨0, 0, 0, a⟩ := by
    intro n
    simp only [alpha_img, grid_of, Int.toNat_ofNat]
    rcases n with _ | _ | _ | _ | _ | _ | n <;> simp [List.getD]
  by_cases hi : 0 ≤ i
  · obtain ⟨n, rfl⟩ := Int.eq_ofNat_of_zero_le hi
    exact h n
  · have : i.toNat = 0 := by omega
    simp only [alpha_img, grid_of, this]
    exact ⟨_, rfl⟩

/-- C4 fails on the code: for the 2 x 3 black image `alpha_img`, whose six pixels differ in
alpha, `remove_seam` deletes the cell `(1, 0)` only and leaves row 0 as it was, so that no
columns `c_0, c_1` with `|c_1 - c_0| <= 1` describe the pixel rows after the call as the rows
before it with the cell at `c_y` deleted. -/
theorem top_row_not_carved :
    ∃ g0 dp s, load Real.sqrt alpha_img = some g0 ∧ build_dp g0.edges g0.dp = some dp
      ∧ remove_seam Real.sqrt 1 dp g0.img g0.lum g0.edges = some s
      ∧ s.removed = [(1, 0)]
      ∧ (∀ x, 0 ≤ x → x < 3 → MAT_AT s.img 0 x = MAT_AT g0.img 0 x)
      ∧ ¬ ∃ c : Int → Int, |c 1 - c 0| ≤ 1
          ∧ ∀ y, 0 ≤ y → y < 2 → ∀ x, 0 ≤ x → x < 3 - 1 →
              (x < c y → MAT_AT s.img y x = MAT_AT g0.img y x)
              ∧ (c y ≤ x → MAT_AT s.img y x = MAT_AT g0.img y (x + 1)) := by
  obtain ⟨g0, e0, hg, hi, hlum, hedges⟩ := load_spec Real.sqrt alpha_img (by decide) (by decide)
  have hh : alpha_img.height = 2 := rfl
  have hw : alpha_img.width = 3 := rfl
  rw [hh, hw] at hlum hg hedges
  have hl0 : ∀ y x, 0 ≤ y → y < g0.lum.height → 0 ≤ x → x < g0.lum.width →
      MAT_AT g0.lum y x = 0 := by
    intro y x y0 y1 x0 x1
    rw [hg.2.1.1] at y1
    rw [hg.2.1.2.1] at x1
    rw [hlum y x y0 y1 x0 x1, hi]
    obtain ⟨a, ha⟩ := alpha_img_black (x + y * alpha_img.width)
    simp only [MAT_AT, ha]
    exact black_lum a
  have hE : ∀ y x, 0 ≤ y → y < (2 : Int) → 0 ≤ x → x < (3 : Int) → MAT_AT g0.edges y x = 0 := by
    intro y x y0 y1 x0 x1
    rw [hedges y x y0 y1 x0 x1]
    exact sobel_zero g0.lum hl0 y x
  have hd : MAT_SAME_DIM g0.edges g0.dp = true := by
    rw [MAT_SAME_DIM_iff]
    exact ⟨by rw [hg.2.2.1.2.1, hg.2.2.2.2.1], by rw [hg.2.2.1.1, hg.2.2.2.1]⟩
  obtain ⟨dp, b1, b2, b3, b4, b5, b6⟩ := build_dp_spec g0.edges g0.dp hd
    (by rw [hg.2.2.2.2.1, hg.2.2.2.2.2])
  rw [hg.2.2.2.1] at b2 b6
  rw [hg.2.2.2.2.1] at b3 b5 b6
  have hc := cost_zero g0.edges dp 3 2 hE b5 b6
  have hc1 : ∀ x, 0 ≤ x → x < 3 → MAT_AT dp 1 x = 0 :=
    fun x x0 x1 => hc 1 x (by norm_num) x0 x1
  have hscan : seam_scan dp 1 = 0 := by
    apply seam_scan_flat dp 1 (by omega)
    intro x x0 x1
    rw [b3] at x1
    rw [hc1 x x0 x1, hc1 0 (le_refl _) (by norm_num)]
  have er := remove_seam_two_rows Real.sqrt 1 dp g0.img g0.lum g0.edges b2 (le_refl _)
  have hsub : dp.height - 1 = 1 := by omega
  -- the pixels after the call
  have himg : ∀ i, (seam_start dp g0.img g0.lum g0.edges).img.items i
      = if 3 ≤ i ∧ i < 5 then alpha_img.items (i + 1) else alpha_img.items i := by
    intro i
    simp only [seam_start, rm_cell, img_rm_col_at_row, memmove, hsub, hscan, hi]
    rw [hw]
    by_cases c : 3 ≤ i ∧ i < 5
    · rw [if_pos c, if_pos (by omega)]
      congr 1
      omega
    · rw [if_neg c, if_neg (by omega)]
  have hst : (seam_start dp g0.img g0.lum g0.edges).img.stride = 3 := by
    simp only [seam_start, rm_cell, img_rm_col_at_row, hi, hw]
  have hcell : ∀ y x, MAT_AT (seam_start dp g0.img g0.lum g0.edges).img y x
      = if 3 ≤ x + y * 3 ∧ x + y * 3 < 5 then alpha_img.items (x + y * 3 + 1)
        else alpha_img.items (x + y * 3) := by
    intro y x
    unfold MAT_AT
    rw [hst, himg]
  have hcell0 : ∀ y x, MAT_AT g0.img y x = alpha_img.items (x + y * 3) := by
    intro y x
    rw [hi]
    rfl
  refine ⟨g0, dp, _, e0, b1, er, ?_, ?_, ?_⟩
  · simp only [seam_start, rm_cell, hsub, hscan]
  · intro x x0 x1
    show MAT_AT (seam_start dp g0.img g0.lum g0.edges).img 0 x = _
    rw [hcell, hcell0, if_neg (by omega)]
  · rintro ⟨c, hadj, hrows⟩
    rw [abs_le] at hadj
    have r1 := hrows 1 (by norm_num) (by norm_num) 0 (le_refl _) (by norm_num)
    have r0 := hrows 0 (by norm_num) (by norm_num) 1 (by norm_num) (by norm_num)
    have k1 : MAT_AT (seam_start dp g0.img g0.lum g0.edges).img 1 0 = alpha_img.items 4 := by
      rw [hcell]; norm_num
    have k0 : MAT_AT (seam_start dp g0.img g0.lum g0.edges).img 0 1 = alpha_img.items 1 := by
      rw [hcell]; norm_num
    have c1 : c 1 ≤ 0 := by
      by_contra hc1
      have := r1.1 (by omega)
      change MAT_AT (seam_start dp g0.img g0.lum g0.edges).img 1 0 = _ at this
      rw [k1, hcell0] at this
      revert this
      norm_num
      decide
    have := r0.2 (by omega)
    change MAT_AT (seam_start dp g0.img g0.lum g0.edges).img 0 1 = _ at this
    rw [k0, hcell0] at this
    revert this
    norm_num
    decide

/-! ## The tie-breaks of the seam -/

/-- One step of the upward walk from a column of the window: the chosen column is a
candidate of least cost; it is the column of the row below whenever that one has the least
cost, and otherwise it is strictly cheaper than every candidate to its left. -/
theorem seam_step_choice (dp : Mat α) (y seam : Int) (h0 : 0 ≤ seam) (hW : seam < dp.width) :
    walk_choice dp y seam (seam_step dp y seam) := by
  unfold seam_step
  have key := for_loop_induction
    (fun (n : Int) (r : Int) =>
      (MAT_AT dp y r ≤ MAT_AT dp y seam ∧ (r ≠ seam → MAT_AT dp y r < MAT_AT dp y seam))
      ∧ (r = seam ∨ ∃ dx, -1 ≤ dx ∧ dx < n ∧ 0 ≤ seam + dx ∧ seam + dx < dp.width ∧ r = seam + dx)
      ∧ (∀ dx, -1 ≤ dx → dx < n → 0 ≤ seam + dx → seam + dx < dp.width →
          MAT_AT dp y r ≤ MAT_AT dp y (seam + dx))
      ∧ (r ≠ seam → ∀ dx, -1 ≤ dx → dx < n → 0 ≤ seam + dx → seam + dx < dp.width →
          seam + dx < r → MAT_AT dp y r < MAT_AT dp y (seam + dx)))
    (-1) 2 (fun dx seam_rm =>
      if seam + dx ≥ 0 ∧ seam + dx < dp.width ∧ MAT_AT dp y seam_rm > MAT_AT dp y (seam + dx) then
        seam + dx
      else seam_rm) seam (by norm_num)
    ⟨⟨le_refl _, fun h => absurd rfl h⟩, Or.inl rfl, fun dx h1 h2 => by omega,
      fun h => absurd rfl h⟩
    (by
      intro n r n0 n2 ⟨⟨a1, a2⟩, b, c, d⟩
      by_cases cnd : seam + n ≥ 0 ∧ seam + n < dp.width
          ∧ MAT_AT dp y r > MAT_AT dp y (seam + n)
      · simp only [if_pos cnd]
        have hlt : MAT_AT dp y (seam + n) < MAT_AT dp y seam := lt_of_lt_of_le cnd.2.2 a1
        refine ⟨⟨le_of_lt hlt, fun _ => hlt⟩, Or.inr ⟨n, n0, by omega, cnd.1, cnd.2.1, rfl⟩,
          ?_, ?_⟩
        · intro dx d1 d2 d3 d4
          by_cases e : dx = n
          · rw [e]
          · exact le_trans (le_of_lt cnd.2.2) (c dx d1 (by omega) d3 d4)
        · intro _ dx d1 d2 d3 d4 d5
          exact lt_of_lt_of_le cnd.2.2 (c dx d1 (by omega) d3 d4)
      · simp only [if_neg cnd]
        refine ⟨⟨a1, a2⟩, ?_, ?_, ?_⟩
        · rcases b with b | ⟨dx, d1, d2, d3, d4, d5⟩
          · exact Or.inl b
          · exact Or.inr ⟨dx, d1, by omega, d3, d4, d5⟩
        · intro dx d1 d2 d3 d4
          by_cases e : dx = n
          · subst e
            exact not_lt.mp (fun hlt => cnd ⟨d3, d4, hlt⟩)
          · exact c dx d1 (by omega) d3 d4
        · intro hne dx d1 d2 d3 d4 d5
          by_cases e : dx = n
          · subst e
            rcases b with b | ⟨dx1, e1, e2, e3, e4, e5⟩
            · exact absurd b hne
            · omega
          · exact d hne dx d1 (by omega) d3 d4 d5)
  obtain ⟨⟨a1, a2⟩, b, c, d⟩ := key
  set r := for_loop (-1) 2 (fun dx seam_rm =>
      if seam + dx ≥ 0 ∧ seam + dx < dp.width ∧ MAT_AT dp y seam_rm > MAT_AT dp y (seam + dx) then
        seam + dx
      else seam_rm) seam with hr
  have hcand : is_candidate dp.width seam r := by
    rcases b with b | ⟨dx, d1, d2, d3, d4, d5⟩
    · rw [b]; exact ⟨h0, hW, by simp⟩
    · rw [d5]; refine ⟨d3, d4, ?_⟩
      rw [abs_le]; constructor <;> omega
  have hmin : ∀ j, is_candidate dp.width seam j → MAT_AT dp y r ≤ MAT_AT dp y j := by
    rintro j ⟨j0, jW, jabs⟩
    rw [abs_le] at jabs
    have := c (j - seam) (by omega) (by omega) (by omega) (by omega)
    have e : seam + (j - seam) = j := by ring
    rw [e] at this
    exact this
  refine ⟨hcand, hmin, ?_, ?_⟩
  · intro hprev
    by_contra hne
    have h1 := a2 hne
    have h2 := hprev r hcand
    exact absurd h1 (not_lt.mpr h2)
  · rintro hne j ⟨j0, jW, jabs⟩ jr
    rw [abs_le] at jabs
    have := d hne (j - seam) (by omega) (by omega) (by omega) (by omega)
    have e : seam + (j - seam) = j := by ring
    rw [e] at this
    exact this jr

/-- Consecutive cells of the log lie in consecutive rows, and the upper one is the choice of
the walk from the lower one. -/
theorem seam_log_choices (dp : Mat α) (hW : 1 ≤ dp.width) (k : Nat) :
    List.Chain' (fun a b : Int × Int => b.1 = a.1 + 1 ∧ walk_choice dp a.1 b.2 a.2)
      (seam_log dp k) := by
  induction k with
  | zero => simp [seam_log]
  | succ k ih =>
    rw [seam_log, List.chain'_cons']
    refine ⟨?_, ih⟩
    intro b hb
    rw [seam_log_head] at hb
    simp only [Option.mem_def, Option.some.injEq] at hb
    subst hb
    obtain ⟨c0, cW⟩ := seam_col_range dp hW k
    exact ⟨by dsimp only; ring, seam_step_choice dp _ _ c0 cW⟩

/-- C11: on a cost map with `W >= 1`, the cell `remove_seam` deletes first is in the bottom
row `H - 1`, at the smallest column `i` of `[0, W)` such that `cost[H-1][i]` is the minimum of
the bottom row; when `H >= 2` it is the last cell of the log `remove_seam` returns. -/
theorem remove_seam_bottom (sqrtf : α → α) (dp : Mat α) (img : Img) (lum edges : Mat α)
    (hW : 1 ≤ dp.width) :
    (seam_start dp img lum edges).removed = [(dp.height - 1, seam_scan dp (dp.height - 1))]
      ∧ IsLeast (bottom_minima dp) (seam_scan dp (dp.height - 1))
      ∧ ∀ fuel : Nat, 2 ≤ dp.height → dp.height - 1 ≤ fuel →
          ∃ s, remove_seam sqrtf fuel dp img lum edges = some s
            ∧ s.removed.getLast? = some (dp.height - 1, seam_scan dp (dp.height - 1)) := by
  obtain ⟨a1, a2, a3, a4⟩ := seam_scan_spec dp (dp.height - 1) hW
  refine ⟨rfl, ⟨⟨a1, a2, a3⟩, ?_⟩, ?_⟩
  · rintro i ⟨i0, iW, imin⟩
    by_contra hlt
    have h1 := a4 i i0 (by omega)
    have h2 := imin _ a1 a2
    exact absurd h1 (not_lt.mpr h2)
  · intro fuel hH hf
    obtain ⟨s, e, hlog, _⟩ := remove_seam_log sqrtf fuel dp img lum edges hH hf
    refine ⟨s, e, ?_⟩
    rw [hlog, seam_log_getLast]
    rfl

/-- C11 on the cost map of the specification's scenario. -/
theorem remove_seam_bottom_witness :
    (seam_start demo_cost demo_img demo_zero demo_energy).removed
        = [(demo_cost.height - 1, seam_scan demo_cost (demo_cost.height - 1))]
      ∧ IsLeast (bottom_minima demo_cost) (seam_scan demo_cost (demo_cost.height - 1))
      ∧ ∀ fuel : Nat, 2 ≤ demo_cost.height → demo_cost.height - 1 ≤ fuel →
          ∃ s, remove_seam (fun v : ℚ => v) fuel demo_cost demo_img demo_zero demo_energy = some s
            ∧ s.removed.getLast?
              = some (demo_cost.height - 1, seam_scan demo_cost (demo_cost.height - 1)) :=
  remove_seam_bottom (fun v : ℚ => v) demo_cost demo_img demo_zero demo_energy (by decide)

/-- C12, as amended: at every row `y` that `remove_seam` walks, with `prev` the column
chosen in the row below, the chosen column attains the minimal `cost[y][.]` among the
in-range candidates `prev-1, prev, prev+1`; it is `prev` whenever `prev` attains that minimum,
and otherwise the leftmost candidate that attains it. -/
theorem remove_seam_walk_choice (sqrtf : α → α) (fuel : Nat) (dp : Mat α) (img : Img)
    (lum edges : Mat α) (hH : 2 ≤ dp.height) (hW : 1 ≤ dp.width) (hf : dp.height - 1 ≤ fuel) :
    ∃ s, remove_seam sqrtf fuel dp img lum edges = some s
      ∧ (s.removed.length : Int) = dp.height - 1
      ∧ List.Chain' (fun a b : Int × Int => b.1 = a.1 + 1 ∧ walk_choice dp a.1 b.2 a.2)
          s.removed := by
  obtain ⟨s, e, hlog, _⟩ := remove_seam_log sqrtf fuel dp img lum edges hH hf
  refine ⟨s, e, ?_, ?_⟩
  · rw [hlog, seam_log_length]; push_cast; omega
  · rw [hlog]
    exact seam_log_choices dp hW _

/-- C12 (amended) on the cost map `tie_cost`. -/
theorem remove_seam_walk_choice_witness :
    ∃ s, remove_seam (fun v : ℚ => v) 2 tie_cost tie_img tie_zero tie_energy = some s
      ∧ (s.removed.length : Int) = tie_cost.height - 1
      ∧ List.Chain' (fun a b : Int × Int => b.1 = a.1 + 1 ∧ walk_choice tie_cost a.1 b.2 a.2)
          s.removed :=
  remove_seam_walk_choice (fun v : ℚ => v) 2 tie_cost tie_img tie_zero tie_energy
    (by decide) (by decide) (by decide)

/-- Four cells of `tie_cost`. -/
theorem tie_cost_cells :
    MAT_AT tie_cost 1 0 = 1 ∧ MAT_AT tie_cost 1 1 = 1 ∧ MAT_AT tie_cost 2 0 = 6
      ∧ MAT_AT tie_cost 2 1 = 3 := by
  simp [MAT_AT, tie_cost, grid_of]

/-- The cost map `build_dp` computes for `tie_energy`. -/
theorem tie_cost_built :
    ∃ cost, build_dp tie_energy tie_zero = some cost
      ∧ MAT_AT cost 0 0 = 0 ∧ MAT_AT cost 0 1 = 0 ∧ MAT_AT cost 1 0 = 1 ∧ MAT_AT cost 1 1 = 1
      ∧ MAT_AT cost 2 0 = 6 ∧ MAT_AT cost 2 1 = 3 := by
  simp [build_dp, build_dp_with, MAT_SAME_DIM, tie_energy, tie_zero, grid_of, for_loop, List.range_succ,
    MAT_SET, MAT_AT, min_prev, Function.update_apply, FLT_MAX]
  norm_num

/-- C12 fails as stated: `tie_cost` is the cost map of `tie_energy`; on it `remove_seam`
chooses column 1 in the bottom row and column 1 again in row 1, although column 0 is an
in-range candidate of row 1 that attains the minimal cost: on a tie the walk keeps the
column of the row below, not the leftmost one. -/
theorem walk_keeps_centre_on_tie :
    (∃ cost, build_dp tie_energy tie_zero = some cost
        ∧ ∀ y x : Int, 0 ≤ y → y < 3 → 0 ≤ x → x < 2 → MAT_AT cost y x = MAT_AT tie_cost y x)
      ∧ ∃ s, remove_seam (fun v : ℚ => v) 2 tie_cost tie_img tie_zero tie_energy = some s
        ∧ s.removed = [(1, 1), (2, 1)]
        ∧ is_candidate 2 1 0
        ∧ (∀ j, is_candidate 2 1 j → MAT_AT tie_cost 1 0 ≤ MAT_AT tie_cost 1 j) := by
  obtain ⟨c10, c11, c20, c21⟩ := tie_cost_cells
  refine ⟨?_, ?_⟩
  · obtain ⟨cost, e, b00, b01, b10, b11, b20, b21⟩ := tie_cost_built
    refine ⟨cost, e, ?_⟩
    intro y x y0 y3 x0 x2
    have hy : y = 0 ∨ y = 1 ∨ y = 2 := by omega
    have hx : x = 0 ∨ x = 1 := by omega
    rcases hy with rfl | rfl | rfl <;> rcases hx with rfl | rfl <;>
      (simp only [b00, b01, b10, b11, b20, b21]; simp [MAT_AT, tie_cost, grid_of])
  · obtain ⟨s, e, hlog, _⟩ := remove_seam_log (fun v : ℚ => v) 2 tie_cost tie_img tie_zero
      tie_energy (by decide) (by decide)
    have hh : tie_cost.height = 3 := rfl
    have hw : tie_cost.width = 2 := rfl
    have hk : (tie_cost.height - 2).toNat = 1 := by decide
    obtain ⟨a1, a2, a3, _⟩ := seam_scan_spec tie_cost (tie_cost.height - 1) (by decide)
    have hsub : tie_cost.height - 1 = 2 := by decide
    rw [hsub] at a1 a2 a3
    rw [hw] at a2 a3
    have hb : seam_scan tie_cost 2 = 1 := by
      have := a3 1 (by norm_num) (by norm_num)
      rw [c21] at this
      have hc : seam_scan tie_cost 2 = 0 ∨ seam_scan tie_cost 2 = 1 := by omega
      rcases hc with hc | hc
      · rw [hc, c20] at this; norm_num at this
      · exact hc
    have hstep := seam_step_choice tie_cost 1 1 (by norm_num) (by decide)
    have hs : seam_step tie_cost 1 1 = 1 := by
      apply hstep.2.2.1
      rintro j ⟨j0, jW, _⟩
      rw [hw] at jW
      have hc : j = 0 ∨ j = 1 := by omega
      rcases hc with rfl | rfl <;> simp [c10, c11]
    refine ⟨s, e, ?_, ?_, ?_⟩
    · rw [hlog, hk]
      simp only [seam_log, seam_col, hsub, Nat.cast_zero, zero_add, hb]
      norm_num [hs]
    · exact ⟨le_refl _, by norm_num, by norm_num⟩
    · rintro j ⟨j0, jW, _⟩
      have hc : j = 0 ∨ j = 1 := by omega
      rcases hc with rfl | rfl <;> simp [c10, c11]

/-! ## The scenario of the specification -/

/-- The cost map `build_dp` computes for `demo_energy`, cell by cell. -/
theorem demo_cost_cells :
    ∃ cost, build_dp demo_energy demo_zero = some cost
      ∧ cost.height = 3 ∧ cost.width = 3
      ∧ MAT_AT cost 0 0 = 1 ∧ MAT_AT cost 0 1 = 5 ∧ MAT_AT cost 0 2 = 9
      ∧ MAT_AT cost 1 0 = 3 ∧ MAT_AT cost 1 1 = 2 ∧ MAT_AT cost 1 2 = 13
      ∧ MAT_AT cost 2 0 = 11 ∧ MAT_AT cost 2 1 = 5 ∧ MAT_AT cost 2 2 = 3 := by
  simp [build_dp, build_dp_with, MAT_SAME_DIM, demo_energy, demo_zero, grid_of, for_loop, List.range_succ,
    MAT_SET, MAT_AT, min_prev, Function.update_apply, FLT_MAX]
  norm_num

/-- C13, as amended: for the 3 x 3 energy field `[[1,5,9],[2,1,8],[9,3,1]]`, `build_dp`
produces the cost map `[[1,5,9],[3,2,13],[11,5,3]]`. -/
theorem demo_cost_table :
    ∃ cost, build_dp demo_energy demo_zero = some cost
      ∧ ∀ y x : Int, 0 ≤ y → y < 3 → 0 ≤ x → x < 3 →
          MAT_AT cost y x = MAT_AT demo_cost_true y x := by
  obtain ⟨cost, e, _, _, b00, b01, b02, b10, b11, b12, b20, b21, b22⟩ := demo_cost_cells
  refine ⟨cost, e, ?_⟩
  intro y x y0 y3 x0 x3
  have hy : y = 0 ∨ y = 1 ∨ y = 2 := by omega
  have hx : x = 0 ∨ x = 1 ∨ x = 2 := by omega
  rcases hy with rfl | rfl | rfl <;> rcases hx with rfl | rfl | rfl <;>
    (simp only [b00, b01, b02, b10, b11, b12, b20, b21, b22]
     simp [MAT_AT, demo_cost_true, grid_of])

/-- C13 fails as stated: the cell `(1, 2)` of the cost map of `demo_energy` is
`8 + min(5, 9) = 13`, not the 9 of the specification's table `demo_cost`. -/
theorem demo_cost_differs :
    ∃ cost, build_dp demo_energy demo_zero = some cost
      ∧ MAT_AT cost 1 2 = 13 ∧ MAT_AT demo_cost 1 2 = 9
      ∧ MAT_AT cost 1 2 ≠ MAT_AT demo_cost 1 2 := by
  obtain ⟨cost, e, _, _, _, _, _, _, _, b12, _, _, _⟩ := demo_cost_cells
  have h9 : MAT_AT demo_cost 1 2 = 9 := by simp [MAT_AT, demo_cost, grid_of]
  refine ⟨cost, e, b12, h9, ?_⟩
  rw [b12, h9]
  norm_num

/-- C14 fails on the code: on the cost map of `demo_energy`, `remove_seam` chooses column 2
in the bottom row and column 1 in row 1 and then leaves its loop: it chooses and deletes no
cell in row 0, where the rule of the walk would give column 0. -/
theorem demo_seam_skips_row_zero :
    ∃ cost s, build_dp demo_energy demo_zero = some cost
      ∧ remove_seam (fun v : ℚ => v) 2 cost demo_img demo_zero demo_energy = some s
      ∧ s.removed = [(1, 1), (2, 2)]
      ∧ seam_step cost 0 1 = 0 := by
  obtain ⟨cost, e, ch, cw, b00, b01, b02, b10, b11, b12, b20, b21, b22⟩ := demo_cost_cells
  obtain ⟨s, es, hlog, _⟩ := remove_seam_log (fun v : ℚ => v) 2 cost demo_img demo_zero
    demo_energy (by omega) (by rw [ch]; decide)
  have hsub : cost.height - 1 = 2 := by omega
  have hk : (cost.height - 2).toNat = 1 := by omega
  -- the bottom row
  obtain ⟨a1, a2, a3, _⟩ := seam_scan_spec cost (cost.height - 1) (by omega)
  rw [hsub] at a1 a2 a3
  have hb : seam_scan cost 2 = 2 := by
    have h := a3 2 (by norm_num) (by omega)
    rw [b22] at h
    have hc : seam_scan cost 2 = 0 ∨ seam_scan cost 2 = 1 ∨ seam_scan cost 2 = 2 := by omega
    rcases hc with hc | hc | hc
    · rw [hc, b20] at h; norm_num at h
    · rw [hc, b21] at h; norm_num at h
    · exact hc
  -- row 1
  obtain ⟨⟨c0, cW, cabs⟩, cmin, _, _⟩ := seam_step_choice cost 1 2 (by norm_num) (by omega)
  have h1 : seam_step cost 1 2 = 1 := by
    have h := cmin 1 ⟨by norm_num, by omega, by norm_num⟩
    rw [b11] at h
    rw [abs_le] at cabs
    have hc : seam_step cost 1 2 = 1 ∨ seam_step cost 1 2 = 2 := by omega
    rcases hc with hc | hc
    · exact hc
    · rw [hc, b12] at h; norm_num at h
  -- what the walk would choose in row 0
  obtain ⟨⟨d0, dW, dabs⟩, dmin, _, _⟩ := seam_step_choice cost 0 1 (by norm_num) (by omega)
  have h0 : seam_step cost 0 1 = 0 := by
    have h := dmin 0 ⟨by norm_num, by omega, by norm_num⟩
    rw [b00] at h
    rw [abs_le] at dabs
    have hc : seam_step cost 0 1 = 0 ∨ seam_step cost 0 1 = 1 ∨ seam_step cost 0 1 = 2 := by
      omega
    rcases hc with hc | hc | hc
    · exact hc
    · rw [hc, b01] at h; norm_num at h
    · rw [hc, b02] at h; norm_num at h
  refine ⟨cost, s, e, es, ?_, h0⟩
  rw [hlog, hk]
  simp only [seam_log, seam_col, hsub, Nat.cast_zero, zero_add, hb]
  norm_num [h1]

/-! ## Flat images -/

/-- On a grid whose window holds one value `c`, the luminance a neighbour adds to the sums of
`sobel_filter_at` is `c` times the indicators of its row and of its column. -/
theorem lum_or_zero_flat (lum : Mat α) (c : α)
    (h : ∀ y x, 0 ≤ y → y < lum.height → 0 ≤ x → x < lum.width → MAT_AT lum y x = c)
    (y x : Int) : lum_or_zero lum y x = c * inside lum.height y * inside lum.width x := by
  unfold lum_or_zero inside
  by_cases hy : 0 ≤ y ∧ y < lum.height
  · by_cases hx : 0 ≤ x ∧ x < lum.width
    · rw [if_pos ((MAT_WITHIN_iff lum y x).mpr ⟨hy.1, hx.1, hy.2, hx.2⟩), if_pos hy, if_pos hx,
        h y x hy.1 hy.2 hx.1 hx.2]
      ring
    · rw [if_neg (fun hc => hx (by rw [MAT_WITHIN_iff] at hc; exact ⟨hc.2.1, hc.2.2.2⟩)),
        if_neg hx]
      ring
  · rw [if_neg (fun hc => hy (by rw [MAT_WITHIN_iff] at hc; exact ⟨hc.1, hc.2.2.1⟩)), if_neg hy]
    ring

/-- The sums of `sobel_filter_at` on a grid whose window holds one value `c`. -/
theorem sobel_sums_flat (lum : Mat α) (c : α)
    (h : ∀ y x, 0 ≤ y → y < lum.height → 0 ≤ x → x < lum.width → MAT_AT lum y x = c)
    (y x : Int) :
    sobel_sums lum y x =
      (c * (inside lum.height (y - 1) + 2 * inside lum.height y + inside lum.height (y + 1))
          * (inside lum.width (x - 1) - inside lum.width (x + 1)),
        c * (inside lum.height (y - 1) - inside lum.height (y + 1))
          * (inside lum.width (x - 1) + 2 * inside lum.width x + inside lum.width (x + 1))) := by
  rw [sobel_sums_eq]
  simp only [lum_or_zero_flat lum c h]
  ext
  · dsimp only; ring
  · dsimp only; ring

/-- With exact sums, the Sobel energy of a cell of the window of a grid that holds one value
`c` is 0 exactly when `c = 0` or the cell has both or neither of its horizontal neighbours,
and both or neither of its vertical neighbours, inside the window. -/
theorem sobel_flat_zero_iff (lum : Mat ℝ) (c : ℝ)
    (h : ∀ y x, 0 ≤ y → y < lum.height → 0 ≤ x → x < lum.width → MAT_AT lum y x = c)
    (y x : Int) (y0 : 0 ≤ y) (yH : y < lum.height) (x0 : 0 ≤ x) (xW : x < lum.width) :
    sobel_filter_at Real.sqrt lum y x = 0
      ↔ c = 0 ∨ ((1 ≤ x ↔ x + 1 < lum.width) ∧ (1 ≤ y ↔ y + 1 < lum.height)) := by
  simp only [sobel_filter_at, sobel_sums_flat lum c h]
  have iy : (inside lum.height y : ℝ) = 1 := by unfold inside; rw [if_pos ⟨y0, yH⟩]
  have ix : (inside lum.width x : ℝ) = 1 := by unfold inside; rw [if_pos ⟨x0, xW⟩]
  have iyu : (inside lum.height (y - 1) : ℝ) = if 1 ≤ y then 1 else 0 := by
    unfold inside
    by_cases c1 : 1 ≤ y
    · rw [if_pos c1, if_pos ⟨by omega, by omega⟩]
    · rw [if_neg c1, if_neg (fun hc => c1 (by omega))]
  have iyd : (inside lum.height (y + 1) : ℝ) = if y + 1 < lum.height then 1 else 0 := by
    unfold inside
    by_cases c1 : y + 1 < lum.height
    · rw [if_pos c1, if_pos ⟨by omega, by omega⟩]
    · rw [if_neg c1, if_neg (fun hc => c1 hc.2)]
  have ixl : (inside lum.width (x - 1) : ℝ) = if 1 ≤ x then 1 else 0 := by
    unfold inside
    by_cases c1 : 1 ≤ x
    · rw [if_pos c1, if_pos ⟨by omega, by omega⟩]
    · rw [if_neg c1, if_neg (fun hc => c1 (by omega))]
  have ixr : (inside lum.width (x + 1) : ℝ) = if x + 1 < lum.width then 1 else 0 := by
    unfold inside
    by_cases c1 : x + 1 < lum.width
    · rw [if_pos c1, if_pos ⟨by omega, by omega⟩]
    · rw [if_neg c1, if_neg (fun hc => c1 hc.2)]
  rw [iy, ix, iyu, iyd, ixl, ixr, Real.sqrt_eq_zero (add_nonneg (mul_self_nonneg _) (mul_self_nonneg _)),
    mul_self_add_mul_self_eq_zero]
  by_cases h1 : 1 ≤ y <;> by_cases h2 : y + 1 < lum.height <;> by_cases h3 : 1 ≤ x <;>
    by_cases h4 : x + 1 < lum.width <;> simp [h1, h2, h3, h4] <;> norm_num

/-- The luminance of a pixel is 0 exactly when its red, green and blue channels are 0. -/
theorem pixel_to_lum_eq_zero (p : Pixel) :
    (pixel_to_lum p : α) = 0 ↔ p.red = 0 ∧ p.green = 0 ∧ p.blue = 0 := by
  obtain ⟨r, g, b, a⟩ := p
  have hr0 : (0 : α) ≤ ((r : Nat) : α) := Nat.cast_nonneg _
  have hg0 : (0 : α) ≤ ((g : Nat) : α) := Nat.cast_nonneg _
  have hb0 : (0 : α) ≤ ((b : Nat) : α) := Nat.cast_nonneg _
  have e : (pixel_to_lum ⟨r, g, b, a⟩ : α)
      = (299 * ((r : Nat) : α) + 587 * ((g : Nat) : α) + 114 * ((b : Nat) : α)) / 255000 := by
    simp only [pixel_to_lum]; ring
  rw [e, div_eq_zero_iff]
  constructor
  · intro h
    rcases h with h | h
    · have h1 : ((r : Nat) : α) = 0 := by linarith
      have h2 : ((g : Nat) : α) = 0 := by linarith
      have h3 : ((b : Nat) : α) = 0 := by linarith
      simp only [Pixel.mk.injEq, Nat.cast_eq_zero] at h1 h2 h3 ⊢
      exact ⟨Fin.ext h1, Fin.ext h2, Fin.ext h3⟩
    · norm_num at h
  · rintro ⟨rfl, rfl, rfl⟩
    left; simp

/-- C15, as amended: for an image with `H >= 1`, `W >= 1` whose pixels all have one colour,
the energy map `sobel_filter` computes from `rgb_to_lum` of the image is 0 at every cell
exactly when the colour is black (red, green and blue are 0) or the image has one cell
only; and for a colour that is not black the energy is not 0 at every cell that has
exactly one of the columns `x - 1`, `x + 1`, or exactly one of the rows `y - 1`, `y + 1`,
inside the window. -/
theorem flat_image_energy (img : Img) (p : Pixel) (hH : 1 ≤ img.height) (hW : 1 ≤ img.width)
    (hflat : ∀ y x, 0 ≤ y → y < img.height → 0 ≤ x → x < img.width →
      img.items (x + y * img.width) = p) :
    ∃ g, load Real.sqrt img = some g
      ∧ ((∀ y x, 0 ≤ y → y < img.height → 0 ≤ x → x < img.width → MAT_AT g.edges y x = 0)
          ↔ (p.red = 0 ∧ p.green = 0 ∧ p.blue = 0) ∨ (img.height = 1 ∧ img.width = 1))
      ∧ (¬ (p.red = 0 ∧ p.green = 0 ∧ p.blue = 0) →
          ∀ y x, 0 ≤ y → y < img.height → 0 ≤ x → x < img.width →
            ¬ ((1 ≤ x ↔ x + 1 < img.width) ∧ (1 ≤ y ↔ y + 1 < img.height)) →
            MAT_AT g.edges y x ≠ 0) := by
  obtain ⟨g, e, hg, hi, hlum, hedges⟩ := load_spec Real.sqrt img hH hW
  refine ⟨g, e, ?_⟩
  have hl : ∀ y x, 0 ≤ y → y < g.lum.height → 0 ≤ x → x < g.lum.width →
      MAT_AT g.lum y x = (pixel_to_lum p : ℝ) := by
    intro y x y0 y1 x0 x1
    rw [hg.2.1.1] at y1
    rw [hg.2.1.2.1] at x1
    rw [hlum y x y0 y1 x0 x1, hi]
    simp only [MAT_AT]
    rw [hflat y x y0 y1 x0 x1]
  have key : ∀ y x, 0 ≤ y → y < img.height → 0 ≤ x → x < img.width →
      (MAT_AT g.edges y x = 0
        ↔ (p.red = 0 ∧ p.green = 0 ∧ p.blue = 0)
          ∨ ((1 ≤ x ↔ x + 1 < img.width) ∧ (1 ≤ y ↔ y + 1 < img.height))) := by
    intro y x y0 y1 x0 x1
    rw [hedges y x y0 y1 x0 x1]
    have := sobel_flat_zero_iff g.lum (pixel_to_lum p) hl y x y0 (by rw [hg.2.1.1]; exact y1) x0
      (by rw [hg.2.1.2.1]; exact x1)
    rw [hg.2.1.1, hg.2.1.2.1, pixel_to_lum_eq_zero] at this
    exact this
  refine ⟨⟨?_, ?_⟩, ?_⟩
  · intro h
    by_cases hb : p.red = 0 ∧ p.green = 0 ∧ p.blue = 0
    · exact Or.inl hb
    · right
      have h00 := (key 0 0 (le_refl _) (by omega) (le_refl _) (by omega)).mp
        (h 0 0 (le_refl _) (by omega) (le_refl _) (by omega))
      rcases h00 with h00 | ⟨c1, c2⟩
      · exact absurd h00 hb
      · constructor
        · by_contra hne
          exact absurd (c2.mpr (by omega)) (by norm_num)
        · by_contra hne
          exact absurd (c1.mpr (by omega)) (by norm_num)
  · intro h y x y0 y1 x0 x1
    rw [key y x y0 y1 x0 x1]
    rcases h with h | ⟨h1, h2⟩
    · exact Or.inl h
    · right
      constructor <;> constructor <;> intro <;> omega
  · intro hb y x y0 y1 x0 x1 hc h
    rcases (key y x y0 y1 x0 x1).mp h with h1 | h1
    · exact hb h1
    · exact hc h1

/-- C15 (amended) on the 2 x 2 white image. -/
theorem flat_image_energy_witness :
    ∃ g, load Real.sqrt white_img = some g
      ∧ ((∀ y x, 0 ≤ y → y < white_img.height → 0 ≤ x → x < white_img.width →
            MAT_AT g.edges y x = 0)
          ↔ ((255 : Fin 256) = 0 ∧ (255 : Fin 256) = 0 ∧ (255 : Fin 256) = 0)
            ∨ (white_img.height = 1 ∧ white_img.width = 1))
      ∧ (¬ ((255 : Fin 256) = 0 ∧ (255 : Fin 256) = 0 ∧ (255 : Fin 256) = 0) →
          ∀ y x, 0 ≤ y → y < white_img.height → 0 ≤ x → x < white_img.width →
            ¬ ((1 ≤ x ↔ x + 1 < white_img.width) ∧ (1 ≤ y ↔ y + 1 < white_img.height)) →
            MAT_AT g.edges y x ≠ 0) :=
  flat_image_energy white_img ⟨255, 255, 255, 255⟩ (by decide) (by decide)
    (fun _ _ _ _ _ _ => rfl)

/-- C15 fails as stated: every pixel of the 2 x 2 image `white_img` is white, and the
energy of its corner cell `(0, 0)` is `sqrt 18`, not 0. -/
theorem flat_white_corner_energy :
    (∀ i, white_img.items i = ⟨255, 255, 255, 255⟩)
      ∧ ∃ g, load Real.sqrt white_img = some g ∧ MAT_AT g.edges 0 0 = Real.sqrt 18
        ∧ MAT_AT g.edges 0 0 ≠ 0 := by
  refine ⟨fun _ => rfl, ?_⟩
  obtain ⟨g, e, hg, hi, hlum, hedges⟩ := load_spec Real.sqrt white_img (by decide) (by decide)
  have hh : white_img.height = 2 := rfl
  have hw : white_img.width = 2 := rfl
  rw [hh, hw] at hlum hg hedges
  have hcells : ∀ y x, 0 ≤ y → y < 2 → 0 ≤ x → x < 2 → MAT_AT g.lum y x = 1 := by
    intro y x y0 y1 x0 x1
    rw [hlum y x y0 y1 x0 x1, hi]
    simp only [MAT_AT, white_img, grid_of, List.getD_nil]
    exact white_lum _
  have h18 : MAT_AT g.edges 0 0 = Real.sqrt 18 := by
    rw [hedges 0 0 (by norm_num) (by norm_num) (by norm_num) (by norm_num)]
    exact sobel_ones_wide g.lum hg.2.1.1 hg.2.1.2.1 hcells
  refine ⟨g, e, h18, ?_⟩
  rw [h18]
  intro h
  have hsq : Real.sqrt 18 ^ 2 = 18 := Real.sq_sqrt (by norm_num)
  rw [h] at hsq
  norm_num at hsq

/-- The walk stays in column 0 where a row of the cost map holds zeros only. -/
theorem seam_step_zero (dp : Mat α) (y : Int) (hW : 1 ≤ dp.width)
    (h : ∀ x, 0 ≤ x → x < dp.width → MAT_AT dp y x = 0) : seam_step dp y 0 = 0 := by
  apply (seam_step_choice dp y 0 (le_refl _) (by omega)).2.2.1
  rintro j ⟨j0, jW, _⟩
  rw [h 0 (le_refl _) (by omega), h j j0 jW]

/-- On a cost map whose window holds zeros only the seam is column 0 in every row. -/
theorem seam_col_zero (dp : Mat α) (hW : 1 ≤ dp.width)
    (h : ∀ y x, 0 ≤ y → y < dp.height → 0 ≤ x → x < dp.width → MAT_AT dp y x = 0) (k : Nat)
    (hk : (k : Int) < dp.height) : seam_col dp k = 0 := by
  induction k with
  | zero =>
    apply seam_scan_flat dp _ hW
    intro x x0 xW
    push_cast at hk
    rw [h _ x (by omega) (by omega) x0 xW, h _ 0 (by omega) (by omega) (le_refl _) (by omega)]
  | succ k ih =>
    push_cast at hk
    rw [seam_col, ih (by omega)]
    exact seam_step_zero dp _ hW (fun x x0 xW => h _ x (by omega) (by omega) x0 xW)

/-- On a cost map whose window holds zeros only every cell of the log is in column 0. -/
theorem seam_log_zero (dp : Mat α) (hW : 1 ≤ dp.width)
    (h : ∀ y x, 0 ≤ y → y < dp.height → 0 ≤ x → x < dp.width → MAT_AT dp y x = 0) (k : Nat)
    (hk : (k : Int) < dp.height) : ∀ p ∈ seam_log dp k, p.2 = 0 := by
  induction k with
  | zero =>
    intro p hp
    simp only [seam_log, List.mem_singleton] at hp
    rw [hp]
    exact seam_col_zero dp hW h 0 hk
  | succ k ih =>
    intro p hp
    simp only [seam_log, List.mem_cons] at hp
    rcases hp with hp | hp
    · rw [hp]
      exact seam_col_zero dp hW h (k + 1) hk
    · exact ih (by push_cast at hk; omega) p hp

/-- C16: for an energy map with `H >= 2` and `W >= 1` that is 0 at every cell of the
window, `build_dp` gives a cost map that is 0 at every cell of the window, and `remove_seam`
returns after choosing column 0 in every one of the `H - 1` rows it processes. -/
theorem flat_seam (sqrtf : α → α) (fuel : Nat) (E dp : Mat α) (img : Img) (lum edges : Mat α)
    (hd : MAT_SAME_DIM E dp = true) (hH : 2 ≤ dp.height) (hW : 1 ≤ dp.width)
    (hS : dp.width ≤ dp.stride) (hf : dp.height - 1 ≤ fuel)
    (hE : ∀ y x, 0 ≤ y → y < dp.height → 0 ≤ x → x < dp.width → MAT_AT E y x = 0) :
    ∃ cost s, build_dp E dp = some cost
      ∧ (∀ y x, 0 ≤ y → y < dp.height → 0 ≤ x → x < dp.width → MAT_AT cost y x = 0)
      ∧ remove_seam sqrtf fuel cost img lum edges = some s
      ∧ (s.removed.length : Int) = dp.height - 1
      ∧ ∀ p ∈ s.removed, p.2 = 0 := by
  obtain ⟨cost, e, ch, cw, _, h5, h6⟩ := build_dp_spec E dp hd hS
  have hzero : ∀ y x, 0 ≤ y → y < dp.height → 0 ≤ x → x < dp.width → MAT_AT cost y x = 0 := by
    intro y x y0 yH x0 xW
    obtain ⟨n, rfl⟩ := Int.eq_ofNat_of_zero_le y0
    exact cost_zero E cost dp.width dp.height hE h5 h6 n x yH x0 xW
  obtain ⟨s, es, hlog, _⟩ := remove_seam_log sqrtf fuel cost img lum edges (by omega) (by omega)
  refine ⟨cost, s, e, hzero, es, ?_, ?_⟩
  · rw [hlog, seam_log_length, ch]; push_cast; omega
  · rw [hlog]
    apply seam_log_zero cost (by omega) (by rw [ch, cw]; exact hzero)
    omega

/-- C16 on a 3 x 3 grid of zeros. -/
theorem flat_seam_witness :
    ∃ cost s, build_dp demo_zero demo_zero = some cost
      ∧ (∀ y x, 0 ≤ y → y < demo_zero.height → 0 ≤ x → x < demo_zero.width →
          MAT_AT cost y x = 0)
      ∧ remove_seam (fun v : ℚ => v) 2 cost demo_img demo_zero demo_zero = some s
      ∧ (s.removed.length : Int) = demo_zero.height - 1
      ∧ ∀ p ∈ s.removed, p.2 = 0 :=
  flat_seam (fun v : ℚ => v) 2 demo_zero demo_zero demo_img demo_zero demo_zero rfl
    (by decide) (by decide) (by decide) (by decide) (fun _ _ _ _ _ _ => rfl)

/-! ## The shape of the grids -/

/-- A property every iteration keeps holds after a loop. -/
theorem for_loop_preserves {σ : Type} (P : σ → Prop) (lo hi : Int) (body : Int → σ → σ) (s : σ)
    (h0 : P s) (hstep : ∀ i s, P s → P (body i s)) : P (for_loop lo hi body s) := by
  by_cases hle : lo ≤ hi
  · exact for_loop_induction (fun _ s => P s) lo hi body s hle h0
      (fun i s _ _ h => hstep i s h)
  · rw [for_loop_nil _ _ _ _ (by omega)]
    exact h0

/-- The cost map `build_dp` returns has the shape of the grid it was given. -/
theorem build_dp_shape (E dp cost : Mat α) (h : build_dp E dp = some cost) :
    same_shape cost dp := by
  unfold build_dp build_dp_with at h
  split at h
  · simp only [Option.some.injEq] at h
    rw [← h]
    apply for_loop_preserves (fun m : Mat α => same_shape m dp)
    · apply for_loop_preserves (fun m : Mat α => same_shape m dp)
      · exact ⟨rfl, rfl, rfl⟩
      · intro i s hs; exact hs
    · intro y s hs
      apply for_loop_preserves (fun m : Mat α => same_shape m dp)
      · exact hs
      · intro i s hs; exact hs
  · exact absurd h (by simp)

/-- A property the body of the loop `while (--y)` keeps holds when the loop has left. -/
theorem seam_walk_some_inv (sqrtf : α → α) (dp : Mat α) (I : Seamed α → Prop)
    (hstep : ∀ y s, I s → I (seam_body sqrtf dp y s)) (fuel : Nat) :
    ∀ (y : Int) (s s1 : Seamed α), I s → seam_walk sqrtf dp fuel y s = some s1 → I s1 := by
  induction fuel with
  | zero => intro y s s1 _ h; exact absurd h (by simp [seam_walk])
  | succ f ih =>
    intro y s s1 hI h
    simp only [seam_walk] at h
    split at h
    · simp only [Option.some.injEq] at h
      rw [← h]; exact hI
    · exact ih _ _ _ (hstep _ _ hI) h

/-- The grids `remove_seam` returns have the shapes of the grids it was given. -/
theorem remove_seam_shape (sqrtf : α → α) (fuel : Nat) (dp : Mat α) (img : Img)
    (lum edges : Mat α) (s : Seamed α) (h : remove_seam sqrtf fuel dp img lum edges = some s) :
    same_shape s.img img ∧ same_shape s.lum lum ∧ same_shape s.edges edges := by
  simp only [remove_seam] at h
  split at h
  · exact absurd h (by simp)
  · rename_i s1 hw
    simp only [Option.some.injEq] at h
    have key := seam_walk_some_inv sqrtf dp
      (fun s => same_shape s.img img ∧ same_shape s.lum lum ∧ same_shape s.edges edges)
      (by
        intro y s ⟨a, b, c⟩
        obtain ⟨p1, p2, p3, _, _⟩ := patch_row_spec sqrtf
          (rm_cell s y (seam_step dp y s.seam)).lum (rm_cell s y (seam_step dp y s.seam)).edges
          (y + 1) s.seam
        exact ⟨a, b, ⟨p1.trans c.1, p2.trans c.2.1, p3.trans c.2.2⟩⟩)
      fuel _ _ s1 ⟨⟨rfl, rfl, rfl⟩, ⟨rfl, rfl, rfl⟩, ⟨rfl, rfl, rfl⟩⟩ hw
    obtain ⟨a, b, c⟩ := key
    obtain ⟨p1, p2, p3, _, _⟩ := patch_row_spec sqrtf s1.lum s1.edges 0 s1.seam
    rw [← h]
    exact ⟨a, b, ⟨p1.trans c.1, p2.trans c.2.1, p3.trans c.2.2⟩⟩

/-- An iteration of the loop of `main` that returns keeps the height and the stride of the
four grids and takes 1 off their width. -/
theorem carve_step_shape (sqrtf : α → α) (fuel : Nat) (g g1 : Grids α) (H W S : Int)
    (hg : g.shaped H W S) (h : carve_step sqrtf fuel g = some g1) : g1.shaped H (W - 1) S := by
  simp only [carve_step] at h
  split at h
  · exact absurd h (by simp)
  · rename_i dp hdp
    split at h
    · exact absurd h (by simp)
    · rename_i s hs
      simp only [Option.some.injEq] at h
      obtain ⟨d1, d2, d3⟩ := build_dp_shape _ _ _ hdp
      obtain ⟨a, b, c⟩ := remove_seam_shape sqrtf fuel dp _ _ _ s hs
      obtain ⟨hi, hl, he, hd⟩ := hg
      rw [← h]
      exact ⟨⟨a.1.trans hi.1, by dsimp only; rw [a.2.1, hi.2.1], a.2.2.trans hi.2.2⟩,
        ⟨b.1.trans hl.1, by dsimp only; rw [b.2.1, hl.2.1], b.2.2.trans hl.2.2⟩,
        ⟨c.1.trans he.1, by dsimp only; rw [c.2.1, he.2.1], c.2.2.trans he.2.2⟩,
        ⟨d1.trans hd.1, by dsimp only; rw [d2, hd.2.1], d3.trans hd.2.2⟩⟩

/-- The grids `load` returns have the dimensions of the image and its width as stride. -/
theorem load_shape (sqrtf : α → α) (img : Img) (g : Grids α) (h : load sqrtf img = some g) :
    g.shaped img.height img.width img.width := by
  by_cases hc : img.width > 0 ∧ img.height > 0
  · obtain ⟨g0, e, hg, _⟩ := load_spec sqrtf img (by omega) (by omega)
    rw [e] at h
    simp only [Option.some.injEq] at h
    rw [← h]; exact hg
  · simp [load, mat_alloc, hc] at h

/-- C17: the four grids `main` sets up have the height and width of the image and its
width as stride; every iteration of the loop that returns leaves the four grids with one
common height and one common logical width, that width exactly 1 less than before, and the
height and stride unchanged; with `H >= 2` and `1 <= W <= stride` the iteration does return,
so that after `n <= W` iterations the grids have the initial height and stride and the
width `W - n`. -/
theorem grids_shape_invariant (sqrtf : α → α) :
    (∀ (img : Img) (g : Grids α), load sqrtf img = some g →
        g.shaped img.height img.width img.width)
      ∧ (∀ (fuel : Nat) (g g1 : Grids α) (H W S : Int), g.shaped H W S →
          carve_step sqrtf fuel g = some g1 → g1.shaped H (W - 1) S)
      ∧ (∀ (fuel : Nat) (g : Grids α) (H W S : Int), g.shaped H W S → 2 ≤ H → 1 ≤ W → W ≤ S →
          H - 1 ≤ fuel → ∃ g1, carve_step sqrtf fuel g = some g1 ∧ g1.shaped H (W - 1) S)
      ∧ (∀ (img : Img) (n fuel : Nat), 2 ≤ img.height → 1 ≤ img.width → (n : Int) ≤ img.width →
          img.height - 1 ≤ fuel →
          ∃ g0 g, load sqrtf img = some g0 ∧ carve sqrtf fuel n g0 = some g
            ∧ g.shaped img.height (img.width - n) img.width) := by
  refine ⟨load_shape sqrtf, carve_step_shape sqrtf, ?_, ?_⟩
  · intro fuel g H W S hg hH hW hS hf
    obtain ⟨dp, s, _, _, e, _, _, _⟩ := carve_step_spec sqrtf (fun _ => True) (fun _ => True)
      (fun _ => True) (fun _ _ _ => trivial) fuel g H W S hg hH hW hS hf (fun _ _ _ => trivial)
    exact ⟨_, e, carve_step_shape sqrtf fuel g _ H W S hg e⟩
  · intro img n fuel hH hW hn hf
    obtain ⟨g0, e0, hg, _⟩ := load_spec sqrtf img (by omega) hW
    obtain ⟨g, e1, hs, _⟩ := carve_spec sqrtf (fun _ => True) (fun _ => True) (fun _ => True)
      (fun _ _ _ => trivial) fuel n g0 img.height img.width img.width hg (Or.inr hH) hn
      (le_refl _) (by omega) hf (fun _ _ _ => trivial)
    exact ⟨g0, g, e0, e1, hs⟩

/-- C17 on the 2 x 2 white image and one iteration. -/
theorem grids_shape_invariant_witness :
    ∃ g0 g, load Real.sqrt white_img = some g0 ∧ carve Real.sqrt 1 1 g0 = some g
      ∧ g.shaped white_img.height (white_img.width - (1 : Nat)) white_img.width :=
  (grids_shape_invariant Real.sqrt).2.2.2 white_img 1 1 (by decide) (by decide) (by decide)
    (by decide)

/-! ## Luminance and pixels -/

/-- The deletion of the same cell from the pixels and from the luminance keeps them
consistent over the window. -/
theorem rm_cell_matches (s : Seamed α) (H W S : Int) (y0 col : Int)
    (hi : s.img.width = W ∧ s.img.stride = S) (hl : s.lum.width = W ∧ s.lum.stride = S)
    (hy0 : 0 ≤ y0) (hyH : y0 < H) (hc : 0 ≤ col)
    (h : lum_matches s.img s.lum H W) :
    lum_matches (rm_cell s y0 col).img (rm_cell s y0 col).lum H W := by
  intro y x y1 y2 x1 x2
  simp only [MAT_AT, rm_cell, img_rm_col_at_row, mat_rm_col_at_row, memmove, hi.1, hi.2, hl.1,
    hl.2]
  by_cases c : 0 + y0 * S + col ≤ x + y * S ∧ x + y * S < 0 + y0 * S + col + (W - col - 1)
  · rw [if_pos c, if_pos c]
    have e : 0 + y0 * S + col + 1 + (x + y * S - (0 + y0 * S + col))
        = (x + y * S + 1 - y0 * S) + y0 * S := by ring
    rw [e]
    have := h y0 (x + y * S + 1 - y0 * S) hy0 hyH (by omega) (by omega)
    simp only [MAT_AT, hi.2, hl.2] at this
    exact this
  · rw [if_neg c, if_neg c]
    have := h y x y1 y2 x1 x2
    simp only [MAT_AT, hi.2, hl.2] at this
    exact this

/-- On grids of one shape with `H >= 2` and `1 <= W <= S`, `remove_seam` returns and keeps
the luminance consistent with the pixels over the window. -/
theorem remove_seam_matches (sqrtf : α → α) (fuel : Nat) (dp : Mat α) (img : Img)
    (lum edges : Mat α) (H W S : Int) (hdp : dp.height = H ∧ dp.width = W)
    (himg : img.height = H ∧ img.width = W ∧ img.stride = S)
    (hlum : lum.height = H ∧ lum.width = W ∧ lum.stride = S)
    (hedges : edges.height = H ∧ edges.width = W ∧ edges.stride = S)
    (hH : 2 ≤ H) (hW : 1 ≤ W) (hS : W ≤ S) (hf : H - 1 ≤ fuel)
    (h : lum_matches img lum H W) :
    ∃ s, remove_seam sqrtf fuel dp img lum edges = some s ∧ lum_matches s.img s.lum H W := by
  obtain ⟨hd1, hd2⟩ := hdp
  have hscan := seam_scan_spec dp (dp.height - 1) (by omega)
  have hT : ∀ (l : Mat α) (r c : Int), (fun _ : α => True) (sobel_filter_at sqrtf l r c) :=
    fun _ _ _ => trivial
  have b0 : seam_inv (fun _ => True) (fun _ => True) (fun _ : α => True) img lum H W S
      (seam_start dp img lum edges) := by
    unfold seam_start
    apply rm_cell_inv _ _ _ img lum H W S _ _ _ hS (by omega) (by omega) (by omega) hscan.1
    exact ⟨himg, hlum, hedges, ⟨hscan.1, by rw [← hd2]; exact hscan.2.1⟩,
      fun h => h, fun h => h, fun _ _ _ => trivial, fun _ _ => rfl, fun _ _ => rfl⟩
  have m0 : lum_matches (seam_start dp img lum edges).img (seam_start dp img lum edges).lum
      H W := by
    unfold seam_start
    exact rm_cell_matches _ H W S _ _ ⟨himg.2.1, himg.2.2⟩ ⟨hlum.2.1, hlum.2.2⟩ (by omega)
      (by omega) hscan.1 h
  obtain ⟨s1, ⟨_, hm⟩, e⟩ := remove_seam_inv sqrtf fuel dp img lum edges
    (fun _ s => seam_inv (fun _ => True) (fun _ => True) (fun _ : α => True) img lum H W S s
      ∧ lum_matches s.img s.lum H W) (by omega) (by omega) ⟨b0, m0⟩
    (by
      intro y s y1 y2 ⟨hs, hm⟩
      have hstep := seam_step_spec dp y s.seam
      have hr := hstep.2.1 hs.2.2.2.1.1 (by rw [hd2]; exact hs.2.2.2.1.2)
      have h1 := rm_cell_inv (fun _ => True) (fun _ => True) (fun _ : α => True) img lum H W S
        s y (seam_step dp y s.seam) hS (by omega) y1 (by omega) hr.1 hs
      have h2 := rm_cell_matches s H W S y (seam_step dp y s.seam)
        ⟨hs.1.2.1, hs.1.2.2⟩ ⟨hs.2.1.2.1, hs.2.1.2.2⟩ (by omega) (by omega) hr.1 hm
      obtain ⟨a, b, c, _, hi, hl, he1, fi, fl⟩ := h1
      obtain ⟨p1, p2, p3, _, _⟩ := patch_row_spec sqrtf
        (rm_cell s y (seam_step dp y s.seam)).lum (rm_cell s y (seam_step dp y s.seam)).edges
        (y + 1) s.seam
      exact ⟨⟨a, b, ⟨p1.trans c.1, p2.trans c.2.1, p3.trans c.2.2⟩,
        ⟨hr.1, by rw [← hd2]; exact hr.2⟩, hi, hl, fun _ _ _ => trivial, fi, fl⟩, h2⟩)
  exact ⟨_, e, hm⟩

/-- C18: if `lum[y][x] = pixel_to_lum(img[y][x])` at every cell of the logical window
before an iteration (grids of one shape, `H >= 2`, `1 <= W <= stride`), then `build_dp`,
`remove_seam` and the width decrement return grids in which the same equation holds at every
cell of the new window, of width `W - 1`, in every row, row 0 included. -/
theorem lum_stays_consistent (sqrtf : α → α) (fuel : Nat) (g : Grids α) (H W S : Int)
    (hg : g.shaped H W S) (hH : 2 ≤ H) (hW : 1 ≤ W) (hS : W ≤ S) (hf : H - 1 ≤ fuel)
    (h : lum_matches g.img g.lum H W) :
    ∃ g1, carve_step sqrtf fuel g = some g1 ∧ g1.img.width = W - 1 ∧ g1.lum.width = W - 1
      ∧ lum_matches g1.img g1.lum H (W - 1) := by
  obtain ⟨dp, s, e1, e2, e3, hdp, hinv, _⟩ := carve_step_spec sqrtf (fun _ => True)
    (fun _ => True) (fun _ => True) (fun _ _ _ => trivial) fuel g H W S hg hH hW hS hf
    (fun _ _ _ => trivial)
  obtain ⟨s2, e4, hm⟩ := remove_seam_matches sqrtf fuel dp g.img g.lum g.edges H W S
    ⟨hdp.1, hdp.2.1⟩ hg.1 hg.2.1 hg.2.2.1 hH hW hS hf h
  rw [e2] at e4
  simp only [Option.some.injEq] at e4
  subst e4
  refine ⟨_, e3, ?_, ?_, ?_⟩
  · simp only [narrowed]; rw [hinv.1.2.1]
  · simp only [narrowed]; rw [hinv.2.1.2.1]
  · intro y x y0 y1 x0 x1
    exact hm y x y0 y1 x0 (by omega)

/-- C18 on the 2 x 2 white image with its luminance. -/
theorem lum_stays_consistent_witness :
    ∃ g1, carve_step Real.sqrt 1 white_grids = some g1 ∧ g1.img.width = 2 - 1
      ∧ g1.lum.width = 2 - 1 ∧ lum_matches g1.img g1.lum 2 (2 - 1) :=
  lum_stays_consistent Real.sqrt 1 white_grids 2 2 2
    ⟨⟨rfl, rfl, rfl⟩, ⟨rfl, rfl, rfl⟩, ⟨rfl, rfl, rfl⟩, ⟨rfl, rfl, rfl⟩⟩
    (by decide) (by decide) (by decide) (by decide)
    (fun _ _ _ _ _ _ => (white_lum 255).symm)

/-- C19: the loop of `main` with seam count 0 returns the grids it was given; the pixel
grid it returns has the width, height, stride and pixels of the input. -/
theorem carve_zero (sqrtf : α → α) (fuel : Nat) (g : Grids α) :
    carve sqrtf fuel 0 g = some g
      ∧ ∀ g1, carve sqrtf fuel 0 g = some g1 →
          g1.img.height = g.img.height ∧ g1.img.width = g.img.width
            ∧ g1.img.stride = g.img.stride ∧ ∀ y x, MAT_AT g1.img y x = MAT_AT g.img y x := by
  refine ⟨rfl, ?_⟩
  intro g1 h
  simp only [carve, Option.some.injEq] at h
  rw [← h]
  exact ⟨rfl, rfl, rfl, fun _ _ => rfl⟩

/-! ## The border policy -/

/-- The sums `sobel_filter_at` accumulates, with the neighbours outside the window left out,
are the sums over all 9 neighbours of the grid extended by zeros. -/
theorem sobel_sums_padded (lum : Mat α) (row col : Int) :
    sobel_sums lum row col = sobel_padded_sums lum row col := by
  rw [sobel_sums_eq]
  unfold sobel_padded_sums
  have k00 : krnl (-1 + 1) (-1 + 1) = 1 := rfl
  have k01 : krnl (-1 + 1) (0 + 1) = 0 := rfl
  have k02 : krnl (-1 + 1) (1 + 1) = -1 := rfl
  have k10 : krnl (0 + 1) (-1 + 1) = 2 := rfl
  have k11 : krnl (0 + 1) (0 + 1) = 0 := rfl
  have k12 : krnl (0 + 1) (1 + 1) = -2 := rfl
  have k20 : krnl (1 + 1) (-1 + 1) = 1 := rfl
  have k21 : krnl (1 + 1) (0 + 1) = 0 := rfl
  have k22 : krnl (1 + 1) (1 + 1) = -1 := rfl
  simp only [List.map_cons, List.map_nil, List.sum_cons, List.sum_nil, k00, k01, k02, k10, k11,
    k12, k20, k21, k22]
  have e1 : row + -1 = row - 1 := by ring
  have f1 : col + -1 = col - 1 := by ring
  simp only [e1, f1, add_zero]
  ext
  · push_cast; ring
  · push_cast; ring

/-- C20, as amended: for every luminance grid and every cell, border cells included,
`sobel_filter_at` (which skips the neighbours that fail `MAT_WITHIN`) returns the Sobel
magnitude computed with the same kernels on the grid extended by zeros outside its bounds:
omission and zero padding give the same value. -/
theorem omission_is_zero_padding (sqrtf : α → α) (lum : Mat α) (row col : Int) :
    sobel_filter_at sqrtf lum row col = sobel_zero_padded sqrtf lum row col := by
  simp only [sobel_filter_at, sobel_zero_padded, sobel_sums_padded]

/-- C20 fails as stated: there is no luminance grid and no cell at which `sobel_filter_at`
differs from the Sobel magnitude on the zero-extended grid. -/
theorem omission_never_differs :
    ¬ ∃ (lum : Mat ℝ) (row col : Int),
        sobel_filter_at Real.sqrt lum row col ≠ sobel_zero_padded Real.sqrt lum row col := by
  rintro ⟨lum, row, col, h⟩
  apply h
  simp only [sobel_filter_at, sobel_zero_padded, sobel_sums_padded]

/-! ## The deletion of a cell -/

/-- The `memmove` of a row compaction, cell by cell: the cells before the deleted column
stay, those from it up to column `W - 2` take the content of their right neighbour, those
from column `W - 1` on stay, and so does every cell of another row when the column is not
negative and the width is at most the stride. -/
theorem memmove_cell (items : Int → β) (S W r c : Int) :
    (∀ x, x < c → memmove items (0 + r * S + c) (0 + r * S + c + 1) (W - c - 1) (x + r * S)
        = items (x + r * S))
    ∧ (∀ x, c ≤ x → x < W - 1 →
        memmove items (0 + r * S + c) (0 + r * S + c + 1) (W - c - 1) (x + r * S)
          = items (x + 1 + r * S))
    ∧ (∀ x, W - 1 ≤ x →
        memmove items (0 + r * S + c) (0 + r * S + c + 1) (W - c - 1) (x + r * S)
          = items (x + r * S))
    ∧ (0 ≤ c → W ≤ S → ∀ r1 x, r1 ≠ r → 0 ≤ x → x < S →
        memmove items (0 + r * S + c) (0 + r * S + c + 1) (W - c - 1) (x + r1 * S)
          = items (x + r1 * S)) := by
  refine ⟨?_, ?_, ?_, ?_⟩
  · intro x hx
    unfold memmove
    rw [if_neg (by omega)]
  · intro x h1 h2
    unfold memmove
    rw [if_pos (by omega)]
    congr 1
    omega
  · intro x hx
    unfold memmove
    rw [if_neg (by omega)]
  · intro hc hS r1 x hr h1 h2
    unfold memmove
    rw [if_neg]
    rintro ⟨a1, a2⟩
    have := cell_inj S x r1 (x + r1 * S - r * S) r h1 h2 (by omega) (by omega) (by ring)
    exact hr this.2

/-- C24: deleting the cell of column `c` (with `0 <= c < W`, on a grid whose logical width
is at most its stride) from row `r` with `mat_rm_col_at_row`, and likewise with
`img_rm_col_at_row`, keeps the shape of the grid, leaves the cells `x < c` of row `r` as
they were, gives every cell `c <= x < W - 1` of row `r` the old content of the cell
`x + 1`, leaves the cell `W - 1` and all cells beyond it as they were, and leaves every
cell of every other row as it was. -/
theorem rm_col_at_row_frame (mat : Mat α) (img : Img) (r c : Int)
    (hc : 0 ≤ c) (hm : c < mat.width ∧ mat.width ≤ mat.stride)
    (hi : c < img.width ∧ img.width ≤ img.stride) :
    (same_shape (mat_rm_col_at_row mat r c) mat
      ∧ (∀ x, x < c → MAT_AT (mat_rm_col_at_row mat r c) r x = MAT_AT mat r x)
      ∧ (∀ x, c ≤ x → x < mat.width - 1 →
          MAT_AT (mat_rm_col_at_row mat r c) r x = MAT_AT mat r (x + 1))
      ∧ (∀ x, mat.width - 1 ≤ x → MAT_AT (mat_rm_col_at_row mat r c) r x = MAT_AT mat r x)
      ∧ (∀ r1 x, r1 ≠ r → 0 ≤ x → x < mat.stride →
          MAT_AT (mat_rm_col_at_row mat r c) r1 x = MAT_AT mat r1 x))
    ∧ (same_shape (img_rm_col_at_row img r c) img
      ∧ (∀ x, x < c → MAT_AT (img_rm_col_at_row img r c) r x = MAT_AT img r x)
      ∧ (∀ x, c ≤ x → x < img.width - 1 →
          MAT_AT (img_rm_col_at_row img r c) r x = MAT_AT img r (x + 1))
      ∧ (∀ x, img.width - 1 ≤ x → MAT_AT (img_rm_col_at_row img r c) r x = MAT_AT img r x)
      ∧ (∀ r1 x, r1 ≠ r → 0 ≤ x → x < img.stride →
          MAT_AT (img_rm_col_at_row img r c) r1 x = MAT_AT img r1 x)) := by
  obtain ⟨a1, a2, a3, a4⟩ := memmove_cell mat.items mat.stride mat.width r c
  obtain ⟨b1, b2, b3, b4⟩ := memmove_cell img.items img.stride img.width r c
  exact ⟨⟨⟨rfl, rfl, rfl⟩, a1, a2, a3, a4 hc hm.2⟩, ⟨⟨rfl, rfl, rfl⟩, b1, b2, b3, b4 hc hi.2⟩⟩

/-- C24 on the energy grid of the specification's scenario and on `alpha_img`: the cell
`(1, 0)` is deleted. -/
theorem rm_col_at_row_frame_witness :
    MAT_AT (mat_rm_col_at_row (demo_energy : Mat ℚ) 1 0) 1 0 = MAT_AT (demo_energy : Mat ℚ) 1 1
    ∧ MAT_AT (img_rm_col_at_row alpha_img 1 0) 1 1 = MAT_AT alpha_img 1 2 :=
  ⟨(rm_col_at_row_frame (demo_energy : Mat ℚ) alpha_img 1 0 (by decide)
      ⟨by decide, by decide⟩ ⟨by decide, by decide⟩).1.2.2.1 0 (by decide) (by decide),
   (rm_col_at_row_frame (demo_energy : Mat ℚ) alpha_img 1 0 (by decide)
      ⟨by decide, by decide⟩ ⟨by decide, by decide⟩).2.2.2.1 1 (by decide) (by decide)⟩

/-! ## Rows as sequences of pixels -/

/-- The start of the loop of `remove_seam` satisfies the invariant `seam_inv`. -/
theorem seam_start_inv (Pi : Pixel → Prop) (Pl Pe : α → Prop)
    (dp : Mat α) (img : Img) (lum edges : Mat α) (H W S : Int)
    (hdp : dp.height = H ∧ dp.width = W)
    (himg : img.height = H ∧ img.width = W ∧ img.stride = S)
    (hlum : lum.height = H ∧ lum.width = W ∧ lum.stride = S)
    (hedges : edges.height = H ∧ edges.width = W ∧ edges.stride = S)
    (hH : 2 ≤ H) (hW : 1 ≤ W) (hS : W ≤ S)
    (he : ∀ i, 0 ≤ i → i < H * S → Pe (edges.items i)) :
    seam_inv Pi Pl Pe img lum H W S (seam_start dp img lum edges) := by
  obtain ⟨hd1, hd2⟩ := hdp
  have hscan := seam_scan_spec dp (dp.height - 1) (by omega)
  unfold seam_start
  apply rm_cell_inv Pi Pl Pe img lum H W S _ _ _ hS (by omega) (by omega) (by omega) hscan.1
  exact ⟨himg, hlum, hedges, ⟨hscan.1, by rw [← hd2]; exact hscan.2.1⟩,
    fun h => h, fun h => h, he, fun _ _ => rfl, fun _ _ => rfl⟩

/-- The body of the loop of `remove_seam` at a row `1 <= y <= H - 2` keeps the invariant
`seam_inv`. -/
theorem seam_body_inv (sqrtf : α → α) (Pi : Pixel → Prop) (Pl Pe : α → Prop)
    (hPe : ∀ lum row col, Pe (sobel_filter_at sqrtf lum row col))
    (dp : Mat α) (img : Img) (lum : Mat α) (H W S : Int) (hd2 : dp.width = W)
    (hW : 1 ≤ W) (hS : W ≤ S) (y : Int) (s : Seamed α) (y1 : 1 ≤ y) (y2 : y + 1 ≤ H)
    (hs : seam_inv Pi Pl Pe img lum H W S s) :
    seam_inv Pi Pl Pe img lum H W S (seam_body sqrtf dp y s) := by
  have hstep := seam_step_spec dp y s.seam
  have hr := hstep.2.1 hs.2.2.2.1.1 (by rw [hd2]; exact hs.2.2.2.1.2)
  have h1 := rm_cell_inv Pi Pl Pe img lum H W S s y (seam_step dp y s.seam) hS (by omega)
    y1 y2 hr.1 hs
  obtain ⟨a, b, c, _, hi, hl, he1, fi, fl⟩ := h1
  obtain ⟨p1, p2, p3, _, _⟩ := patch_row_spec sqrtf (rm_cell s y (seam_step dp y s.seam)).lum
    (rm_cell s y (seam_step dp y s.seam)).edges (y + 1) s.seam
  refine ⟨a, b, ⟨p1.trans c.1, p2.trans c.2.1, p3.trans c.2.2⟩, ⟨hr.1, by rw [← hd2]; exact hr.2⟩,
    hi, hl, ?_, fi, fl⟩
  intro i i0 i1
  exact patch_row_pred sqrtf Pe hPe _ _ _ _ i (he1 i i0 i1)

/-- Rows that agree on the columns `0 .. W - 1` have the same cells. -/
theorem row_cells_congr {γ : Type} (m m1 : Mat γ) (y W : Int)
    (h : ∀ x, 0 ≤ x → x < W → MAT_AT m1 y x = MAT_AT m y x) :
    row_cells m1 y W = row_cells m y W := by
  unfold row_cells
  apply List.map_congr_left
  intro x hx
  rw [List.mem_range] at hx
  exact h x (by omega) (by omega)

/-- A row of which the cell of column `c` was deleted, the cells after it moved one column
to the left, is the old row with one element erased. -/
theorem row_cells_erase {γ : Type} (m m1 : Mat γ) (y W c : Int) (hc : 0 ≤ c) (hcW : c < W)
    (h1 : ∀ x, 0 ≤ x → x < c → MAT_AT m1 y x = MAT_AT m y x)
    (h2 : ∀ x, c ≤ x → x < W - 1 → MAT_AT m1 y x = MAT_AT m y (x + 1)) :
    row_cells m1 y (W - 1) = (row_cells m y W).eraseIdx c.toNat := by
  apply List.ext_getElem
  · rw [List.length_eraseIdx]
    simp only [row_cells, List.length_map, List.length_range]
    rw [if_pos (by omega)]
    omega
  · intro n a1 a2
    have hn : (n : Int) < W - 1 := by
      simp only [row_cells, List.length_map, List.length_range] at a1
      omega
    rw [List.getElem_eraseIdx]
    simp only [row_cells, List.getElem_map, List.getElem_range]
    split
    · rw [h1 n (by omega) (by omega)]
    · rw [h2 n (by omega) hn]
      push_cast
      rfl

/-- The effect of `remove_seam` on the rows of the picture, for `H >= 2` and `1 <= W <= S`:
the first `W - 1` cells of every row are a subsequence of the first `W` cells the row had. -/
theorem remove_seam_rows (sqrtf : α → α) (fuel : Nat) (dp : Mat α) (img : Img)
    (lum edges : Mat α) (H W S : Int)
    (hdp : dp.height = H ∧ dp.width = W)
    (himg : img.height = H ∧ img.width = W ∧ img.stride = S)
    (hlum : lum.height = H ∧ lum.width = W ∧ lum.stride = S)
    (hedges : edges.height = H ∧ edges.width = W ∧ edges.stride = S)
    (hH : 2 ≤ H) (hW : 1 ≤ W) (hS : W ≤ S) (hf : H - 1 ≤ fuel) :
    ∃ s, remove_seam sqrtf fuel dp img lum edges = some s
      ∧ ∀ r, 0 ≤ r → r < H → List.Sublist (row_cells s.img r (W - 1)) (row_cells img r W) := by
  have hT : ∀ lum row col, (fun _ : α => True) (sobel_filter_at sqrtf lum row col) :=
    fun _ _ _ => trivial
  -- the effect of one deletion on the rows
  have hrm : ∀ (y : Int) (s : Seamed α) (col : Int), 1 ≤ y → y < H → 0 ≤ col → col < W →
      seam_inv (fun _ => True) (fun _ => True) (fun _ => True) img lum H W S s →
      (∀ r, 0 ≤ r → r < H →
        (y + 1 ≤ r → List.Sublist (row_cells s.img r (W - 1)) (row_cells img r W))
        ∧ (r < y + 1 → ∀ x, 0 ≤ x → x < W → MAT_AT s.img r x = MAT_AT img r x)) →
      ∀ r, 0 ≤ r → r < H →
        (y ≤ r → List.Sublist (row_cells (img_rm_col_at_row s.img y col) r (W - 1))
          (row_cells img r W))
        ∧ (r < y → ∀ x, 0 ≤ x → x < W →
          MAT_AT (img_rm_col_at_row s.img y col) r x = MAT_AT img r x) := by
    intro y s col y1 y2 c0 c1 hs hrows r r0 r1
    obtain ⟨m1, m2, m3, m4⟩ := memmove_cell s.img.items S W y col
    have e1 : ∀ x, MAT_AT (img_rm_col_at_row s.img y col) y x
        = memmove s.img.items (0 + y * S + col) (0 + y * S + col + 1) (W - col - 1) (x + y * S) := by
      intro x
      simp only [MAT_AT, img_rm_col_at_row, hs.1.2.1, hs.1.2.2]
    have e2 : ∀ r x, MAT_AT (img_rm_col_at_row s.img y col) r x
        = memmove s.img.items (0 + y * S + col) (0 + y * S + col + 1) (W - col - 1) (x + r * S) := by
      intro r x
      simp only [MAT_AT, img_rm_col_at_row, hs.1.2.1, hs.1.2.2]
    have e3 : ∀ r x, MAT_AT s.img r x = s.img.items (x + r * S) := by
      intro r x
      simp only [MAT_AT, hs.1.2.2]
    have other : ∀ r x, r ≠ y → 0 ≤ x → x < W →
        MAT_AT (img_rm_col_at_row s.img y col) r x = MAT_AT s.img r x := by
      intro r x hr x0 x1
      rw [e2, e3]
      exact m4 c0 hS r x hr x0 (by omega)
    refine ⟨?_, ?_⟩
    · intro hy
      rcases eq_or_lt_of_le hy with h | h
      · subst h
        have hr := (hrows y r0 r1).2 (by omega)
        rw [row_cells_erase img (img_rm_col_at_row s.img y col) y W col c0 c1]
        · exact List.eraseIdx_sublist _ _
        · intro x x0 x1
          rw [e2, m1 x x1, ← e3]
          exact hr x x0 (by omega)
        · intro x x0 x1
          rw [e2, m2 x x0 x1, ← e3]
          exact hr (x + 1) (by omega) (by omega)
      · have hr := (hrows r r0 r1).1 (by omega)
        rw [row_cells_congr s.img (img_rm_col_at_row s.img y col) r (W - 1)
          (fun x x0 x1 => other r x (by omega) x0 (by omega))]
        exact hr
    · intro hy x x0 x1
      rw [other r x (by omega) x0 x1]
      exact (hrows r r0 r1).2 (by omega) x x0 x1
  obtain ⟨hd1, hd2⟩ := hdp
  have hscan := seam_scan_spec dp (dp.height - 1) (by omega)
  obtain ⟨s1, hI, e⟩ := remove_seam_inv sqrtf fuel dp img lum edges
    (fun y s => seam_inv (fun _ => True) (fun _ => True) (fun _ => True) img lum H W S s
      ∧ ∀ r, 0 ≤ r → r < H →
        (y ≤ r → List.Sublist (row_cells s.img r (W - 1)) (row_cells img r W))
        ∧ (r < y → ∀ x, 0 ≤ x → x < W → MAT_AT s.img r x = MAT_AT img r x))
    (by omega) (by omega)
    (by
      refine ⟨seam_start_inv _ _ _ dp img lum edges H W S ⟨hd1, hd2⟩ himg hlum hedges hH hW hS
        (fun _ _ _ => trivial), ?_⟩
      have := hrm (dp.height - 1)
        { img := img, lum := lum, edges := edges, seam := seam_scan dp (dp.height - 1),
          removed := [] } (seam_scan dp (dp.height - 1)) (by omega) (by omega) hscan.1
        (by rw [← hd2]; exact hscan.2.1)
        ⟨himg, hlum, hedges, ⟨hscan.1, by rw [← hd2]; exact hscan.2.1⟩,
          fun h => h, fun h => h, fun _ _ _ => trivial, fun _ _ => rfl, fun _ _ => rfl⟩
        (fun r r0 r1 => ⟨fun h => by omega, fun _ _ _ _ => rfl⟩)
      exact this)
    (by
      intro y s y1 y2 hs
      refine ⟨seam_body_inv sqrtf _ _ _ hT dp img lum H W S hd2 hW hS y s y1 (by omega) hs.1, ?_⟩
      have hstep := seam_step_spec dp y s.seam
      have hr := hstep.2.1 hs.1.2.2.2.1.1 (by rw [hd2]; exact hs.1.2.2.2.1.2)
      exact hrm y s (seam_step dp y s.seam) y1 (by omega) hr.1 (by rw [← hd2]; exact hr.2)
        hs.1 hs.2)
  refine ⟨_, e, ?_⟩
  intro r r0 r1
  rcases (show 1 ≤ r ∨ r < 1 by omega) with h | h
  · exact (hI.2 r r0 r1).1 h
  · have := (hI.2 r r0 r1).2 h
    rw [row_cells_erase img s1.img r W (W - 1) (by omega) (by omega)
      (fun x x0 x1 => this x x0 (by omega)) (fun x x0 x1 => by omega)]
    exact List.eraseIdx_sublist _ _

/-- The loop of `main` for `n` seams on grids of one shape with `H >= 2` (or `n = 0`) and
`n <= W <= S`: it returns grids `n` columns narrower, and every row of the window of the
picture is a subsequence of the row it was. -/
theorem carve_rows (sqrtf : α → α) (fuel : Nat) (n : Nat) :
    ∀ (g : Grids α) (H W S : Int), g.shaped H W S → (n = 0 ∨ 2 ≤ H) → (n : Int) ≤ W → W ≤ S →
      0 ≤ S → H - 1 ≤ fuel →
      ∃ g1, carve sqrtf fuel n g = some g1 ∧ g1.shaped H (W - n) S
        ∧ ∀ r, 0 ≤ r → r < H →
            List.Sublist (row_cells g1.img r (W - n)) (row_cells g.img r W) := by
  induction n with
  | zero =>
    intro g H W S hg _ _ _ _ _
    refine ⟨g, rfl, by simpa using hg, ?_⟩
    intro r _ _
    simp
  | succ n ih =>
    intro g H W S hg hH hn hS hS0 hf
    push_cast at hn
    have hH2 : 2 ≤ H := by
      rcases hH with h | h
      · omega
      · exact h
    obtain ⟨dp, s, _, es, e, hdp, hinv, _⟩ := carve_step_spec sqrtf (fun _ => True)
      (fun _ => True) (fun _ => True) (fun _ _ _ => trivial) fuel g H W S hg
      hH2 (by omega) hS hf (fun _ _ _ => trivial)
    obtain ⟨s2, es2, hrows⟩ := remove_seam_rows sqrtf fuel dp g.img g.lum g.edges H W S
      ⟨hdp.1, hdp.2.1⟩ hg.1 hg.2.1 hg.2.2.1 hH2 (by omega) hS hf
    rw [es] at es2
    cases es2
    obtain ⟨a, b, c, _, _, _, _, _, _⟩ := hinv
    have hg1 : (narrowed s dp).shaped H (W - 1) S := by
      simp only [Grids.shaped, narrowed]
      exact ⟨⟨a.1, by rw [a.2.1], a.2.2⟩, ⟨b.1, by rw [b.2.1], b.2.2⟩,
        ⟨c.1, by rw [c.2.1], c.2.2⟩, ⟨hdp.1, by rw [hdp.2.1], hdp.2.2⟩⟩
    obtain ⟨g1, e1, s1, p1⟩ := ih (narrowed s dp) H (W - 1) S hg1 (Or.inr hH2) (by omega)
      (by omega) hS0 hf
    have hw : W - ((n + 1 : Nat) : Int) = W - 1 - (n : Int) := by push_cast; ring
    refine ⟨g1, ?_, ?_, ?_⟩
    · simp only [carve, e, e1]
    · rw [hw]; exact s1
    · intro r r0 r1
      rw [hw]
      exact (p1 r r0 r1).trans (hrows r r0 r1)

/-- C25: pixels are only deleted, never altered or reordered. For a decoded image of at
least 2 rows and 1 column and every count `k` of iterations up to its width (the clamp of
`main` allows at most two thirds of it), the loop of `main` returns a picture of the same
height and `k` columns narrower, and every row of its window read from left to right is a
subsequence of the same row of the input image; so is every row of the picture `main`
hands to the encoder. -/
theorem pixels_only_deleted (sqrtf : α → α) (fuel : Nat) (img : Img) (hH : 2 ≤ img.height)
    (hW : 1 ≤ img.width) (hf : img.height - 1 ≤ fuel) :
    (∀ k : Nat, (k : Int) ≤ img.width →
      ∃ g0 g, load sqrtf img = some g0 ∧ carve sqrtf fuel k g0 = some g
        ∧ g.img.height = img.height ∧ g.img.width = img.width - k
        ∧ ∀ r, 0 ≤ r → r < img.height →
            List.Sublist (row_cells g.img r g.img.width)
              (row_cells { img with stride := img.width } r img.width))
    ∧ ∃ out, main sqrtf fuel img = some out ∧ out.height = img.height
        ∧ out.width = img.width - clamp_seams 500 img.width
        ∧ ∀ r, 0 ≤ r → r < img.height →
            List.Sublist (row_cells out r out.width)
              (row_cells { img with stride := img.width } r img.width) := by
  obtain ⟨g0, e0, hg, hi, _, _⟩ := load_spec sqrtf img (by omega) hW
  have key : ∀ k : Nat, (k : Int) ≤ img.width →
      ∃ g, carve sqrtf fuel k g0 = some g
        ∧ g.img.height = img.height ∧ g.img.width = img.width - k
        ∧ ∀ r, 0 ≤ r → r < img.height →
            List.Sublist (row_cells g.img r g.img.width)
              (row_cells { img with stride := img.width } r img.width) := by
    intro k hk
    obtain ⟨g, e1, hs, hr⟩ := carve_rows sqrtf fuel k g0 img.height img.width img.width hg
      (Or.inr hH) hk (le_refl _) (by omega) hf
    refine ⟨g, e1, hs.1.1, hs.1.2.1, ?_⟩
    intro r r0 r1
    rw [hs.1.2.1, ← hi]
    exact hr r r0 r1
  refine ⟨fun k hk => ?_, ?_⟩
  · obtain ⟨g, h⟩ := key k hk
    exact ⟨g0, g, e0, h⟩
  · obtain ⟨c0, c1⟩ := clamp_seams_le img.width 500 hW (by norm_num)
    obtain ⟨k, hk⟩ : ∃ k : Nat, (k : Int) = clamp_seams 500 img.width :=
      ⟨(clamp_seams 500 img.width).toNat, by omega⟩
    obtain ⟨g, e1, h1, h2, h3⟩ := key k (by omega)
    refine ⟨g.img, ?_, h1, by rw [h2, hk], h3⟩
    have hw : g0.img.width = img.width := hg.1.2.1
    have hk2 : (clamp_seams 500 img.width).toNat = k := by omega
    simp only [main, e0, hw, hk2, e1]

/-- C25 on the 2 x 2 white image, for the result of `main`. -/
theorem pixels_only_deleted_witness :
    ∃ out, main Real.sqrt 1 white_img = some out ∧ out.height = white_img.height
      ∧ out.width = white_img.width - clamp_seams 500 white_img.width
      ∧ ∀ r, 0 ≤ r → r < white_img.height →
          List.Sublist (row_cells out r out.width)
            (row_cells { white_img with stride := white_img.width } r white_img.width) :=
  (pixels_only_deleted Real.sqrt 1 white_img (by decide) (by decide) (by decide)).2

/-! ## The coverage of the patch -/

/-- A table that satisfies the recurrence of `build_dp` for an energy map without negative
cells whose column 0 holds zeros only: its column 0 holds zeros only and none of its cells
is negative. -/
theorem cost_left_zero (E cost : Mat α) (W H : Int) (hW : 1 ≤ W)
    (hE : ∀ y x, 0 ≤ y → y < H → 0 ≤ x → x < W → 0 ≤ MAT_AT E y x)
    (hE0 : ∀ y, 0 ≤ y → y < H → MAT_AT E y 0 = 0)
    (h0 : ∀ x, 0 ≤ x → x < W → MAT_AT cost 0 x = MAT_AT E 0 x)
    (hr : ∀ y x, 1 ≤ y → y < H → 0 ≤ x → x < W →
      MAT_AT cost y x = MAT_AT E y x + min_prev W cost y x)
    (n : Nat) : (n : Int) < H →
      MAT_AT cost (n : Int) 0 = 0 ∧ ∀ x, 0 ≤ x → x < W → 0 ≤ MAT_AT cost (n : Int) x := by
  induction n with
  | zero =>
    intro hH
    rw [Nat.cast_zero]
    refine ⟨?_, ?_⟩
    · rw [h0 0 (le_refl _) (by omega)]
      exact hE0 0 (le_refl _) (by simpa using hH)
    · intro x x0 xW
      rw [h0 x x0 xW]
      exact hE 0 x (le_refl _) (by simpa using hH) x0 xW
  | succ n ih =>
    intro hH
    push_cast at hH ⊢
    obtain ⟨i0, i1⟩ := ih (by omega)
    have e : (n : Int) + 1 - 1 = n := by ring
    have hm : ∀ x, 0 ≤ min_prev W cost ((n : Int) + 1) x := by
      intro x
      obtain ⟨_, _, m3⟩ := min_prev_spec W cost ((n : Int) + 1) x
      rcases m3 with m3 | ⟨i, _, _, i3, i4, i5⟩
      · rw [m3]
        unfold FLT_MAX
        norm_num
      · rw [i5, e]
        exact i1 (x + i) i3 i4
    refine ⟨?_, ?_⟩
    · rw [hr _ 0 (by omega) hH (le_refl _) (by omega), hE0 _ (by omega) hH, zero_add]
      apply le_antisymm _ (hm 0)
      have := (min_prev_spec W cost ((n : Int) + 1) 0).2.1 0 (by norm_num) (by norm_num)
        (by norm_num) (by omega)
      rw [e, add_zero, i0] at this
      exact this
    · intro x x0 xW
      rw [hr _ x (by omega) hH x0 xW]
      exact add_nonneg (hE _ x (by omega) hH x0 xW) (hm x)

/-- The scan of a row without negative cells whose column 0 holds 0 ends on column 0. -/
theorem seam_scan_left (dp : Mat α) (y : Int) (hW : 1 ≤ dp.width) (h0 : MAT_AT dp y 0 = 0)
    (h : ∀ x, 0 ≤ x → x < dp.width → 0 ≤ MAT_AT dp y x) : seam_scan dp y = 0 := by
  obtain ⟨a1, a2, _, a4⟩ := seam_scan_spec dp y hW
  by_contra hne
  have := a4 0 (le_refl _) (by omega)
  rw [h0] at this
  exact absurd (h _ a1 a2) (not_le.mpr this)

/-- The walk stays in column 0 in a row without negative cells whose column 0 holds 0. -/
theorem seam_step_left (dp : Mat α) (y : Int) (hW : 1 ≤ dp.width) (h0 : MAT_AT dp y 0 = 0)
    (h : ∀ x, 0 ≤ x → x < dp.width → 0 ≤ MAT_AT dp y x) : seam_step dp y 0 = 0 := by
  apply (seam_step_choice dp y 0 (le_refl _) (by omega)).2.2.1
  rintro j ⟨j0, jW, _⟩
  rw [h0]
  exact h j j0 jW

/-- On a cost map of 3 rows, `remove_seam` runs the body of its loop once, at row 1, and
then patches row 0. -/
theorem remove_seam_three_rows (sqrtf : α → α) (fuel : Nat) (dp : Mat α) (img : Img)
    (lum edges : Mat α) (hH : dp.height = 3) (hf : 2 ≤ fuel) :
    remove_seam sqrtf fuel dp img lum edges
      = some { seam_body sqrtf dp 1 (seam_start dp img lum edges) with
          edges := patch_row sqrtf (seam_body sqrtf dp 1 (seam_start dp img lum edges)).lum
            (seam_body sqrtf dp 1 (seam_start dp img lum edges)).edges 0
            (seam_body sqrtf dp 1 (seam_start dp img lum edges)).seam } := by
  obtain ⟨f, rfl⟩ : ∃ f, fuel = f + 2 := ⟨fuel - 2, by omega⟩
  simp only [remove_seam, seam_walk, hH]
  norm_num [seam_start, hH]

/-- The luminance of `corner_img`: 1 at the bottom right corner, 0 elsewhere. -/
theorem corner_lum (g : Grids ℝ) (hg : g.shaped 3 3 3)
    (hi : g.img = { corner_img with stride := corner_img.width })
    (hlum : ∀ y x, 0 ≤ y → y < 3 → 0 ≤ x → x < 3 →
      MAT_AT g.lum y x = pixel_to_lum (MAT_AT g.img y x)) :
    g.lum.items 0 = 0 ∧ g.lum.items 1 = 0 ∧ g.lum.items 2 = 0 ∧ g.lum.items 3 = 0
      ∧ g.lum.items 4 = 0 ∧ g.lum.items 5 = 0 ∧ g.lum.items 6 = 0 ∧ g.lum.items 7 = 0
      ∧ g.lum.items 8 = 1 := by
  have hs : g.lum.stride = 3 := hg.2.1.2.2
  have hw : corner_img.width = 3 := rfl
  have b := black_lum 255
  have w := white_lum 255
  have c : ∀ y x : Int, 0 ≤ y → y < 3 → 0 ≤ x → x < 3 →
      g.lum.items (x + y * 3) = pixel_to_lum (corner_img.items (x + y * 3)) := by
    intro y x y0 y1 x0 x1
    have := hlum y x y0 y1 x0 x1
    simp only [MAT_AT, hs, hi, hw] at this
    exact this
  have t : ∀ y x : Int, 0 ≤ y → y < 3 → 0 ≤ x → x < 3 →
      corner_img.items (x + y * 3)
        = if x + y * 3 = 8 then ⟨255, 255, 255, 255⟩ else ⟨0, 0, 0, 255⟩ := by
    intro y x y0 y1 x0 x1
    interval_cases y <;> interval_cases x <;> rfl
  have v : ∀ y x : Int, 0 ≤ y → y < 3 → 0 ≤ x → x < 3 →
      g.lum.items (x + y * 3) = if x + y * 3 = 8 then 1 else 0 := by
    intro y x y0 y1 x0 x1
    rw [c y x y0 y1 x0 x1, t y x y0 y1 x0 x1]
    split
    · exact w
    · exact b
  have c00 := v 0 0 (by norm_num) (by norm_num) (by norm_num) (by norm_num)
  have c01 := v 0 1 (by norm_num) (by norm_num) (by norm_num) (by norm_num)
  have c02 := v 0 2 (by norm_num) (by norm_num) (by norm_num) (by norm_num)
  have c10 := v 1 0 (by norm_num) (by norm_num) (by norm_num) (by norm_num)
  have c11 := v 1 1 (by norm_num) (by norm_num) (by norm_num) (by norm_num)
  have c12 := v 1 2 (by norm_num) (by norm_num) (by norm_num) (by norm_num)
  have c20 := v 2 0 (by norm_num) (by norm_num) (by norm_num) (by norm_num)
  have c21 := v 2 1 (by norm_num) (by norm_num) (by norm_num) (by norm_num)
  have c22 := v 2 2 (by norm_num) (by norm_num) (by norm_num) (by norm_num)
  norm_num at c00 c01 c02 c10 c11 c12 c20 c21 c22
  exact ⟨c00, c01, c02, c10, c11, c12, c20, c21, c22⟩

/-- C23 fails on the code: for the 3 x 3 image that is black except for its white bottom
right corner, `remove_seam` deletes the cells `(2, 0)` and `(1, 0)`, so the seam position
of row 1 is column 0 and column 1 lies in its window; the energy cell `(1, 1)` still holds
the value 2 that was moved there, while `sobel_filter_at` on the luminance map as it stands
when `remove_seam` returns gives `sqrt 10`: the loop `while (--y)` ends before the
iteration that would patch row 1. -/
theorem row_one_not_patched :
    ∃ g dp s, load Real.sqrt corner_img = some g ∧ build_dp g.edges g.dp = some dp
      ∧ remove_seam Real.sqrt 2 dp g.img g.lum g.edges = some s
      ∧ s.removed = [(1, 0), (2, 0)]
      ∧ s.lum.height = 3 ∧ s.lum.width = 3
      ∧ MAT_AT s.edges 1 1 = 2
      ∧ sobel_filter_at Real.sqrt s.lum 1 1 = Real.sqrt 10
      ∧ MAT_AT s.edges 1 1 ≠ sobel_filter_at Real.sqrt s.lum 1 1 := by
  obtain ⟨g, e0, hg, hi, hlum, hedges⟩ := load_spec Real.sqrt corner_img (by decide) (by decide)
  have hh : corner_img.height = 3 := rfl
  have hw : corner_img.width = 3 := rfl
  rw [hh, hw] at hg hlum hedges
  obtain ⟨l0, l1, l2, l3, l4, l5, l6, l7, l8⟩ := corner_lum g hg hi hlum
  obtain ⟨-, ⟨lh, lw, ls⟩, ⟨eh, ew, es⟩, ⟨dh, dw, ds⟩⟩ := hg
  -- the energies
  have hE : ∀ y x, 0 ≤ y → y < 3 → 0 ≤ x → x < 3 → 0 ≤ MAT_AT g.edges y x := by
    intro y x y0 y1 x0 x1
    rw [hedges y x y0 y1 x0 x1]
    exact Real.sqrt_nonneg _
  have hE0 : ∀ y, 0 ≤ y → y < 3 → MAT_AT g.edges y 0 = 0 := by
    intro y y0 y1
    rw [hedges y 0 y0 y1 (by norm_num) (by norm_num)]
    interval_cases y <;>
      simp [sobel_filter_at, sobel_sums_eq, lum_or_zero, MAT_WITHIN, MAT_AT, lh, lw, ls,
        l0, l1, l2, l3, l4, l5, l6, l7, l8]
  have hE12 : MAT_AT g.edges 1 2 = 2 := by
    rw [hedges 1 2 (by norm_num) (by norm_num) (by norm_num) (by norm_num)]
    simp [sobel_filter_at, sobel_sums_eq, lum_or_zero, MAT_WITHIN, MAT_AT, lh, lw, ls,
        l0, l1, l2, l3, l4, l5, l6, l7, l8]
  -- the cost map and the seam
  have hd : MAT_SAME_DIM g.edges g.dp = true := by
    rw [MAT_SAME_DIM_iff]; exact ⟨by rw [ew, dw], by rw [eh, dh]⟩
  obtain ⟨dp, b1, b2, b3, b4, b5, b6⟩ := build_dp_spec g.edges g.dp hd (by rw [dw, ds])
  rw [dh] at b2 b6
  rw [dw] at b3 b5 b6
  rw [ds] at b4
  have hc := cost_left_zero g.edges dp 3 3 (by norm_num) hE hE0 b5 b6
  have hc1 := hc 1 (by norm_num)
  have hc2 := hc 2 (by norm_num)
  norm_num at hc1 hc2
  have hscan : seam_scan dp 2 = 0 :=
    seam_scan_left dp 2 (by rw [b3]; norm_num) hc2.1 (by rw [b3]; exact hc2.2)
  have hstep : seam_step dp 1 0 = 0 :=
    seam_step_left dp 1 (by rw [b3]; norm_num) hc1.1 (by rw [b3]; exact hc1.2)
  have hrs := remove_seam_three_rows Real.sqrt 2 dp g.img g.lum g.edges b2 (le_refl _)
  have h21 : dp.height - 1 = 2 := by rw [b2]; norm_num
  simp only [seam_start, seam_body, rm_cell, h21, hscan, hstep] at hrs
  norm_num at hrs
  have hE1 : (mat_rm_col_at_row (mat_rm_col_at_row g.edges 2 0) 1 0).stride = 3 := es
  obtain ⟨_, _, p3, _, p5⟩ := patch_row_spec Real.sqrt
    (mat_rm_col_at_row (mat_rm_col_at_row g.lum 2 0) 1 0)
    (patch_row Real.sqrt (mat_rm_col_at_row (mat_rm_col_at_row g.lum 2 0) 1 0)
      (mat_rm_col_at_row (mat_rm_col_at_row g.edges 2 0) 1 0) 2 0) 0 0
  obtain ⟨_, _, q3, _, q5⟩ := patch_row_spec Real.sqrt
    (mat_rm_col_at_row (mat_rm_col_at_row g.lum 2 0) 1 0)
    (mat_rm_col_at_row (mat_rm_col_at_row g.edges 2 0) 1 0) 2 0
  rw [q3, hE1] at p3
  rw [q3, hE1] at p5
  rw [hE1] at q5
  have hedge : MAT_AT (patch_row Real.sqrt (mat_rm_col_at_row (mat_rm_col_at_row g.lum 2 0) 1 0)
      (patch_row Real.sqrt (mat_rm_col_at_row (mat_rm_col_at_row g.lum 2 0) 1 0)
        (mat_rm_col_at_row (mat_rm_col_at_row g.edges 2 0) 1 0) 2 0) 0 0) 1 1 = 2 := by
    unfold MAT_AT
    rw [p3, p5 _ (by intro dx d1 d2 d3 d4; omega), q5 _ (by intro dx d1 d2 d3 d4; omega)]
    unfold MAT_AT at hE12
    rw [es] at hE12
    simp only [mat_rm_col_at_row, memmove, es, ew]
    norm_num
    norm_num at hE12
    exact hE12
  have hsobel : sobel_filter_at Real.sqrt (mat_rm_col_at_row (mat_rm_col_at_row g.lum 2 0) 1 0)
      1 1 = Real.sqrt 10 := by
    simp [sobel_filter_at, sobel_sums_eq, lum_or_zero, MAT_WITHIN, MAT_AT, mat_rm_col_at_row,
      memmove, lh, lw, ls, l0, l1, l2, l3, l4, l5, l6, l7, l8]
    norm_num
  refine ⟨g, dp, _, e0, b1, hrs, rfl, lh, lw, hedge, hsobel, ?_⟩
  rw [hedge, hsobel]
  intro h
  have h10 : Real.sqrt 10 ^ 2 = 10 := Real.sq_sqrt (by norm_num)
  rw [← h] at h10
  norm_num at h10

/-! ## The accesses of `remove_seam` -/

/-- Every read of `sobel_filter_at` is one of the 9 neighbours of its cell, inside the
window. -/
theorem sobel_reads_spec (lum : Mat α) (row col : Int) :
    ∀ a ∈ sobel_reads lum row col, ∃ ci cj, -1 ≤ ci ∧ ci < 2 ∧ -1 ≤ cj ∧ cj < 2
      ∧ a = Access.lum_read (row + ci) (col + cj)
      ∧ MAT_WITHIN lum (row + ci) (col + cj) = true := by
  unfold sobel_reads
  exact for_loop_induction
    (fun (_ : Int) (log : List Access) => ∀ a ∈ log, ∃ ci cj, -1 ≤ ci ∧ ci < 2 ∧ -1 ≤ cj ∧ cj < 2
      ∧ a = Access.lum_read (row + ci) (col + cj)
      ∧ MAT_WITHIN lum (row + ci) (col + cj) = true)
    (-1) 2 _ [] (by norm_num) (fun a ha => by simp at ha)
    (by
      intro ci log i1 i2 hlog
      exact for_loop_induction
        (fun (_ : Int) (l : List Access) => ∀ a ∈ l, ∃ ci cj, -1 ≤ ci ∧ ci < 2 ∧ -1 ≤ cj
          ∧ cj < 2 ∧ a = Access.lum_read (row + ci) (col + cj)
          ∧ MAT_WITHIN lum (row + ci) (col + cj) = true)
        (-1) 2 _ log (by norm_num) hlog
        (by
          intro cj l j1 j2 hl
          split
          · rename_i hc
            intro a ha
            rw [List.mem_append, List.mem_singleton] at ha
            rcases ha with ha | ha
            · exact hl a ha
            · exact ⟨ci, cj, i1, i2, j1, j2, ha, hc⟩
          · exact hl))

/-- Every access of a patch loop is the write of a column that passes the guard, in the
patched row, or a read of `sobel_filter_at` inside the window. -/
theorem patch_accesses_spec (lum : Mat α) (row seam : Int) :
    ∀ a ∈ patch_accesses lum row seam,
      (∃ x, a = Access.patch_write row x ∧ 0 ≤ x ∧ x < lum.width - 1)
      ∨ (∃ r c, a = Access.lum_read r c ∧ 0 ≤ r ∧ r < lum.height ∧ 0 ≤ c ∧ c < lum.width) := by
  unfold patch_accesses
  apply for_loop_preserves (fun log : List Access => ∀ a ∈ log,
      (∃ x, a = Access.patch_write row x ∧ 0 ≤ x ∧ x < lum.width - 1)
      ∨ (∃ r c, a = Access.lum_read r c ∧ 0 ≤ r ∧ r < lum.height ∧ 0 ≤ c ∧ c < lum.width))
  · intro a ha
    simp at ha
  · intro dx log hlog
    split
    · rename_i hc
      intro a ha
      rw [List.mem_append, List.mem_append, List.mem_singleton] at ha
      rcases ha with (ha | ha) | ha
      · exact hlog a ha
      · obtain ⟨ci, cj, _, _, _, _, e, hw⟩ := sobel_reads_spec lum row (seam + dx) a ha
        rw [MAT_WITHIN_iff] at hw
        exact Or.inr ⟨_, _, e, hw.1, hw.2.2.1, hw.2.1, hw.2.2.2⟩
      · exact Or.inl ⟨_, ha, hc.1, hc.2⟩
    · exact hlog

/-- The accesses of a patch of a row of the window, on a luminance grid of the shape of the
window, stay inside the window. -/
theorem patch_accesses_in_range (lum : Mat α) (H W row seam : Int) (hh : lum.height = H)
    (hw : lum.width = W) (r0 : 0 ≤ row) (r1 : row < H) :
    ∀ a ∈ patch_accesses lum row seam, a.in_range H W := by
  intro a ha
  rcases patch_accesses_spec lum row seam a ha with ⟨x, e, x0, x1⟩ | ⟨r, c, e, h1, h2, h3, h4⟩
  · rw [e]
    exact ⟨r0, r1, x0, by rw [← hw]; exact x1⟩
  · rw [e]
    exact ⟨h1, by rw [← hh]; exact h2, h3, by rw [← hw]; exact h4⟩

/-- The accesses of the body of the loop of `remove_seam` at a row `1 <= y <= H - 2` stay
inside the window, from a state that satisfies `seam_inv`. -/
theorem body_accesses_in_range (Pi : Pixel → Prop) (Pl Pe : α → Prop) (dp : Mat α) (img : Img)
    (lum : Mat α) (H W S : Int) (hd2 : dp.width = W) (y : Int) (s : Seamed α) (y1 : 1 ≤ y)
    (y2 : y + 1 < H) (hs : seam_inv Pi Pl Pe img lum H W S s) :
    ∀ a ∈ body_accesses dp y s, a.in_range H W := by
  have hstep := seam_step_spec dp y s.seam
  have hr := hstep.2.1 hs.2.2.2.1.1 (by rw [hd2]; exact hs.2.2.2.1.2)
  rw [hd2] at hr
  intro a ha
  simp only [body_accesses, rm_accesses, List.cons_append, List.nil_append, List.mem_cons] at ha
  rcases ha with ha | ha | ha | ha | ha
  · rw [ha]
    exact ⟨by omega, by omega⟩
  · rw [ha, hs.1.2.1]
    exact ⟨by omega, by omega, hr.1, hr.2, rfl, by omega⟩
  · rw [ha, hs.2.1.2.1]
    exact ⟨by omega, by omega, hr.1, hr.2, rfl, by omega⟩
  · rw [ha, hs.2.2.1.2.1]
    exact ⟨by omega, by omega, hr.1, hr.2, rfl, by omega⟩
  · exact patch_accesses_in_range _ H W _ _ hs.2.1.1 hs.2.1.2.1 (by omega) y2 a ha

/-- The accesses of the loop `while (--y)` entered with `1 <= y <= H - 1` from a state that
satisfies `seam_inv` stay inside the window, whatever the fuel. -/
theorem walk_accesses_in_range (sqrtf : α → α) (Pi : Pixel → Prop) (Pl Pe : α → Prop)
    (hPe : ∀ lum row col, Pe (sobel_filter_at sqrtf lum row col))
    (dp : Mat α) (img : Img) (lum : Mat α) (H W S : Int) (hd2 : dp.width = W)
    (hW : 1 ≤ W) (hS : W ≤ S) (fuel : Nat) :
    ∀ (y : Int) (s : Seamed α), 1 ≤ y → y < H → seam_inv Pi Pl Pe img lum H W S s →
      ∀ a ∈ walk_accesses sqrtf dp fuel y s, a.in_range H W := by
  induction fuel with
  | zero =>
    intro y s _ _ _ a ha
    simp [walk_accesses] at ha
  | succ f ih =>
    intro y s y1 y2 hs a ha
    simp only [walk_accesses] at ha
    split at ha
    · simp at ha
    · rename_i hne
      rw [List.mem_append] at ha
      rcases ha with ha | ha
      · exact body_accesses_in_range Pi Pl Pe dp img lum H W S hd2 (y - 1) s (by omega)
          (by omega) hs a ha
      · exact ih (y - 1) _ (by omega) (by omega)
          (seam_body_inv sqrtf Pi Pl Pe hPe dp img lum H W S hd2 hW hS (y - 1) s (by omega)
            (by omega) hs) a ha

/-- The accesses of `remove_seam` on three grids of the shape of the cost map, with
`H >= 2` and `1 <= W <= S`: with enough fuel the function returns, and every access stays
inside the window. -/
theorem remove_seam_accesses_in_range (sqrtf : α → α) (fuel : Nat) (dp : Mat α) (img : Img)
    (lum edges : Mat α) (H W S : Int)
    (hdp : dp.height = H ∧ dp.width = W)
    (himg : img.height = H ∧ img.width = W ∧ img.stride = S)
    (hlum : lum.height = H ∧ lum.width = W ∧ lum.stride = S)
    (hedges : edges.height = H ∧ edges.width = W ∧ edges.stride = S)
    (hH : 2 ≤ H) (hW : 1 ≤ W) (hS : W ≤ S) (hf : H - 1 ≤ fuel) :
    (∃ s, remove_seam sqrtf fuel dp img lum edges = some s)
      ∧ ∀ a ∈ remove_seam_accesses sqrtf fuel dp img lum edges, a.in_range H W := by
  have hT : ∀ lum row col, (fun _ : α => True) (sobel_filter_at sqrtf lum row col) :=
    fun _ _ _ => trivial
  obtain ⟨hd1, hd2⟩ := hdp
  have hscan := seam_scan_spec dp (dp.height - 1) (by omega)
  have h0 := seam_start_inv (fun _ => True) (fun _ => True) (fun _ => True) dp img lum edges
    H W S ⟨hd1, hd2⟩ himg hlum hedges hH hW hS (fun _ _ _ => trivial)
  obtain ⟨m, hm⟩ : ∃ m : Nat, dp.height - 1 = (m : Int) + 1 := ⟨(dp.height - 2).toNat, by omega⟩
  obtain ⟨s1, e1, e2⟩ := seam_walk_inv sqrtf dp
    (fun _ s => seam_inv (fun _ => True) (fun _ => True) (fun _ => True) img lum H W S s)
    m fuel (seam_start dp img lum edges) (by omega) h0
    (fun y s y1 y2 h => seam_body_inv sqrtf _ _ _ hT dp img lum H W S hd2 hW hS y s y1
      (by omega) h)
  rw [← hm] at e1
  have e1a : seam_walk sqrtf dp fuel (dp.height - 1)
      (rm_cell { img := img, lum := lum, edges := edges, seam := seam_scan dp (dp.height - 1),
                 removed := [] } (dp.height - 1) (seam_scan dp (dp.height - 1))) = some s1 := e1
  refine ⟨⟨{ s1 with edges := patch_row sqrtf s1.lum s1.edges 0 s1.seam }, by
    simp only [remove_seam, e1a]⟩, ?_⟩
  intro a ha
  simp only [remove_seam_accesses, e1a, rm_accesses, List.cons_append, List.nil_append,
    List.mem_cons, List.mem_append] at ha
  rw [hd2] at hscan
  rcases ha with ha | ha | ha | ha | ha | ha
  · rw [ha]
    exact ⟨by omega, by omega⟩
  · rw [ha, himg.2.1]
    exact ⟨by omega, by omega, hscan.1, hscan.2.1, rfl, by omega⟩
  · rw [ha, hlum.2.1]
    exact ⟨by omega, by omega, hscan.1, hscan.2.1, rfl, by omega⟩
  · rw [ha, hedges.2.1]
    exact ⟨by omega, by omega, hscan.1, hscan.2.1, rfl, by omega⟩
  · exact walk_accesses_in_range sqrtf _ _ _ hT dp img lum H W S hd2 hW hS fuel _ _ (by omega)
      (by omega) h0 a ha
  · exact patch_accesses_in_range _ H W _ _ e2.2.1.1 e2.2.1.2.1 (by omega) (by omega) a ha

/-- Every cell the loop `while (--y)` adds to the log of deleted cells is one of the
compactions among its accesses. -/
theorem walk_accesses_log (sqrtf : α → α) (dp : Mat α) (fuel : Nat) :
    ∀ (y : Int) (s s1 : Seamed α), seam_walk sqrtf dp fuel y s = some s1 →
      ∀ p ∈ s1.removed, p ∈ s.removed
        ∨ ∃ len, Access.shift p.1 p.2 len ∈ walk_accesses sqrtf dp fuel y s := by
  induction fuel with
  | zero => intro y s s1 h; exact absurd h (by simp [seam_walk])
  | succ f ih =>
    intro y s s1 h p hp
    simp only [seam_walk] at h
    simp only [walk_accesses]
    split at h
    · simp only [Option.some.injEq] at h
      rw [← h] at hp
      exact Or.inl hp
    · rename_i hne
      rw [if_neg hne]
      rcases ih _ _ _ h p hp with h1 | ⟨len, h1⟩
      · simp only [seam_body, rm_cell, List.mem_cons] at h1
        rcases h1 with h1 | h1
        · refine Or.inr ⟨s.img.width - seam_step dp (y - 1) s.seam - 1, ?_⟩
          rw [h1]
          simp [body_accesses, rm_accesses]
        · exact Or.inl h1
      · exact Or.inr ⟨len, List.mem_append_right _ h1⟩

/-- Every cell of the log of deleted cells `remove_seam` returns is one of the compactions
among its accesses. -/
theorem remove_seam_accesses_log (sqrtf : α → α) (fuel : Nat) (dp : Mat α) (img : Img)
    (lum edges : Mat α) (s : Seamed α) (h : remove_seam sqrtf fuel dp img lum edges = some s) :
    ∀ p ∈ s.removed,
      ∃ len, Access.shift p.1 p.2 len ∈ remove_seam_accesses sqrtf fuel dp img lum edges := by
  intro p hp
  simp only [remove_seam] at h
  split at h
  · exact absurd h (by simp)
  · rename_i s1 e1
    simp only [Option.some.injEq] at h
    rw [← h] at hp
    simp only [remove_seam_accesses, e1]
    rcases walk_accesses_log sqrtf dp fuel _ _ _ e1 p hp with h1 | ⟨len, h1⟩
    · simp only [rm_cell, List.mem_singleton] at h1
      refine ⟨img.width - seam_scan dp (dp.height - 1) - 1, ?_⟩
      rw [h1]
      simp [rm_accesses]
    · refine ⟨len, ?_⟩
      simp only [List.cons_append, List.mem_cons, List.mem_append]
      exact Or.inr (Or.inl (Or.inr h1))

/-- The write of every column that passes the guard of the patch loop is among the accesses
of the patch. -/
theorem patch_accesses_writes (lum : Mat α) (row seam : Int) :
    ∀ dx, -2 ≤ dx → dx < 2 → 0 ≤ seam + dx → seam + dx < lum.width - 1 →
      Access.patch_write row (seam + dx) ∈ patch_accesses lum row seam := by
  unfold patch_accesses
  exact for_loop_induction
    (fun (n : Int) (log : List Access) => ∀ dx, -2 ≤ dx → dx < n → 0 ≤ seam + dx →
      seam + dx < lum.width - 1 → Access.patch_write row (seam + dx) ∈ log)
    (-2) 2 _ [] (by norm_num) (fun dx h1 h2 => by omega)
    (by
      intro i log i1 i2 hlog dx d1 d2 d3 d4
      by_cases hc : dx = i
      · subst hc
        rw [if_pos ⟨d3, d4⟩]
        simp
      · have := hlog dx d1 (by omega) d3 d4
        split
        · simp [this]
        · exact this)

/-- The offsets a patch of a row changes are cells of that row whose write is among the
accesses of the patch. -/
theorem patch_row_writes (sqrtf : α → α) (lum edges : Mat α) (row seam : Int) (i : Int)
    (h : (patch_row sqrtf lum edges row seam).items i ≠ edges.items i) :
    ∃ x, Access.patch_write row x ∈ patch_accesses lum row seam
      ∧ i = x + row * edges.stride := by
  by_contra hc
  apply h
  apply (patch_row_spec sqrtf lum edges row seam).2.2.2.2 i
  intro dx d1 d2 d3 d4 e
  exact hc ⟨seam + dx, patch_accesses_writes lum row seam dx d1 d2 d3 d4, e⟩

/-- The read of every neighbour inside the window is among the reads of
`sobel_filter_at`. -/
theorem sobel_reads_mem (lum : Mat α) (row col : Int) :
    ∀ ci cj, -1 ≤ ci → ci < 2 → -1 ≤ cj → cj < 2 → MAT_WITHIN lum (row + ci) (col + cj) = true →
      Access.lum_read (row + ci) (col + cj) ∈ sobel_reads lum row col := by
  unfold sobel_reads
  exact for_loop_induction
    (fun (n : Int) (log : List Access) => ∀ ci cj, -1 ≤ ci → ci < n → -1 ≤ cj → cj < 2 →
      MAT_WITHIN lum (row + ci) (col + cj) = true →
      Access.lum_read (row + ci) (col + cj) ∈ log)
    (-1) 2 _ [] (by norm_num) (fun ci cj h1 h2 => by omega)
    (by
      intro i log i1 i2 hlog
      have key := for_loop_induction
        (fun (n : Int) (l : List Access) => (∀ a ∈ log, a ∈ l)
          ∧ ∀ cj, -1 ≤ cj → cj < n → MAT_WITHIN lum (row + i) (col + cj) = true →
            Access.lum_read (row + i) (col + cj) ∈ l)
        (-1) 2 (fun cj l =>
          if MAT_WITHIN lum (row + i) (col + cj) then
            l ++ [Access.lum_read (row + i) (col + cj)]
          else l) log (by norm_num) ⟨fun a h => h, fun cj h1 h2 => by omega⟩
        (by
          intro j l j1 j2 hl
          beta_reduce
          refine ⟨?_, ?_⟩
          · intro a ha
            split
            · exact List.mem_append_left _ (hl.1 a ha)
            · exact hl.1 a ha
          · intro cj c1 c2 hw
            by_cases hc : cj = j
            · subst hc
              rw [if_pos hw]
              simp
            · have := hl.2 cj c1 (by omega) hw
              split
              · exact List.mem_append_left _ this
              · exact this)
      intro ci cj c1 c2 c3 c4 hw
      by_cases hc : ci = i
      · subst hc
        exact key.2 cj c3 c4 hw
      · exact key.1 _ (hlog ci cj c1 (by omega) c3 c4 hw))

/-- The value of `sobel_filter_at` depends on the luminance grid through its dimensions and
the cells among its reads only. -/
theorem sobel_filter_at_reads (sqrtf : α → α) (lum lum1 : Mat α)
    (hh : lum1.height = lum.height) (hw : lum1.width = lum.width) (row col : Int)
    (h : ∀ r c, Access.lum_read r c ∈ sobel_reads lum row col →
      MAT_AT lum1 r c = MAT_AT lum r c) :
    sobel_filter_at sqrtf lum1 row col = sobel_filter_at sqrtf lum row col := by
  have key : ∀ ci cj, -1 ≤ ci → ci < 2 → -1 ≤ cj → cj < 2 →
      lum_or_zero lum1 (row + ci) (col + cj) = lum_or_zero lum (row + ci) (col + cj) := by
    intro ci cj c1 c2 c3 c4
    have e : MAT_WITHIN lum1 (row + ci) (col + cj) = MAT_WITHIN lum (row + ci) (col + cj) := by
      simp only [MAT_WITHIN, hh, hw]
    unfold lum_or_zero
    rw [e]
    split
    · rename_i hc
      exact h _ _ (sobel_reads_mem lum row col ci cj c1 c2 c3 c4 hc)
    · rfl
  have k1 := key (-1) (-1) (by norm_num) (by norm_num) (by norm_num) (by norm_num)
  have k2 := key (-1) 0 (by norm_num) (by norm_num) (by norm_num) (by norm_num)
  have k3 := key (-1) 1 (by norm_num) (by norm_num) (by norm_num) (by norm_num)
  have k4 := key 0 (-1) (by norm_num) (by norm_num) (by norm_num) (by norm_num)
  have k6 := key 0 1 (by norm_num) (by norm_num) (by norm_num) (by norm_num)
  have k7 := key 1 (-1) (by norm_num) (by norm_num) (by norm_num) (by norm_num)
  have k8 := key 1 0 (by norm_num) (by norm_num) (by norm_num) (by norm_num)
  have k9 := key 1 1 (by norm_num) (by norm_num) (by norm_num) (by norm_num)
  simp only [add_zero, ← sub_eq_add_neg] at k1 k2 k3 k4 k6 k7 k8 k9
  simp only [sobel_filter_at, sobel_sums_eq, k1, k2, k3, k4, k6, k7, k8, k9]

/-- C22: column indices stay in range. On three grids of the shape `H x W`, stride `S`, of
the cost map, with `H >= 2` and `1 <= W <= S`, `remove_seam` returns (given the fuel for
the `H - 1` tests of its loop); every cell of its log of deleted cells, which holds the
seam columns it chose, is a row compaction among its accesses; every row compaction
deletes a column in `[0, W)` and hands the shift length `W - col - 1 >= 0` to `memmove`;
every patch write targets a column in `[0, W - 1)`; and every luminance cell
`sobel_filter_at` reads during a patch lies inside the `H x W` window. -/
theorem remove_seam_columns_in_range (sqrtf : α → α) (fuel : Nat) (dp : Mat α) (img : Img)
    (lum edges : Mat α) (H W S : Int)
    (hdp : dp.height = H ∧ dp.width = W)
    (himg : img.height = H ∧ img.width = W ∧ img.stride = S)
    (hlum : lum.height = H ∧ lum.width = W ∧ lum.stride = S)
    (hedges : edges.height = H ∧ edges.width = W ∧ edges.stride = S)
    (hH : 2 ≤ H) (hW : 1 ≤ W) (hS : W ≤ S) (hf : H - 1 ≤ fuel) :
    ∃ s, remove_seam sqrtf fuel dp img lum edges = some s
      ∧ (∀ p ∈ s.removed,
          ∃ len, Access.shift p.1 p.2 len ∈ remove_seam_accesses sqrtf fuel dp img lum edges)
      ∧ (∀ r c len, Access.shift r c len ∈ remove_seam_accesses sqrtf fuel dp img lum edges →
          0 ≤ c ∧ c < W ∧ len = W - c - 1 ∧ 0 ≤ len)
      ∧ (∀ r c, Access.patch_write r c ∈ remove_seam_accesses sqrtf fuel dp img lum edges →
          0 ≤ c ∧ c < W - 1)
      ∧ (∀ r c, Access.lum_read r c ∈ remove_seam_accesses sqrtf fuel dp img lum edges →
          0 ≤ r ∧ r < H ∧ 0 ≤ c ∧ c < W) := by
  obtain ⟨⟨s, e⟩, h⟩ := remove_seam_accesses_in_range sqrtf fuel dp img lum edges H W S hdp himg
    hlum hedges hH hW hS hf
  refine ⟨s, e, remove_seam_accesses_log sqrtf fuel dp img lum edges s e, ?_, ?_, ?_⟩
  · intro r c len ha
    exact (h _ ha).2.2
  · intro r c ha
    exact (h _ ha).2.2
  · intro r c ha
    exact h _ ha

/-- C22 on the cost map of the specification's scenario. -/
theorem remove_seam_columns_in_range_witness :
    ∃ s, remove_seam (fun v : ℚ => v) 2 demo_cost_true demo_img demo_zero demo_energy = some s
      ∧ (∀ p ∈ s.removed, ∃ len, Access.shift p.1 p.2 len
          ∈ remove_seam_accesses (fun v : ℚ => v) 2 demo_cost_true demo_img demo_zero demo_energy)
      ∧ (∀ r c len, Access.shift r c len
          ∈ remove_seam_accesses (fun v : ℚ => v) 2 demo_cost_true demo_img demo_zero demo_energy →
          0 ≤ c ∧ c < 3 ∧ len = 3 - c - 1 ∧ 0 ≤ len)
      ∧ (∀ r c, Access.patch_write r c
          ∈ remove_seam_accesses (fun v : ℚ => v) 2 demo_cost_true demo_img demo_zero demo_energy →
          0 ≤ c ∧ c < 3 - 1)
      ∧ (∀ r c, Access.lum_read r c
          ∈ remove_seam_accesses (fun v : ℚ => v) 2 demo_cost_true demo_img demo_zero demo_energy →
          0 ≤ r ∧ r < 3 ∧ 0 ≤ c ∧ c < 3) :=
  remove_seam_columns_in_range (fun v : ℚ => v) 2 demo_cost_true demo_img demo_zero demo_energy
    3 3 3 (by decide) (by decide) (by decide) (by decide) (by decide) (by decide) (by decide)
    (by decide)

/-- On a cost map of 1 row the first test `--y` of the loop of `remove_seam` gives `-1`, and
the body compacts the row `-1`. -/
theorem remove_seam_accesses_one_row (sqrtf : α → α) (fuel : Nat) (dp : Mat α) (img : Img)
    (lum edges : Mat α) (hH : dp.height = 1) :
    Access.shift (-1) (seam_step dp (-1) (seam_scan dp 0))
        (img.width - seam_step dp (-1) (seam_scan dp 0) - 1)
      ∈ remove_seam_accesses sqrtf (fuel + 1) dp img lum edges := by
  simp only [remove_seam_accesses, walk_accesses, hH]
  norm_num [body_accesses, rm_accesses, rm_cell, img_rm_col_at_row]

/-- C21 fails on the code: for the decoded image of 1 row and 2 columns, on the grids `main`
hands to `remove_seam` (the cost map has height 1), `remove_seam` does not return, whatever
the fuel, and with fuel for one test of its loop it already compacts the row `-1`, outside
`[0, H)`: the first `--y` gives `-1`, not 0. -/
theorem single_row_leaves_grid :
    ∃ g dp, load Real.sqrt row_img = some g ∧ build_dp g.edges g.dp = some dp
      ∧ dp.height = 1 ∧ dp.width = 2
      ∧ ∀ fuel : Nat, remove_seam Real.sqrt fuel dp g.img g.lum g.edges = none
          ∧ ∃ a ∈ remove_seam_accesses Real.sqrt (fuel + 1) dp g.img g.lum g.edges,
              a.row = -1 := by
  obtain ⟨g0, e0, hg, _, _, _⟩ := load_spec Real.sqrt row_img (by decide) (by decide)
  have hh : row_img.height = 1 := rfl
  have hw : row_img.width = 2 := rfl
  rw [hh, hw] at hg
  have hd : MAT_SAME_DIM g0.edges g0.dp = true := by
    rw [MAT_SAME_DIM_iff]
    exact ⟨by rw [hg.2.2.1.2.1, hg.2.2.2.2.1], by rw [hg.2.2.1.1, hg.2.2.2.1]⟩
  obtain ⟨dp, b1, b2, b3, _, _, _⟩ := build_dp_spec g0.edges g0.dp hd
    (by rw [hg.2.2.2.2.1, hg.2.2.2.2.2])
  rw [hg.2.2.2.1] at b2
  rw [hg.2.2.2.2.1] at b3
  refine ⟨g0, dp, e0, b1, b2, b3, fun fuel => ⟨?_, ?_⟩⟩
  · exact remove_seam_none Real.sqrt fuel dp g0.img g0.lum g0.edges (by omega)
  · exact ⟨_, remove_seam_accesses_one_row Real.sqrt fuel dp g0.img g0.lum g0.edges b2, rfl⟩

/-! ## The cells the patch covers -/

/-- The coverage of the patch, on three grids of the shape of the cost map with `H >= 2`
and `1 <= W <= S`: when `remove_seam` returns, in every row `r >= 2`, around the column it
deleted there, and in row 0, around the column it deleted in row 1, every energy cell of a
column `x` of the 4-column window with `0 <= x < W - 1` holds `sobel_filter_at` of the
luminance map as it stands then. -/
theorem remove_seam_patch_coverage (sqrtf : α → α) (fuel : Nat) (dp : Mat α) (img : Img)
    (lum edges : Mat α) (H W S : Int)
    (hdp : dp.height = H ∧ dp.width = W)
    (himg : img.height = H ∧ img.width = W ∧ img.stride = S)
    (hlum : lum.height = H ∧ lum.width = W ∧ lum.stride = S)
    (hedges : edges.height = H ∧ edges.width = W ∧ edges.stride = S)
    (hH : 2 ≤ H) (hW : 1 ≤ W) (hS : W ≤ S) (hf : H - 1 ≤ fuel) :
    ∃ s, remove_seam sqrtf fuel dp img lum edges = some s
      ∧ (∀ p ∈ s.removed, 1 ≤ p.1 ∧ p.1 < H ∧ (p.1 = 1 → p.2 = s.seam))
      ∧ (∀ p ∈ s.removed, 2 ≤ p.1 → ∀ x, p.2 - 2 ≤ x → x ≤ p.2 + 1 → 0 ≤ x → x < W - 1 →
          MAT_AT s.edges p.1 x = sobel_filter_at sqrtf s.lum p.1 x)
      ∧ (∀ x, s.seam - 2 ≤ x → x ≤ s.seam + 1 → 0 ≤ x → x < W - 1 →
          MAT_AT s.edges 0 x = sobel_filter_at sqrtf s.lum 0 x) := by
  have hT : ∀ lum row col, (fun _ : α => True) (sobel_filter_at sqrtf lum row col) :=
    fun _ _ _ => trivial
  obtain ⟨hd1, hd2⟩ := hdp
  have hscan := seam_scan_spec dp (dp.height - 1) (by omega)
  -- a patch of another row keeps a cell of the window
  have hframe : ∀ (L E : Mat α) (row seam r x : Int), L.width = W → E.stride = S → r ≠ row →
      0 ≤ x → x < S →
      MAT_AT (patch_row sqrtf L E row seam) r x = MAT_AT E r x := by
    intro L E row seam r x hw hs hr x0 x1
    obtain ⟨_, _, p3, _, p5⟩ := patch_row_spec sqrtf L E row seam
    unfold MAT_AT
    rw [p3]
    apply p5
    intro dx d1 d2 d3 d4 e
    rw [hs] at e
    exact hr (cell_inj S x r (seam + dx) row x0 x1 d3 (by omega) e).2
  obtain ⟨s1, ⟨hinv, hrows, hcov⟩, e⟩ := remove_seam_inv sqrtf fuel dp img lum edges
    (fun y s => seam_inv (fun _ => True) (fun _ => True) (fun _ => True) img lum H W S s
      ∧ (∀ p ∈ s.removed, y ≤ p.1 ∧ p.1 < H ∧ (p.1 = y → p.2 = s.seam))
      ∧ (∀ p ∈ s.removed, y + 1 ≤ p.1 → ∀ x, p.2 - 2 ≤ x → x ≤ p.2 + 1 → 0 ≤ x → x < W - 1 →
          MAT_AT s.edges p.1 x = sobel_filter_at sqrtf s.lum p.1 x))
    (by omega) (by omega)
    (by
      refine ⟨seam_start_inv _ _ _ dp img lum edges H W S ⟨hd1, hd2⟩ himg hlum hedges hH hW hS
        (fun _ _ _ => trivial), ?_, ?_⟩
      · intro p hp
        simp only [seam_start, rm_cell, List.mem_singleton] at hp
        rw [hp]
        exact ⟨le_refl _, by simp only; omega, fun _ => rfl⟩
      · intro p hp hy
        simp only [seam_start, rm_cell, List.mem_singleton] at hp
        rw [hp] at hy
        simp only at hy
        omega)
    (by
      rintro y s y1 y2 ⟨hs, hrows, hcov⟩
      have hstep := seam_step_spec dp y s.seam
      have hr := hstep.2.1 hs.2.2.2.1.1 (by rw [hd2]; exact hs.2.2.2.1.2)
      rw [hd2] at hr
      refine ⟨seam_body_inv sqrtf _ _ _ hT dp img lum H W S hd2 hW hS y s y1 (by omega) hs,
        ?_, ?_⟩
      · intro p hp
        simp only [seam_body, rm_cell, List.mem_cons] at hp
        rcases hp with hp | hp
        · rw [hp]
          exact ⟨le_refl _, by simp only; omega, fun _ => rfl⟩
        · have := hrows p hp
          exact ⟨by omega, this.2.1, fun h => by omega⟩
      · intro p hp hy x x1 x2 x3 x4
        simp only [seam_body, rm_cell, List.mem_cons] at hp
        rcases hp with hp | hp
        · rw [hp] at hy
          simp only at hy
          omega
        · have hrow := hrows p hp
          show MAT_AT (patch_row sqrtf (mat_rm_col_at_row s.lum y (seam_step dp y s.seam))
              (mat_rm_col_at_row s.edges y (seam_step dp y s.seam)) (y + 1) s.seam) p.1 x
            = sobel_filter_at sqrtf (mat_rm_col_at_row s.lum y (seam_step dp y s.seam)) p.1 x
          by_cases hp1 : p.1 = y + 1
          · have hp2 := hrow.2.2 hp1
            have := (patch_row_spec sqrtf (mat_rm_col_at_row s.lum y (seam_step dp y s.seam))
              (mat_rm_col_at_row s.edges y (seam_step dp y s.seam)) (y + 1) s.seam).2.2.2.1
              (x - s.seam) (by omega) (by omega) (by omega)
              (by
                have : (mat_rm_col_at_row s.lum y (seam_step dp y s.seam)).width = W :=
                  hs.2.1.2.1
                rw [this]; omega)
            have ex : s.seam + (x - s.seam) = x := by ring
            rw [ex] at this
            rw [hp1]
            exact this
          · rw [hframe (mat_rm_col_at_row s.lum y (seam_step dp y s.seam))
              (mat_rm_col_at_row s.edges y (seam_step dp y s.seam)) (y + 1) s.seam p.1 x
              hs.2.1.2.1 hs.2.2.1.2.2 hp1 x3 (by omega)]
            obtain ⟨_, _, _, m4⟩ := memmove_cell s.edges.items S W y (seam_step dp y s.seam)
            obtain ⟨_, _, _, l4⟩ := memmove_cell s.lum.items S W y (seam_step dp y s.seam)
            have e1 : MAT_AT (mat_rm_col_at_row s.edges y (seam_step dp y s.seam)) p.1 x
                = MAT_AT s.edges p.1 x := by
              simp only [MAT_AT, mat_rm_col_at_row, hs.2.2.1.2.1, hs.2.2.1.2.2]
              exact m4 hr.1 hS p.1 x (by omega) x3 (by omega)
            rw [e1, hcov p hp (by omega) x x1 x2 x3 x4]
            have hreads : ∀ r c, Access.lum_read r c ∈ sobel_reads s.lum p.1 x →
                MAT_AT (mat_rm_col_at_row s.lum y (seam_step dp y s.seam)) r c
                  = MAT_AT s.lum r c := by
              intro r c hrc
              obtain ⟨ci, cj, c1, c2, c3, c4, e2, hw⟩ := sobel_reads_spec s.lum p.1 x _ hrc
              rw [MAT_WITHIN_iff] at hw
              simp only [Access.lum_read.injEq] at e2
              rw [e2.1, e2.2]
              simp only [MAT_AT, mat_rm_col_at_row, hs.2.1.2.1, hs.2.1.2.2]
              exact l4 hr.1 hS _ _ (by omega) hw.2.1 (by rw [hs.2.1.2.1] at hw; omega)
            exact (sobel_filter_at_reads sqrtf s.lum
              (mat_rm_col_at_row s.lum y (seam_step dp y s.seam)) rfl rfl p.1 x hreads).symm)
  refine ⟨_, e, ?_, ?_, ?_⟩
  · intro p hp
    have := hrows p hp
    exact ⟨this.1, this.2.1, this.2.2⟩
  · intro p hp hy x x1 x2 x3 x4
    show MAT_AT (patch_row sqrtf s1.lum s1.edges 0 s1.seam) p.1 x
      = sobel_filter_at sqrtf s1.lum p.1 x
    rw [hframe s1.lum s1.edges 0 s1.seam p.1 x hinv.2.1.2.1 hinv.2.2.1.2.2 (by omega) x3
      (by omega)]
    exact hcov p hp hy x x1 x2 x3 x4
  · intro x x1 x2 x3 x4
    have x1a : s1.seam - 2 ≤ x := x1
    have x2a : x ≤ s1.seam + 1 := x2
    have := (patch_row_spec sqrtf s1.lum s1.edges 0 s1.seam).2.2.2.1
      (x - s1.seam) (by omega) (by omega) (by omega) (by rw [hinv.2.1.2.1]; omega)
    have ex : s1.seam + (x - s1.seam) = x := by ring
    rw [ex] at this
    exact this

end Properties

end SeamCarving
